import Mathlib

/-!
A shallow embedding of the text-classification and highlighting core of the
pager (`pager.c` of the repository) together with theorems checking the
specification's claims about it.

Conventions used throughout:
* C byte strings are modelled as `List Nat` (one entry per byte, no interior
  NUL bytes; the terminating NUL is the end of the list).
* C `int` values that can be negative (return codes, `-1` sentinels) are `Int`.
* Loops whose C termination argument is not structural are written with an
  explicit fuel argument that provably never runs out at the call sites used.
* External collaborators (compiled regexes, the locale's character
  classification and width functions, the terminal) are parameters: a compiled
  regex becomes a function from a scan offset to an optional match span.
-/

namespace Pager

/-- Bytes of a C string, one `Nat` per byte. -/
abbrev Byte := Nat

/-- The `ISSPACE` macro (C locale `isspace`): space, tab, newline, vertical
tab, form feed, carriage return. -/
def isSpaceB (b : Byte) : Bool := b == 32 || (9 ≤ b && b ≤ 13)

/-- Tags stored in `Line.type` (values of the external `MT_COLOR_*` enum; the
numeric values are irrelevant here, only their distinctness matters, so we fix
arbitrary distinct representatives). `-1` is the unclassified sentinel. -/
def MT_COLOR_NORMAL : Int := 6

/-- Tag for header lines matched by a header colour rule. -/
def MT_COLOR_HEADER : Int := 3

/-- Tag for header lines not matched by any header colour rule. -/
def MT_COLOR_HDEFAULT : Int := 4

/-- Tag for quoted lines. -/
def MT_COLOR_QUOTED : Int := 20

/-- Tag for signature lines. -/
def MT_COLOR_SIGNATURE : Int := 26

/-- Tag for attachment marker lines. -/
def MT_COLOR_ATTACHMENT : Int := 1

/-- The `NUM_SIG_LINES` constant of pager.c. -/
def NUM_SIG_LINES : Nat := 4

/-!
## check_sig (pager.c lines 230-259)

The backward signature-continuation test.  `info` gives the already-assigned
`type` of each line of the line store (indexed by line number); `n` is the
line to start walking upward from; `s` is the candidate line's text.
-/

/-- The counting loop of `check_sig`:
`while (n > 0 && count <= NUM_SIG_LINES) { if (info[n].type !=
MT_COLOR_SIGNATURE) break; count++; n--; }`.
The fuel is `NUM_SIG_LINES + 2 = 6`, one more than the maximal number of
iterations (`count` runs `0,1,...,5`), so it never runs out. -/
def sigLoopF (info : Nat → Int) : Nat → Int → Nat → Nat
  | 0, _, count => count
  | fuel + 1, n, count =>
    if n > 0 ∧ count ≤ NUM_SIG_LINES then
      if info n.toNat ≠ MT_COLOR_SIGNATURE then count
      else sigLoopF info fuel (n - 1) (count + 1)
    else count

/-- Number of consecutive Signature-typed lines found walking upward from line
`n` (capped: the loop stops counting once `count` exceeds `NUM_SIG_LINES`). -/
def sigLoop (info : Nat → Int) (n : Int) : Nat :=
  sigLoopF info (NUM_SIG_LINES + 2) n 0

/-- `check_sig(s, info, n)`.  Returns `0` (success: the candidate line
continues a signature block) or `-1`.  When more than `NUM_SIG_LINES`
consecutive signature lines sit above, the C code scans `s` and returns `0` at
the first byte that is not whitespace (`while (*s) { if (!ISSPACE(*s)) return
0; s++; } return -1;`): a line with visible content keeps the signature going
and an entirely-whitespace line ends it. -/
def check_sig (s : List Byte) (info : Nat → Int) (n : Int) : Int :=
  let count := sigLoop info n
  if count = 0 then -1
  else if count > NUM_SIG_LINES then
    if s.all (fun b => isSpaceB b) then -1 else 0
  else 0

/-!
## mutt_is_quote_line (pager.c lines 873-903)

A compiled regex is modelled as a function from the text to an optional match
span `(rm_so, rm_eo)` (the leftmost match).  `none` at the outer level models
an unset `C_QuoteRegex` / `C_Smileys`.
-/

/-- `mutt_is_quote_line(line, pmatch)`: returns the `is_quote` flag and the
final contents of `pmatch[0]`.  Mirrors the C control flow: if the quote regex
matches, and the smiley regex also matches at a *nonzero* offset, the line is
truncated at the smiley match and the quote regex is re-run on the truncated
text, whose verdict wins; a smiley match at offset zero leaves `is_quote`
`false`. -/
def mutt_is_quote_line (qrx srx : Option (List Byte → Option (Nat × Nat)))
    (line : List Byte) : Bool × Option (Nat × Nat) :=
  match qrx with
  | none => (false, none)
  | some q =>
    match q line with
    | none => (false, none)
    | some pm =>
      match srx with
      | none => (true, some pm)
      | some sm =>
        match sm line with
        | none => (true, some pm)
        | some smt =>
          if 0 < smt.1 then
            match q (line.take smt.1) with
            | some pm2 => (true, some pm2)
            | none => (false, some pm)
          else (false, some pm)

/-!
## Line store slots and their invalidation

The `struct Line` slot (pager.c lines 173-184) restricted to the fields the
invalidation code touches.  `struct Syntax` (lines 163-168) is named
`SyntaxChunk` here because its C name is reserved in this environment.
-/

/-- One entry of the per-line `syntax`/`search` chunk arrays: `struct Syntax
{ int color; int first; int last; }`. -/
structure SyntaxChunk where
  color : Int
  first : Int
  last : Int
deriving Repr, DecidableEq

/-- One slot of the line store: `struct Line` (the `is_cont_hdr` field is not
needed by the claims modelled here).  `syn` is the C `syntax` array, `search`
the nullable `search` array (`none` models a NULL pointer). -/
structure LineRec where
  offset : Int
  type : Int
  continuation : Int
  chunks : Int
  search_cnt : Int
  quote : Option Nat
  syn : List SyntaxChunk
  search : Option (List SyntaxChunk)
deriving Repr, DecidableEq

/-- Per-slot effect of the reflow/resize invalidation loop in
`pager_custom_redraw` (pager.c lines 2059-2071): every field is reset —
including `offset`, which is set to `0` — the `syntax` array is reallocated
down to one slot (keeping its first entry), and the `search` array is freed
when a search is compiled. -/
def reflowInvalidate (search_compiled : Bool) (l : LineRec) : LineRec :=
  { offset := 0, type := -1, continuation := 0, chunks := 0, search_cnt := -1,
    quote := none, syn := l.syn.take 1,
    search := if search_compiled ∧ l.search.isSome then none else l.search }

/-- Per-slot effect of the invalidation performed when a new search pattern is
compiled (`mutt_pager`, pager.c lines 2710-2715): only the search chunk list
and its count are cleared. -/
def searchInvalidate (l : LineRec) : LineRec :=
  { l with search := none, search_cnt := -1 }

/-!
## Resize scroll-position replay (pager.c lines 2051-2089)

`cont` maps a line index to its `continuation` flag.  The reflow code first
counts the non-continuation lines from `0` to the old `topline` (into
`rd->lines`), invalidates every slot, and then rescans the stream from the
start, stopping at the record whose non-continuation ordinal matches the
saved count.
-/

/-- The counting loop `rd->lines = -1; for (i = 0; i <= topline; i++) if
(!line_info[i].continuation) rd->lines++;`. -/
def flowLines (cont : Nat → Bool) (topline : Nat) : Int :=
  (List.range (topline + 1)).foldl
    (fun acc i => if cont i = false then acc + 1 else acc) (-1)

/-- The rescan loop: `i` is the next line index `display_line` will scan, `j`
the count of non-continuation lines seen so far minus one, `top` the current
`rd->topline` (initially `0`).  When line `i` is a non-continuation line and
`++j == lines`, `topline` is set to `i`; without an active search the loop
breaks there, with one it keeps scanning to the end of the stream.  The fuel
is the number of lines in the rescanned stream (`display_line` returns
nonzero at EOF). -/
def flowScan (cont' : Nat → Bool) (lines : Int) (searchFlag : Bool) :
    Nat → Nat → Int → Nat → Nat
  | 0, _, _, top => top
  | fuel + 1, i, j, top =>
    if cont' i = false then
      if j + 1 = lines then
        if searchFlag then flowScan cont' lines searchFlag fuel (i + 1) (j + 1) i
        else i
      else flowScan cont' lines searchFlag fuel (i + 1) (j + 1) top
    else flowScan cont' lines searchFlag fuel (i + 1) j top

/-- The new `rd->topline` after the reflow rescan, for a rescanned stream of
`numLines` lines whose continuation flags are `cont'`. -/
def newTopline (cont' : Nat → Bool) (numLines : Nat) (lines : Int)
    (searchFlag : Bool) : Nat :=
  flowScan cont' lines searchFlag numLines 0 (-1) 0

/-- Number of non-continuation lines among indices `0, ..., i - 1`. -/
def ncBelow (cont : Nat → Bool) (i : Nat) : Nat :=
  ((List.range i).filter (fun x => !cont x)).length

/-!
## The highlight passes of resolve_types (pager.c lines 1026-1174)

A configured colour rule's compiled regex is modelled by its behaviour under
`regexec(&rule->regex, buf + offset, 1, pmatch, offset ? REG_NOTBOL : 0)`: a
function from the scan offset to the optional leftmost match `(rm_so, rm_eo)`
relative to that offset (the `REG_NOTBOL` effect is part of the behaviour).
`len` is the length of the clean text after the trailing newline has been
masked off, so `!buf[offset]` is `len ≤ offset`.
-/

/-- `SHRT_MAX`: the chunk-count cap checked by the body/header pass. -/
def SHRT_MAX : Nat := 32767

/-- One entry of a colour rule list: `struct ColorLine` restricted to what
the highlight pass reads — the compiled regex (as its match behaviour) and
the resolved colour `pair`. -/
structure ColorLine where
  matchAt : Nat → Option (Nat × Nat)
  pair : Int

/-- The mutable state of one scan round: the `found` and `null_rx` flags, the
chunk list built so far (`line_info[n].syntax` up to `chunks` entries), and
whether the round hit the `SHRT_MAX` cap and broke out of the rule loop. -/
structure RoundSt where
  found : Bool
  null_rx : Bool
  chunks : List SyntaxChunk
  capBreak : Bool

/-- Overwrite the last element of the chunk array (`syntax[i]` with
`i = chunks - 1`). -/
def setLast (l : List SyntaxChunk) (c : SyntaxChunk) : List SyntaxChunk :=
  l.dropLast ++ [c]

/-- One round of the body/header rule loop (`STAILQ_FOREACH` at pager.c lines
1056-1102): every not-yet-stopped rule is run at the scan offset; a rule that
fails is marked `stop_matching`; the first non-empty match appends a chunk
(unless the count sits at `SHRT_MAX`, in which case the loop breaks), and
later non-empty matches overwrite it when they start earlier, or start at the
same place and end later.  Returns the updated `(rule, stop_matching)` list
and round state. -/
def bodyRules (offset : Nat) :
    List (ColorLine × Bool) → RoundSt → (List (ColorLine × Bool) × RoundSt)
  | [], st => ([], st)
  | (cl, stopped) :: rest, st =>
    if stopped then
      let (rest', stout) := bodyRules offset rest st
      ((cl, true) :: rest', stout)
    else
      match cl.matchAt offset with
      | none =>
        let (rest', stout) := bodyRules offset rest st
        ((cl, true) :: rest', stout)
      | some (so, eo) =>
        if eo ≠ so then
          if st.found = false then
            if st.chunks.length = SHRT_MAX then
              ((cl, false) :: rest, { st with null_rx := false, capBreak := true })
            else
              let st' := { st with
                found := true
                null_rx := false
                chunks := st.chunks ++
                  [⟨cl.pair, ((offset + so : Nat) : Int), ((offset + eo : Nat) : Int)⟩] }
              let (rest', stout) := bodyRules offset rest st'
              ((cl, false) :: rest', stout)
          else
            let cur := st.chunks.getLastD ⟨0, 0, 0⟩
            let newc : SyntaxChunk :=
              ⟨cl.pair, ((offset + so : Nat) : Int), ((offset + eo : Nat) : Int)⟩
            let st' :=
              if newc.first < cur.first ∨ (newc.first = cur.first ∧ cur.last < newc.last) then
                { st with null_rx := false, chunks := setLast st.chunks newc }
              else
                { st with null_rx := false }
            let (rest', stout) := bodyRules offset rest st'
            ((cl, false) :: rest', stout)
        else
          let (rest', stout) := bodyRules offset rest { st with null_rx := true }
          ((cl, false) :: rest', stout)

/-- The `do { ... } while (found || null_rx)` scan loop of the body/header
pass (pager.c lines 1049-1108).  After each round the offset advances by one
byte if the round ended with `null_rx` set, otherwise to the end of the chunk
recorded this round; the loop ends when a round records nothing.  The fuel
argument never runs out for well-behaved rules (see the fuel-stability
theorem). -/
def bodyLoop (len : Nat) :
    Nat → Nat → List (ColorLine × Bool) → List SyntaxChunk → List SyntaxChunk
  | 0, _, _, chunks => chunks
  | fuel + 1, offset, rs, chunks =>
    if len ≤ offset then chunks
    else
      let (rs', st) := bodyRules offset rs ⟨false, false, chunks, false⟩
      if st.null_rx then bodyLoop len fuel (offset + 1) rs' st.chunks
      else if st.found then
        bodyLoop len fuel (st.chunks.getLastD ⟨0, 0, 0⟩).last.toNat rs' st.chunks
      else st.chunks

/-- The whole body/header highlight pass over one line: `stop_matching` is
reset for every rule, `chunks` starts at `0`, the scan offset at `0`. -/
def bodyPass (len : Nat) (rules : List ColorLine) : List SyntaxChunk :=
  bodyLoop len (len + 1) 0 (rules.map (fun cl => (cl, false))) []

/-- One round of the attachment rule loop (pager.c lines 1133-1165): same
shape as the body/header round but with no `stop_matching` bookkeeping and no
`SHRT_MAX` cap check. -/
def attachRules (offset : Nat) : List ColorLine → RoundSt → RoundSt
  | [], st => st
  | cl :: rest, st =>
    match cl.matchAt offset with
    | none => attachRules offset rest st
    | some (so, eo) =>
      if eo ≠ so then
        if st.found = false then
          attachRules offset rest { st with
            found := true
            null_rx := false
            chunks := st.chunks ++
              [⟨cl.pair, ((offset + so : Nat) : Int), ((offset + eo : Nat) : Int)⟩] }
        else
          let cur := st.chunks.getLastD ⟨0, 0, 0⟩
          let newc : SyntaxChunk :=
            ⟨cl.pair, ((offset + so : Nat) : Int), ((offset + eo : Nat) : Int)⟩
          let st' :=
            if newc.first < cur.first ∨ (newc.first = cur.first ∧ cur.last < newc.last) then
              { st with null_rx := false, chunks := setLast st.chunks newc }
            else
              { st with null_rx := false }
          attachRules offset rest st'
      else
        attachRules offset rest { st with null_rx := true }

/-- The scan loop of the attachment pass (pager.c lines 1126-1171). -/
def attachLoop (len : Nat) :
    Nat → Nat → List ColorLine → List SyntaxChunk → List SyntaxChunk
  | 0, _, _, chunks => chunks
  | fuel + 1, offset, rules, chunks =>
    if len ≤ offset then chunks
    else
      let st := attachRules offset rules ⟨false, false, chunks, false⟩
      if st.null_rx then attachLoop len fuel (offset + 1) rules st.chunks
      else if st.found then
        attachLoop len fuel (st.chunks.getLastD ⟨0, 0, 0⟩).last.toNat rules st.chunks
      else st.chunks

/-- The whole attachment highlight pass over one line. -/
def attachPass (len : Nat) (rules : List ColorLine) : List SyntaxChunk :=
  attachLoop len (len + 1) 0 rules []

/-- The claim's tie-break comparator, modelled from the spec's words: of two
chunks the better is the one with the earlier start; on a start tie, the one
with the longer match; on a full tie, the incumbent (earlier rule) wins. -/
def betterOf (b c : SyntaxChunk) : SyntaxChunk :=
  if c.first < b.first ∨ (c.first = b.first ∧ b.last < c.last) then c else b

/-- The candidate chunks of one scan round: for every rule not marked
`stop_matching` whose regex produces a non-empty match at the offset, the
would-be chunk, in rule declaration order. -/
def candidates (offset : Nat) (rs : List (ColorLine × Bool)) : List SyntaxChunk :=
  rs.filterMap (fun p =>
    if p.2 then none
    else
      match p.1.matchAt offset with
      | some (s, e) =>
        if e ≠ s then some ⟨p.1.pair, ((offset + s : Nat) : Int), ((offset + e : Nat) : Int)⟩
        else none
      | none => none)

/-- The best candidate of a round under `betterOf`. -/
def bestChunk : List SyntaxChunk → Option SyntaxChunk
  | [] => none
  | c :: cs => some (cs.foldl betterOf c)

/-- Chunk `r` is at least as good as chunk `c` under the claim's tie-break:
it starts no later, and on a start tie it lasts at least as long. -/
def noWorse (r c : SyntaxChunk) : Prop :=
  r.first ≤ c.first ∧ (r.first = c.first → c.last ≤ r.last)

/-!
## fill_buffer's attribute stripping (pager.c lines 1293-1352)

`fill_buffer` reads a raw line into `buf` and copies it to `fmt` with
backspace-overstrike, ANSI colour sequences and the private marker sequences
removed.  `attM` and `protM` are the `AttachmentMarker` and
`ProtectedHeaderMarker` strings (external globals).
-/

/-- C `isdigit` for a byte. -/
def isDigitB (b : Byte) : Bool := 48 ≤ b && b ≤ 57

/-- `is_ansi(buf)` (pager.c lines 1182-1187): skip digits and semicolons, then
test whether the terminator is `m`.  The end of the list is the terminating
NUL. -/
def is_ansiB : List Byte → Bool
  | [] => false
  | b :: rest =>
    if b ≠ 0 ∧ (isDigitB b ∨ b = 59) then is_ansiB rest
    else b == 109

/-- `check_marker(q, p)` (pager.c lines 837-842): walk both strings while the
bytes agree and neither has ended or reached BEL; result `0` means the marker
matched. -/
def check_marker (q p : List Byte) : Int :=
  if h : (q.headD 0 = p.headD 0 ∧ q.headD 0 ≠ 0 ∧ p.headD 0 ≠ 0 ∧
      q.headD 0 ≠ 7 ∧ p.headD 0 ≠ 7) then
    check_marker q.tail p.tail
  else
    (p.headD 0 : Int) - (q.headD 0 : Int)
termination_by q.length
decreasing_by
  have hq : q ≠ [] := by
    intro he
    rw [he] at h
    simp at h
  cases q with
  | nil => exact absurd rfl hq
  | cons a as => simp

/-- `while (*p++ != t);` — drop bytes through the first occurrence of `t`. -/
def skipPast (t : Byte) : List Byte → List Byte
  | [] => []
  | b :: rest => if b = t then rest else skipPast t rest

/-- The ANSI-sequence test of the strip loop at the current position:
`(*p == 27) && (*(p + 1) == '[') && is_ansi(p + 2)`. -/
def ansiTrigger : List Byte → Bool
  | [] => false
  | p :: rest => p == 27 && rest.headD 0 == 91 && is_ansiB rest.tail

/-- The marker-sequence test of the strip loop at the current position. -/
def markerTrigger (attM protM : List Byte) : List Byte → Bool
  | [] => false
  | p :: rest => p == 27 && rest.headD 0 == 93 &&
      (check_marker attM (p :: rest) == 0 || check_marker protM (p :: rest) == 0)

/-- The copy loop of `fill_buffer` (pager.c lines 1317-1349).  `started` is
`p > *buf` (at least one byte consumed); `acc` is the output written so far,
in reverse.  The fuel strictly dominates the input length, so it never runs
out. -/
def stripLoopF (attM protM : List Byte) : Nat → List Byte → Bool → List Byte → List Byte
  | 0, _, _, acc => acc.reverse
  | fuel + 1, input, started, acc =>
    match input with
    | [] => acc.reverse
    | p :: rest =>
      if p = 8 ∧ started then
        match rest with
        | q :: rest2 =>
          if q = 95 then stripLoopF attM protM fuel rest2 true acc
          else if q ≠ 0 ∧ acc ≠ [] then
            stripLoopF attM protM fuel rest2 true (q :: acc.tail)
          else stripLoopF attM protM fuel rest true (8 :: acc)
        | [] => stripLoopF attM protM fuel [] true (8 :: acc)
      else if ansiTrigger (p :: rest) then
        stripLoopF attM protM fuel (skipPast 109 (p :: rest)) true acc
      else if markerTrigger attM protM (p :: rest) then
        stripLoopF attM protM fuel (skipPast 7 (p :: rest)) true acc
      else stripLoopF attM protM fuel rest true (p :: acc)

/-- The `fmt` (clean) text produced from the raw line `input`. -/
def fill_buffer_strip (attM protM input : List Byte) : List Byte :=
  stripLoopF attM protM (input.length + 1) input false []

/-!
## format_line (pager.c lines 1369-1540)

The multibyte decoder (`mbrtowc`), the locale's printability and width
functions (`IsWPrint`, `wcwidth`) and `mutt_mb_is_display_corrupting_utf8`
are external collaborators, so the input is the decoded character stream: a
`DChar` is either a decoded character with its byte length `k`, or an
undecodable byte (the `mbrtowc` error case, rendered as a 4-column octal
escape).  Rendering effects are recorded as an event list of
`(column, character, special)` triples, one per emitted glyph, in place of
the curses calls; `resolve_color` itself (terminal painting) is out of
scope.
-/

/-- One element of the decoded character stream. -/
inductive DChar where
  | ok (wc : Nat) (k : Nat) : DChar
  | bad (b : Byte) : DChar
deriving Repr, DecidableEq

/-- The character value the C code would read at this position (for the ANSI
and marker scans, which work bytewise on ASCII). -/
def wcOf : DChar → Nat
  | .ok w _ => w
  | .bad b => b

/-- Byte length of one stream element. -/
def kOf : DChar → Nat
  | .ok _ k => k
  | .bad _ => 1

/-- The locale/configuration environment of `format_line`. -/
structure FmtEnv where
  isWPrint : Nat → Bool
  wcwidthF : Nat → Int
  utf8 : Bool
  corrupting : Nat → Bool
  wrap_cols : Int
  showFlags : Bool
deriving Inhabited

/-- ANSI attribute flag bits (pager.c lines 187-195). -/
def ANSI_OFF : Nat := 1

/-- Blink bit. -/
def ANSI_BLINK : Nat := 2

/-- Bold bit. -/
def ANSI_BOLD : Nat := 4

/-- Underline bit. -/
def ANSI_UNDERLINE : Nat := 8

/-- Reverse-video bit. -/
def ANSI_REVERSE : Nat := 16

/-- Colour-selected bit. -/
def ANSI_COLOR : Nat := 32

/-- Curses `A_BOLD`/`A_UNDERLINE` attribute bits used for the overstrike
`special` flags (values are the terminal library's; only their distinctness
as bits matters). -/
def A_BOLD : Nat := 1

/-- Curses underline bit. -/
def A_UNDERLINE : Nat := 2

/-- `struct AnsiAttr` (pager.c lines 200-206). -/
structure AnsiAttr where
  attr : Nat
  fg : Int
  bg : Int
  pair : Int
deriving Repr, DecidableEq

/-- `is_ansi` applied to the decoded stream after `ESC [`. -/
def is_ansiD : List DChar → Bool
  | [] => false
  | d :: rest =>
    if wcOf d ≠ 0 ∧ (isDigitB (wcOf d) ∨ wcOf d = 59) then is_ansiD rest
    else wcOf d == 109

/-- The field loop of `grok_ansi` (pager.c lines 1196-1279) on the decoded
stream positioned after `ESC [`; processes attribute fields up to and
including the terminating `m`, returning the updated attributes, the rest of
the stream, and the bytes consumed.  (The colour-pair freeing calls go to the
external allocator and have no counterpart here.) -/
def grokLoop : Nat → AnsiAttr → List DChar → (AnsiAttr × List DChar × Nat)
  | 0, a, l => (a, l, 0)
  | fuel + 1, a, l =>
    match l with
    | [] => (a, [], 0)
    | d :: rest =>
      let w := wcOf d
      if w = 109 then (a, rest, kOf d)
      else if w = 49 ∧ (rest.headD (.ok 109 1) |> wcOf) = 109 then
        -- "1m": bold, then the terminator
        ({ a with attr := a.attr ||| ANSI_BOLD }, rest.tail, kOf d + kOf (rest.headD (.ok 109 1)))
      else if w = 49 ∧ (rest.headD (.ok 109 1) |> wcOf) = 59 then
        let (a2, r2, n2) := grokLoop fuel { a with attr := a.attr ||| ANSI_BOLD } rest.tail
        (a2, r2, kOf d + kOf (rest.headD (.ok 109 1)) + n2)
      else if w = 52 ∧ (rest.headD (.ok 109 1) |> wcOf) = 109 then
        ({ a with attr := a.attr ||| ANSI_UNDERLINE }, rest.tail, kOf d + kOf (rest.headD (.ok 109 1)))
      else if w = 52 ∧ (rest.headD (.ok 109 1) |> wcOf) = 59 then
        let (a2, r2, n2) := grokLoop fuel { a with attr := a.attr ||| ANSI_UNDERLINE } rest.tail
        (a2, r2, kOf d + kOf (rest.headD (.ok 109 1)) + n2)
      else if w = 53 ∧ (rest.headD (.ok 109 1) |> wcOf) = 109 then
        ({ a with attr := a.attr ||| ANSI_BLINK }, rest.tail, kOf d + kOf (rest.headD (.ok 109 1)))
      else if w = 53 ∧ (rest.headD (.ok 109 1) |> wcOf) = 59 then
        let (a2, r2, n2) := grokLoop fuel { a with attr := a.attr ||| ANSI_BLINK } rest.tail
        (a2, r2, kOf d + kOf (rest.headD (.ok 109 1)) + n2)
      else if w = 55 ∧ (rest.headD (.ok 109 1) |> wcOf) = 109 then
        ({ a with attr := a.attr ||| ANSI_REVERSE }, rest.tail, kOf d + kOf (rest.headD (.ok 109 1)))
      else if w = 55 ∧ (rest.headD (.ok 109 1) |> wcOf) = 59 then
        let (a2, r2, n2) := grokLoop fuel { a with attr := a.attr ||| ANSI_REVERSE } rest.tail
        (a2, r2, kOf d + kOf (rest.headD (.ok 109 1)) + n2)
      else if w = 48 ∧ (rest.headD (.ok 109 1) |> wcOf) = 109 then
        ({ attr := ANSI_OFF, fg := a.fg, bg := a.bg, pair := -1 }, rest.tail,
          kOf d + kOf (rest.headD (.ok 109 1)))
      else if w = 48 ∧ (rest.headD (.ok 109 1) |> wcOf) = 59 then
        let (a2, r2, n2) := grokLoop fuel
          { attr := ANSI_OFF, fg := a.fg, bg := a.bg, pair := -1 } rest.tail
        (a2, r2, kOf d + kOf (rest.headD (.ok 109 1)) + n2)
      else if w = 51 ∧ isDigitB (rest.headD (.ok 109 1) |> wcOf) then
        let a2 : AnsiAttr :=
          ⟨a.attr ||| ANSI_COLOR, ((rest.headD (.ok 109 1) |> wcOf) : Int) - 48, a.bg, -1⟩
        let n01 := kOf d + kOf (rest.headD (.ok 109 1))
        match rest.tail with
        | [] => (a2, [], n01)
        | d3 :: r3 =>
          if wcOf d3 = 109 then (a2, r3, n01 + kOf d3)
          else
            let (a3, r4, n3) := grokLoop fuel a2 r3
            (a3, r4, n01 + kOf d3 + n3)
      else if w = 52 ∧ isDigitB (rest.headD (.ok 109 1) |> wcOf) then
        let a2 : AnsiAttr :=
          ⟨a.attr ||| ANSI_COLOR, a.fg, ((rest.headD (.ok 109 1) |> wcOf) : Int) - 48, -1⟩
        let n01 := kOf d + kOf (rest.headD (.ok 109 1))
        match rest.tail with
        | [] => (a2, [], n01)
        | d3 :: r3 =>
          if wcOf d3 = 109 then (a2, r3, n01 + kOf d3)
          else
            let (a3, r4, n3) := grokLoop fuel a2 r3
            (a3, r4, n01 + kOf d3 + n3)
      else
        -- unrecognised field: skip to the next ';' (or the final 'm')
        let (a2, r2, n2) := grokLoop fuel a rest
        (a2, r2, kOf d + n2)

/-- Drop decoded characters through the first occurrence of character `t`,
also reporting the bytes consumed (`while (buf[ch++] != t)`). -/
def skipPastD (t : Nat) : List DChar → (List DChar × Nat)
  | [] => ([], 0)
  | d :: rest =>
    if wcOf d = t then (rest, kOf d)
    else
      let (r, n) := skipPastD t rest
      (r, kOf d + n)

/-- `check_marker` against the decoded stream (markers are ASCII). -/
def check_markerD (q : List Byte) (p : List DChar) : Int :=
  check_marker q (p.map wcOf)

/-- The `while (...ESC [ ...)` ANSI-consuming loop at the head of each
`format_line` iteration (pager.c lines 1391-1392). -/
def ansiSkipLoop (fuel : Nat) (a : AnsiAttr) (l : List DChar) : AnsiAttr × List DChar × Nat :=
  match fuel with
  | 0 => (a, l, 0)
  | fuel + 1 =>
    match l with
    | d1 :: d2 :: rest =>
      if wcOf d1 = 27 ∧ wcOf d2 = 91 ∧ is_ansiD rest then
        let (a2, r2, n2) := grokLoop (rest.length + 1) a rest
        let (a3, r3, n3) := ansiSkipLoop fuel a2 r2
        (a3, r3, kOf d1 + kOf d2 + n2 + n3)
      else (a, l, 0)
    | _ => (a, l, 0)

/-- The marker-consuming loop of each `format_line` iteration (pager.c lines
1394-1401). -/
def markerSkipLoop (attM protM : List Byte) (fuel : Nat) (l : List DChar) :
    List DChar × Nat :=
  match fuel with
  | 0 => (l, 0)
  | fuel + 1 =>
    match l with
    | d1 :: d2 :: rest =>
      if wcOf d1 = 27 ∧ wcOf d2 = 93 ∧
          (check_markerD attM (d1 :: d2 :: rest) = 0 ∨
            check_markerD protM (d1 :: d2 :: rest) = 0) then
        let (r2, n2) := skipPastD 7 (d1 :: d2 :: rest)
        let (r3, n3) := markerSkipLoop attM protM fuel r2
        (r3, n2 + n3)
      else (l, 0)
    | _ => (l, 0)

/-- The backspace-overstrike merging loop (pager.c lines 1441-1472): while the
next decoded character is a backspace followed by a printable character, merge
it into the current character, accumulating `special` attribute bits.
Returns the final character, its `special`, the final pending byte length
`k`, the bytes already committed to the cursor (`ch += k + k1`), and the rest
of the stream. -/
def mergeLoop (env : FmtEnv) : Nat → Nat → Nat → Nat → List DChar →
    (Nat × Nat × Nat × Nat × List DChar)
  | 0, wc, special, k, l => (wc, special, k, 0, l)
  | fuel + 1, wc, special, k, l =>
    match l with
    | .ok 8 k1 :: d2 :: rest2 =>
      match d2 with
      | .ok wc2 k2 =>
        if k2 ≠ 0 ∧ env.isWPrint wc2 then
          if wc = wc2 then
            let special2 := special |||
              (if wc = 95 ∧ special &&& A_UNDERLINE ≠ 0 then A_UNDERLINE else A_BOLD)
            let (w3, s3, k3, n3, r3) := mergeLoop env fuel wc special2 k2 rest2
            (w3, s3, k3, k + k1 + n3, r3)
          else if wc = 95 ∨ wc2 = 95 then
            let special2 := special ||| A_UNDERLINE
            let wcn := if wc2 = 95 then wc else wc2
            let (w3, s3, k3, n3, r3) := mergeLoop env fuel wcn special2 k2 rest2
            (w3, s3, k3, k + k1 + n3, r3)
          else
            let (w3, s3, k3, n3, r3) := mergeLoop env fuel wc2 special k2 rest2
            (w3, s3, k3, k + k1 + n3, r3)
        else (wc, special, k, 0, l)
      | .bad _ => (wc, special, k, 0, l)
    | _ => (wc, special, k, 0, l)

/-- The state threaded through the `format_line` loop: byte cursor `ch`,
visible-byte cursor `vch`, display column, last-whitespace byte index,
the `special`/`last_special` overstrike flags, and the glyph events emitted
so far (column, character, `special`). -/
structure FmtSt where
  ch : Nat
  vch : Nat
  col : Int
  space : Int
  special : Nat
  last_special : Int
  events : List (Int × Nat × Nat)
deriving Repr, DecidableEq

/-- The main per-character loop of `format_line`.  One iteration: consume
ANSI sequences, consume marker sequences, decode one character (octal-escape
for undecodable bytes), skip zero-width or display-corrupting characters,
merge backspace overstrikes, then emit: printable characters advance by
`wcwidth`, newline stops, tab advances to the next multiple of 8, control
characters take 2 columns as caret notation, other characters below 0x100
take 4 columns as octal, and characters of 0x100 and above emit one
replacement glyph but advance the column by the character's byte length `k`.
Whenever the character (plus its width) does not fit in `wrap_cols` the loop
stops without consuming it. -/
def formatLineF (env : FmtEnv) (attM protM : List Byte) :
    Nat → List DChar → AnsiAttr → FmtSt → (FmtSt × AnsiAttr)
  | 0, _, a, st => (st, a)
  | fuel + 1, stream, a, st =>
    let (a1, s1, n1) := ansiSkipLoop (stream.length + 1) a stream
    let (s2, n2) := markerSkipLoop attM protM (s1.length + 1) s1
    let st := { st with ch := st.ch + n1 + n2 }
    match s2 with
    | [] => (st, a1)
    | .bad b :: rest =>
      if st.col + 4 > env.wrap_cols then (st, a1)
      else
        formatLineF env attM protM fuel rest a1
          { st with
            ch := st.ch + 1
            vch := st.vch + 1
            col := st.col + 4
            events := st.events ++ [(st.col, b, st.special)] }
    | .ok wc0 k0 :: rest =>
      let k := if k0 = 0 then 1 else k0
      if env.utf8 ∧ (wc0 = 0x200B ∨ wc0 = 0xFEFF) then
        formatLineF env attM protM fuel rest a1
          { st with ch := st.ch + k, vch := st.vch + k }
      else if env.utf8 ∧ env.corrupting wc0 then
        formatLineF env attM protM fuel rest a1
          { st with ch := st.ch + k, vch := st.vch + k }
      else
        let merged :=
          if env.isWPrint wc0 then mergeLoop env (rest.length + 1) wc0 0 k rest
          else (wc0, 0, k, 0, rest)
        let wc := merged.1
        let special := merged.2.1
        let k := merged.2.2.1
        let nmerge := merged.2.2.2.1
        let rest := merged.2.2.2.2
        let gate := env.showFlags ∨ special ≠ 0 ∨ st.last_special ≠ 0 ∨ a1.attr ≠ 0
        let st := { st with
          ch := st.ch + nmerge
          special := special
          last_special := if gate then (special : Int) else st.last_special }
        if env.isWPrint wc ∨ (env.utf8 ∧ (wc = 0xA0 ∨ wc = 0x202F)) then
          let st := if wc = 32 then { st with space := (st.ch : Int) } else st
          let t := env.wcwidthF wc
          if st.col + t > env.wrap_cols then (st, a1)
          else
            formatLineF env attM protM fuel rest a1
              { st with
                ch := st.ch + k
                vch := st.vch + k
                col := st.col + t
                events := st.events ++ [(st.col, wc, special)] }
        else if wc = 10 then (st, a1)
        else if wc = 9 then
          let st := { st with space := (st.ch : Int) }
          let t := (st.col - st.col % 8) + 8
          if t > env.wrap_cols then (st, a1)
          else
            formatLineF env attM protM fuel rest a1
              { st with
                ch := st.ch + k
                vch := st.vch + k
                col := t
                events := st.events ++ [(st.col, wc, special)] }
        else if wc < 32 ∨ wc = 127 then
          if st.col + 2 > env.wrap_cols then (st, a1)
          else
            formatLineF env attM protM fuel rest a1
              { st with
                ch := st.ch + k
                vch := st.vch + k
                col := st.col + 2
                events := st.events ++ [(st.col, wc, special)] }
        else if wc < 256 then
          if st.col + 4 > env.wrap_cols then (st, a1)
          else
            formatLineF env attM protM fuel rest a1
              { st with
                ch := st.ch + k
                vch := st.vch + k
                col := st.col + 4
                events := st.events ++ [(st.col, wc, special)] }
        else
          if st.col + 1 > env.wrap_cols then (st, a1)
          else
            formatLineF env attM protM fuel rest a1
              { st with
                ch := st.ch + k
                vch := st.vch + k
                col := st.col + (k : Int)
                events := st.events ++ [(st.col, wc, special)] }

/-- `format_line` on a decoded stream, starting at column `col0` with fresh
ANSI attributes. -/
def format_line (env : FmtEnv) (attM protM : List Byte) (stream : List DChar)
    (col0 : Int) : FmtSt × AnsiAttr :=
  formatLineF env attM protM (stream.length + 1) stream ⟨0, 0, 0, -1⟩
    { ch := 0, vch := 0, col := col0, space := -1, special := 0,
      last_special := -1, events := [] }

/-- The condition under which the ANSI-consuming loop of `format_line` fires
at the head of the stream. -/
def ansiHeadD : List DChar → Prop
  | d1 :: d2 :: rest => wcOf d1 = 27 ∧ wcOf d2 = 91 ∧ is_ansiD rest
  | _ => False

/-- The condition under which the marker-consuming loop of `format_line`
fires at the head of the stream. -/
def markerHeadD (attM protM : List Byte) : List DChar → Prop
  | d1 :: d2 :: rest => wcOf d1 = 27 ∧ wcOf d2 = 93 ∧
      (check_markerD attM (d1 :: d2 :: rest) = 0 ∨
        check_markerD protM (d1 :: d2 :: rest) = 0)
  | _ => False

/-!
## The quote classifier (pager.c lines 440-826)

`struct QClass` nodes form a forest: `prefix`/`length` hold the quote
prefix string, `index` the depth index fed to the colour palette,
`color` the assigned colour, and `down`/`next` the first child and the
next sibling.  The model gives every allocated node an allocation id
`nid` so that "same node" (pointer equality in C) is expressible.  The
globals `ColorQuote` (palette) and `ColorQuoteUsed` (palette size) are
passed as the parameters `pal` and `used`.
-/

/-- A `struct QClass` node: allocation id, prefix bytes, depth index,
colour, and the list of children (`down` chain in sibling order). -/
inductive QTree where
  | mk (nid : Nat) (pfx : List Byte) (idx : Nat) (color : Nat) (kids : List QTree)

/-- Allocation id of a node. -/
def QTree.nid : QTree → Nat
  | .mk n _ _ _ _ => n

/-- Prefix string of a node (`prefix`/`length`). -/
def QTree.pfx : QTree → List Byte
  | .mk _ p _ _ _ => p

/-- Depth index of a node (`index`). -/
def QTree.idx : QTree → Nat
  | .mk _ _ i _ _ => i

/-- Colour of a node (`color`). -/
def QTree.color : QTree → Nat
  | .mk _ _ _ c _ => c

/-- Children of a node (`down` chain). -/
def QTree.kids : QTree → List QTree
  | .mk _ _ _ _ k => k

/-- Append a child at the end of the `down` chain (the splice at pager.c
lines 612-621 walks `ptr->next` to the last child first). -/
def QTree.addKid : QTree → QTree → QTree
  | .mk n p i c kids, k => .mk n p i c (kids ++ [k])

/-- Replace the children list of a node. -/
def QTree.withKids : QTree → List QTree → QTree
  | .mk n p i c _, ks => .mk n p i c ks

/-- The classifier state: the top-level `*quote_list` forest, the
`q_level` counter, and the next allocation id. -/
structure QState where
  forest : List QTree
  qLevel : Nat
  nextNid : Nat

/-- `ColorQuote[i % ColorQuoteUsed]` (new_class_color, pager.c line 448). -/
def colorOf (pal : List Nat) (used : Nat) (i : Nat) : Nat :=
  pal.getD (i % used) 0

/-- Flatten a forest, pairing each node with the prefixes of its
ancestors (innermost first), on top of the ambient chain `anc`. -/
def flatA (anc : List (List Byte)) : List QTree → List (List (List Byte) × QTree)
  | [] => []
  | .mk n p i c kids :: rest =>
      (anc, .mk n p i c kids) :: (flatA (p :: anc) kids ++ flatA anc rest)

/-- The id, prefix, index and colour of a flattened entry (everything
the invariants track about a node except its position). -/
def entryInfo (e : List (List Byte) × QTree) : Nat × List Byte × Nat × Nat :=
  (e.2.nid, e.2.pfx, e.2.idx, e.2.color)

/-- Two prefixes, neither a prefix of the other (the relation between
siblings that the scan preserves). -/
def pfxIncomp (a b : List Byte) : Prop := ¬ a <+: b ∧ ¬ b <+: a

/-- Outcome of the phase-B scan (`tmp` already created): either the
sibling list is exhausted (`cont`, with the nodes kept at this level,
the final `tmp`, and the final captured `index`), or an exact match was
hit after `tmp` was spliced in (the `return q_list` at pager.c line 663
with `tmp` live, reachable only from a corrupt forest). -/
inductive BOut where
  | cont (pr : List QTree) (tmp : QTree) (cap : Nat)
  | exact (pr : List QTree) (tmp : QTree) (t : QTree)

/-- The scan of the remaining siblings after `tmp` was created
(pager.c lines 555-628 with `tmp != NULL`, and the same branch of the
inner loop): a sibling of which the new string is a strict prefix is
unlinked and appended to `tmp`'s children, overwriting the captured
`index`; an equal-length match returns it; anything else is kept. -/
def scanB (q : List Byte) (off : Nat) : QTree → Nat → List QTree → BOut
  | tmp, cap, [] => .cont [] tmp cap
  | tmp, cap, c :: rest =>
    if q.length ≤ c.pfx.length ∧ q.drop off = (c.pfx.drop off).take (q.length - off) then
      if q.length = c.pfx.length then .exact (c :: rest) tmp c
      else scanB q off (tmp.addKid c) c.idx rest
    else
      match scanB q off tmp cap rest with
      | .cont pr tmp' cap' => .cont (c :: pr) tmp' cap'
      | .exact pr tmp' t => .exact (c :: pr) tmp' t

/-- Outcome of the main scan loop of `classify_quote`: an exact match
(`found`), no related node anywhere (`nofind`, insert at the top), a
fresh subclass inserted below a node (`fresh`, the new sibling list of
the level that was scanned and the new node), a shorter prefix spliced
in above existing nodes (`spliced`, with the new level list, the `tmp`
node and the captured insertion index), the corrupt-forest early return
(`exactB`), or fuel exhaustion (`out`). -/
inductive AOut where
  | found (t : QTree)
  | nofind
  | fresh (sibs : List QTree) (t : QTree)
  | spliced (sibs : List QTree) (tmp : QTree) (cap : Nat)
  | exactB (sibs : List QTree) (t : QTree)
  | out

/-- Re-attach a sibling that the scan skipped (`q_list = q_list->next`)
in front of the transformed remainder of its level. -/
def AOut.consSkip (c : QTree) : AOut → AOut
  | .found t => .found t
  | .nofind => .nofind
  | .fresh l t => .fresh (c :: l) t
  | .spliced l tmp cap => .spliced (c :: l) tmp cap
  | .exactB l t => .exactB (c :: l) t
  | .out => .out

/-- The main scan of `classify_quote` (pager.c lines 544-797), one
constructor application per C loop iteration.  `off` is the running
`offset` (0 at the top level); comparisons are against
`q_list->prefix + offset` exactly as in the source.  Case 1
(`length <= q_list->length`): an equal match returns the node; a strict
prefix creates `tmp` in place of the node, makes the node `tmp`'s child,
captures its `index`, and continues in phase B over the remaining
siblings.  Case 2: if `tmp` is unset and the node's prefix is a prefix
of the string, descend into its children with the node's length as the
new offset; when the descended list is exhausted without a match the new
node is prepended to that node's children (pager.c lines 768-786).
Fuel decreases at every step; `out` marks exhaustion. -/
def scanA (pal : List Nat) (used : Nat) (q : List Byte) (qL nid : Nat) :
    Nat → Nat → List QTree → AOut
  | 0, _, _ => .out
  | fuel + 1, off, sibs =>
    match sibs with
    | [] => .nofind
    | c :: rest =>
      if q.length ≤ c.pfx.length then
        if q.drop off = (c.pfx.drop off).take (q.length - off) then
          if q.length = c.pfx.length then .found c
          else
            match scanB q off (QTree.mk nid q 0 0 [c]) c.idx rest with
            | .cont pr tmp1 cap => .spliced (tmp1 :: pr) tmp1 cap
            | .exact pr tmp1 t => .exactB (tmp1 :: pr) t
        else (scanA pal used q qL nid fuel off rest).consSkip c
      else
        if (q.drop off).take (c.pfx.length - off) = c.pfx.drop off then
          match scanA pal used q qL nid fuel c.pfx.length c.kids with
          | .found t => .found t
          | .nofind =>
              let t := QTree.mk nid q qL (colorOf pal used qL) []
              .fresh (c.withKids (t :: c.kids) :: rest) t
          | .fresh l t => .fresh (c.withKids l :: rest) t
          | .spliced l tmp cap => .spliced (c.withKids l :: rest) tmp cap
          | .exactB l t => .exactB (c.withKids l :: rest) t
          | .out => .out
        else (scanA pal used q qL nid fuel off rest).consSkip c

/-- `shift_class_colors(quote_list, new_class, index, q_level)`
(pager.c lines 458-491): walk the whole forest; every node with
`index >= index` gets `index++` and its colour recomputed; the new
class (identified here by its allocation id `tn`, whose `index` is set
to `-1` for the walk in the source) instead receives `index` and the
matching colour at the end.  Fuelled; `none` on exhaustion. -/
def shift_class_colors (pal : List Nat) (used tn cap : Nat) :
    Nat → List QTree → Option (List QTree)
  | 0, _ => none
  | _ + 1, [] => some []
  | fuel + 1, .mk n p i c kids :: rest => do
      let kids' ← shift_class_colors pal used tn cap fuel kids
      let rest' ← shift_class_colors pal used tn cap fuel rest
      if n = tn then
        some (QTree.mk n p cap (colorOf pal used cap) kids' :: rest')
      else if cap ≤ i then
        some (QTree.mk n p (i + 1) (colorOf pal used (i + 1)) kids' :: rest')
      else
        some (QTree.mk n p i c kids' :: rest')

/-- `classify_quote(quote_list, qptr, length, force_redraw, q_level)`
(pager.c lines 522-826).  Returns the classified node, the new state
and the `force_redraw` flag; `none` on fuel exhaustion.  With
`ColorQuoteUsed <= 1` a single degenerate class is kept.  Otherwise the
scan runs; a fresh class gets `index = q_level++` and the palette
colour (`new_class_color`), and a spliced shorter prefix triggers
`shift_class_colors` over the whole forest. -/
def classify_quote (pal : List Nat) (used : Nat) (fuel : Nat) (st : QState)
    (q : List Byte) : Option (QTree × QState × Bool) :=
  if used ≤ 1 then
    match st.forest with
    | [] =>
        let c := QTree.mk st.nextNid [] 0 (pal.getD 0 0) []
        some (c, ⟨[c], st.qLevel, st.nextNid + 1⟩, false)
    | c :: _ => some (c, st, false)
  else
    match scanA pal used q st.qLevel st.nextNid fuel 0 st.forest with
    | .found t => some (t, st, false)
    | .nofind =>
        let t := QTree.mk st.nextNid q st.qLevel (colorOf pal used st.qLevel) []
        some (t, ⟨t :: st.forest, st.qLevel + 1, st.nextNid + 1⟩, false)
    | .fresh l t => some (t, ⟨l, st.qLevel + 1, st.nextNid + 1⟩, false)
    | .spliced l tmp cap =>
        match shift_class_colors pal used tmp.nid cap fuel [tmp],
              shift_class_colors pal used tmp.nid cap fuel l with
        | some [tmp'], some l' =>
            some (tmp', ⟨l', st.qLevel + 1, st.nextNid + 1⟩, true)
        | _, _ => none
    | .exactB l t => some (t, ⟨l, st.qLevel, st.nextNid + 1⟩, true)
    | .out => none

/-- The empty classifier state. -/
def emptyQ : QState := ⟨[], 0, 0⟩

/-- A sequence of `classify_quote` calls threading the state (one call
per quote line encountered by `resolve_quote_color`). -/
def insertAll (pal : List Nat) (used fuel : Nat) :
    QState → List (List Byte) → Option QState
  | st, [] => some st
  | st, q :: qs =>
      match classify_quote pal used fuel st q with
      | some (_, st', _) => insertAll pal used fuel st' qs
      | none => none

/-- The invariants of the quote forest: every ancestor prefix is a
strict byte prefix of the node's own prefix; every node's children and
the top level are pairwise prefix-incomparable; prefixes are unique;
the depth indices are a permutation of `0 .. q_level - 1`; colours
follow the palette formula; allocation ids are below the allocator
counter. -/
structure QWF (pal : List Nat) (used : Nat) (st : QState) : Prop where
  anc_ok : ∀ e ∈ flatA [] st.forest, ∀ a ∈ e.1,
    a <+: e.2.pfx ∧ a.length < e.2.pfx.length
  kids_pw : ∀ e ∈ flatA [] st.forest,
    (e.2.kids.map QTree.pfx).Pairwise pfxIncomp
  top_pw : (st.forest.map QTree.pfx).Pairwise pfxIncomp
  pfx_nd : ((flatA [] st.forest).map (fun e => e.2.pfx)).Nodup
  idx_perm : ((flatA [] st.forest).map (fun e => e.2.idx)).Perm
    (List.range st.qLevel)
  color_ok : ∀ e ∈ flatA [] st.forest, e.2.color = colorOf pal used e.2.idx
  nid_lt : ∀ e ∈ flatA [] st.forest, e.2.nid < st.nextNid

def chainOK (anc : List (List Byte)) (l : List QTree) : Prop :=
  ∀ e ∈ flatA anc l, ∀ a ∈ e.1, a <+: e.2.pfx ∧ a.length < e.2.pfx.length

def kidsPW (anc : List (List Byte)) (l : List QTree) : Prop :=
  ∀ e ∈ flatA anc l, (e.2.kids.map QTree.pfx).Pairwise pfxIncomp

def noQ (q : List Byte) (anc : List (List Byte)) (l : List QTree) : Prop :=
  ∀ e ∈ flatA anc l, e.2.pfx ≠ q

def infoMS (anc : List (List Byte)) (l : List QTree) :
    Multiset (Nat × List Byte × Nat × Nat) :=
  ((flatA anc l).map entryInfo : List (Nat × List Byte × Nat × Nat))

/-- The per-node index/colour update of `shift_class_colors`. -/
def shiftInfo (pal : List Nat) (used tn cap : Nat) :
    Nat × List Byte × Nat × Nat → Nat × List Byte × Nat × Nat :=
  fun x =>
    if x.1 = tn then (x.1, x.2.1, cap, colorOf pal used cap)
    else if cap ≤ x.2.2.1 then
      (x.1, x.2.1, x.2.2.1 + 1, colorOf pal used (x.2.2.1 + 1))
    else x

/-- What the phase-B scan guarantees: the corrupt-forest exact return is
impossible, and on completion the new level keeps all invariants, preserves
the node data as a multiset, and captures an existing index. -/
def BOK (q : List Byte) (anc : List (List Byte)) (tmp : QTree) (cap : Nat)
    (rest : List QTree) : BOut → Prop
  | .exact _ _ _ => False
  | .cont pr tmp' cap' =>
      tmp'.nid = tmp.nid ∧ tmp'.pfx = tmp.pfx ∧ tmp'.idx = tmp.idx ∧
      tmp'.color = tmp.color ∧
      infoMS anc (tmp' :: pr) = infoMS anc (tmp :: rest) ∧
      cap' ∈ cap :: (flatA anc rest).map (fun e => e.2.idx) ∧
      chainOK anc (tmp' :: pr) ∧
      kidsPW anc (tmp' :: pr) ∧
      ((tmp' :: pr).map QTree.pfx).Pairwise pfxIncomp ∧
      noQ q anc rest ∧
      ((pr.map QTree.pfx).Sublist (rest.map QTree.pfx))

/-- What the main scan guarantees, per outcome. -/
def AOK (pal : List Nat) (used : Nat) (q : List Byte) (qL nid : Nat)
    (anc : List (List Byte)) (sibs : List QTree) : AOut → Prop
  | .out => True
  | .found t => (∃ ach, (ach, t) ∈ flatA anc sibs) ∧ t.pfx = q
  | .nofind => noQ q anc sibs ∧ (∀ s ∈ sibs, pfxIncomp s.pfx q)
  | .exactB _ _ => False
  | .fresh l t =>
      t = QTree.mk nid q qL (colorOf pal used qL) [] ∧
      t ∈ (flatA anc l).map Prod.snd ∧
      infoMS anc l = (nid, q, qL, colorOf pal used qL) ::ₘ infoMS anc sibs ∧
      noQ q anc sibs ∧
      chainOK anc l ∧
      kidsPW anc l ∧
      l.map QTree.pfx = sibs.map QTree.pfx
  | .spliced l tmp cap =>
      tmp.nid = nid ∧ tmp.pfx = q ∧ tmp.idx = 0 ∧ tmp.color = 0 ∧
      tmp ∈ (flatA anc l).map Prod.snd ∧
      infoMS anc l = (nid, q, 0, 0) ::ₘ infoMS anc sibs ∧
      cap ∈ (flatA anc sibs).map (fun e => e.2.idx) ∧
      noQ q anc sibs ∧
      chainOK anc l ∧
      kidsPW anc l ∧
      ((l.map QTree.pfx).Pairwise pfxIncomp) ∧
      (∀ p ∈ l.map QTree.pfx, p = q ∨ p ∈ sibs.map QTree.pfx)

end Pager

/-!
# Claim theorems, part 1
-/

namespace Pager

/-- C1 counterexample: with five consecutive Signature lines above (count `5 >
NUM_SIG_LINES`), a candidate line `"hi\n"` with non-whitespace content is
*accepted* by `check_sig` (result `0`), while the claim says any
non-whitespace content beyond the bound disqualifies it; and a fully
whitespace line `" \n"` is *rejected* (result `-1`), while the claim says it is
exactly the one that still qualifies. -/
theorem C1_counterexample :
    sigLoop (fun i => if 1 ≤ i ∧ i ≤ 5 then MT_COLOR_SIGNATURE else MT_COLOR_NORMAL) 5
      = NUM_SIG_LINES + 1 ∧
    check_sig [104, 105, 10]
      (fun i => if 1 ≤ i ∧ i ≤ 5 then MT_COLOR_SIGNATURE else MT_COLOR_NORMAL) 5 = 0 ∧
    check_sig [32, 10]
      (fun i => if 1 ≤ i ∧ i ≤ 5 then MT_COLOR_SIGNATURE else MT_COLOR_NORMAL) 5 = -1 := by
  refine ⟨?_, ?_, ?_⟩ <;> decide

/-- C1 (amended): when the backward walk finds more than `NUM_SIG_LINES`
consecutive Signature lines above, the candidate qualifies as Signature
(`check_sig = 0`) if and only if its text contains at least one
non-whitespace byte; an entirely-whitespace candidate is the one that ends the
signature block.  (The specification stated the opposite polarity.) -/
theorem C1_check_sig_beyond_bound (s : List Byte) (info : Nat → Int) (n : Int)
    (h : NUM_SIG_LINES < sigLoop info n) :
    (check_sig s info n = 0 ↔ ∃ b ∈ s, isSpaceB b = false) := by
  unfold check_sig
  have h0 : sigLoop info n ≠ 0 := by omega
  simp only [h0, if_false, if_pos h]
  constructor
  · intro hz
    by_cases hall : s.all (fun b => isSpaceB b)
    · simp [hall] at hz
    · simp only [List.all_eq_true] at hall
      push_neg at hall
      obtain ⟨b, hb, hns⟩ := hall
      exact ⟨b, hb, by simpa using hns⟩
  · intro ⟨b, hb, hns⟩
    have hall : s.all (fun b => isSpaceB b) = false := by
      simp only [List.all_eq_false]
      exact ⟨b, hb, by simp [hns]⟩
    simp [hall]

/-- Witness for `C1_check_sig_beyond_bound` at a concrete input. -/
theorem C1_check_sig_beyond_bound_witness :
    NUM_SIG_LINES < sigLoop (fun _ => MT_COLOR_SIGNATURE) 9 ∧
    (check_sig [120, 10] (fun _ => MT_COLOR_SIGNATURE) 9 = 0 ↔
      ∃ b ∈ [120, 10], isSpaceB b = false) :=
  ⟨by decide, C1_check_sig_beyond_bound [120, 10] (fun _ => MT_COLOR_SIGNATURE) 9 (by decide)⟩

/-- C7 counterexample: the quote regex (modelled as its match function: here
the behaviour of `^:` on the line `":) x"`, bytes `[58, 41, 32, 120]`) matches
at span `(0,1)`, and the smiley regex (behaviour of `:)`) matches at offset
`0`; the claim says a smiley match that is not at a nonzero offset "leaves the
quote classification unaffected", i.e. the line stays Quoted, but the code
returns `is_quote = false`. -/
theorem C7_counterexample :
    (fun l => if l.headD 0 = 58 then some ((0 : Nat), (1 : Nat)) else none)
        [58, 41, 32, 120] = some (0, 1) ∧
    (fun l => if l.take 2 = [58, 41] then some ((0 : Nat), (2 : Nat)) else none)
        [58, 41, 32, 120] = some (0, 2) ∧
    (mutt_is_quote_line
      (some (fun l => if l.headD 0 = 58 then some ((0 : Nat), (1 : Nat)) else none))
      (some (fun l => if l.take 2 = [58, 41] then some ((0 : Nat), (2 : Nat)) else none))
      [58, 41, 32, 120]).1 = false := by
  refine ⟨?_, ?_, ?_⟩ <;> decide

/-- C7 (amended): with both regexes set, a line is classified Quoted iff the
quote regex matches it, and the smiley regex either does not match at all, or
matches at a nonzero offset such that the quote regex still matches the text
truncated at the smiley match.  In particular a smiley match at offset zero
always defeats the quote classification (the code never checks whether the
smiley match lies inside the quote-matched span). -/
theorem C7_quote_line (q s : List Byte → Option (Nat × Nat)) (line : List Byte) :
    (mutt_is_quote_line (some q) (some s) line).1 = true ↔
      ((q line).isSome ∧
        (match s line with
          | none => True
          | some smt => 0 < smt.1 ∧ (q (line.take smt.1)).isSome)) := by
  unfold mutt_is_quote_line
  rcases hq : q line with _ | pm
  · simp [hq]
  · rcases hs : s line with _ | smt
    · simp [hq, hs]
    · by_cases hpos : 0 < smt.1
      · rcases hq2 : q (line.take smt.1) with _ | pm2 <;>
          simp [hq, hs, hpos, hq2]
      · simp [hq, hs, hpos]

/-- C8 counterexample: a slot whose byte offset `42` was already known valid
has its offset reset to `0` by the resize/reflow invalidation, so the
invalidation does *not* keep byte offsets that were valid prefixes. -/
theorem C8_counterexample :
    ({ offset := 42, type := MT_COLOR_NORMAL, continuation := 0, chunks := 0,
       search_cnt := -1, quote := none, syn := [], search := none : LineRec }).offset = 42 ∧
    (reflowInvalidate false
      { offset := 42, type := MT_COLOR_NORMAL, continuation := 0, chunks := 0,
        search_cnt := -1, quote := none, syn := [], search := none }).offset = 0 :=
  ⟨rfl, rfl⟩

/-- C8 (amended): the two invalidations behave differently.  The
search-compilation invalidation clears only the search chunk data and keeps
the byte offset, line type and style chunks of every slot; the resize/reflow
invalidation clears the computed type and chunk data but also resets the byte
offset of every slot to `0` (previously scanned offsets are forgotten and
rescanned from the start of the stream). -/
theorem C8_invalidate (l : LineRec) (sc : Bool) :
    (searchInvalidate l).offset = l.offset ∧
    (searchInvalidate l).type = l.type ∧
    (searchInvalidate l).chunks = l.chunks ∧
    (searchInvalidate l).syn = l.syn ∧
    (searchInvalidate l).search = none ∧
    (searchInvalidate l).search_cnt = -1 ∧
    (reflowInvalidate sc l).offset = 0 ∧
    (reflowInvalidate sc l).type = -1 ∧
    (reflowInvalidate sc l).chunks = 0 ∧
    (reflowInvalidate sc l).continuation = 0 ∧
    (reflowInvalidate sc l).quote = none :=
  ⟨rfl, rfl, rfl, rfl, rfl, rfl, rfl, rfl, rfl, rfl, rfl⟩

/-- Counting non-continuation lines below `i + 1` splits at index `i`. -/
theorem ncBelow_succ (cont : Nat → Bool) (i : Nat) :
    ncBelow cont (i + 1) = ncBelow cont i + (if cont i = false then 1 else 0) := by
  unfold ncBelow
  rw [List.range_succ, List.filter_append]
  by_cases h : cont i = false <;> simp [h]

/-- The `rd->lines` counting loop computes the number of non-continuation
lines in `[0, topline]` minus one. -/
theorem flowLines_eq (cont : Nat → Bool) (t : Nat) :
    flowLines cont t = (ncBelow cont (t + 1) : Int) - 1 := by
  unfold flowLines ncBelow
  have key : ∀ (l : List Nat) (acc : Int),
      l.foldl (fun acc i => if cont i = false then acc + 1 else acc) acc
        = acc + (l.filter (fun x => !cont x)).length := by
    intro l
    induction l with
    | nil => intro acc; simp
    | cons x xs ih =>
      intro acc
      simp only [List.foldl_cons, List.filter_cons]
      by_cases h : cont x = false
      · have hb : (!cont x) = true := by simp [h]
        rw [if_pos h, hb, ih, if_pos rfl]
        simp only [List.length_cons]
        push_cast
        ring
      · have hb : (!cont x) = false := by
          simp only [Bool.not_eq_true'] at *
          simpa using h
        rw [if_neg h, hb, ih]
        simp
  rw [key]
  ring

/-- Unfolding equation for one step of the rescan loop. -/
theorem flowScan_succ (cont' : Nat → Bool) (lines : Int) (sf : Bool)
    (fuel i : Nat) (j : Int) (top : Nat) :
    flowScan cont' lines sf (fuel + 1) i j top =
      if cont' i = false then
        if j + 1 = lines then
          if sf then flowScan cont' lines sf fuel (i + 1) (j + 1) i else i
        else flowScan cont' lines sf fuel (i + 1) (j + 1) top
      else flowScan cont' lines sf fuel (i + 1) j top := rfl

/-- Once the running non-continuation count has passed `lines`, the rescan
loop never moves `topline` again. -/
theorem flowScan_stable (cont' : Nat → Bool) (lines : Int) (sf : Bool) :
    ∀ fuel i j top, lines ≤ j →
      flowScan cont' lines sf fuel i j top = top := by
  intro fuel
  induction fuel with
  | zero => intro i j top _; rfl
  | succ fuel ih =>
    intro i j top hle
    rw [flowScan_succ]
    by_cases hc : cont' i = false
    · rw [if_pos hc, if_neg (by omega : ¬ (j + 1 = lines))]
      exact ih (i + 1) (j + 1) top (by omega)
    · rw [if_neg hc]
      exact ih (i + 1) j top hle

/-- Core correctness of the rescan loop: starting at line `i` with running
count `j = ncBelow i - 1`, if some line `m` within the remaining stream is a
non-continuation line whose cumulative non-continuation count equals
`lines + 1`, the loop returns a non-continuation line with exactly that
cumulative count. -/
theorem flowScan_finds (cont' : Nat → Bool) (lines : Int) (sf : Bool) :
    ∀ fuel i j top,
      (j = (ncBelow cont' i : Int) - 1) →
      (∃ m, i ≤ m ∧ m < i + fuel ∧ cont' m = false ∧
        (ncBelow cont' (m + 1) : Int) = lines + 1) →
      cont' (flowScan cont' lines sf fuel i j top) = false ∧
      (ncBelow cont' (flowScan cont' lines sf fuel i j top + 1) : Int) = lines + 1 := by
  intro fuel
  induction fuel with
  | zero =>
    intro i j top _ hex
    obtain ⟨m, h1, h2, _⟩ := hex
    omega
  | succ fuel ih =>
    intro i j top hj hex
    have hsucc := ncBelow_succ cont' i
    rw [flowScan_succ]
    by_cases hc : cont' i = false
    · have hnci : (ncBelow cont' (i + 1) : Int) = (ncBelow cont' i : Int) + 1 := by
        rw [hsucc]; simp [hc]
      by_cases hhit : j + 1 = lines
      · rw [if_pos hc, if_pos hhit]
        cases sf with
        | false =>
          rw [if_neg Bool.false_ne_true]
          exact ⟨hc, by omega⟩
        | true =>
          rw [if_pos rfl,
            flowScan_stable cont' lines true fuel (i + 1) (j + 1) i (by omega)]
          exact ⟨hc, by omega⟩
      · rw [if_pos hc, if_neg hhit]
        refine ih (i + 1) (j + 1) top (by omega) ?_
        obtain ⟨m, hm1, hm2, hm3, hm4⟩ := hex
        refine ⟨m, ?_, by omega, hm3, hm4⟩
        rcases Nat.eq_or_lt_of_le hm1 with heq | hlt
        · exfalso
          subst heq
          omega
        · omega
    · have hnci : (ncBelow cont' (i + 1) : Int) = (ncBelow cont' i : Int) := by
        rw [hsucc]; simp [hc]
      rw [if_neg hc]
      refine ih (i + 1) j top (by omega) ?_
      obtain ⟨m, hm1, hm2, hm3, hm4⟩ := hex
      refine ⟨m, ?_, by omega, hm3, hm4⟩
      rcases Nat.eq_or_lt_of_le hm1 with heq | hlt
      · exfalso; subst heq; simp [hm3] at hc
      · omega

/-- C9 (confirmed): resize preserves the logical scroll position.  If the old
`topline` is a non-continuation line at logical index `L` (i.e. there are
`L + 1` non-continuation lines in `[0, topline]`), and the freshly rescanned
stream of `numLines` lines contains a non-continuation line of the same
cumulative count, then the new topline computed by the reflow rescan is a
non-continuation line whose logical index is again `L` — for both an idle and
an active search. -/
theorem C9_resize_preserves_scroll (cont cont' : Nat → Bool)
    (old_top numLines : Nat) (sf : Bool)
    (_hnc : cont old_top = false)
    (hex : ∃ m, m < numLines ∧ cont' m = false ∧
      ncBelow cont' (m + 1) = ncBelow cont (old_top + 1)) :
    cont' (newTopline cont' numLines (flowLines cont old_top) sf) = false ∧
    ncBelow cont' (newTopline cont' numLines (flowLines cont old_top) sf + 1)
      = ncBelow cont (old_top + 1) := by
  have hL := flowLines_eq cont old_top
  obtain ⟨m, hm1, hm2, hm3⟩ := hex
  have hres := flowScan_finds cont' (flowLines cont old_top) sf numLines 0 (-1) 0
    (by simp [ncBelow])
    ⟨m, Nat.zero_le m, by omega, hm2, by rw [hm3, hL]; ring⟩
  unfold newTopline
  exact ⟨hres.1, by omega⟩

/-- Witness for `C9_resize_preserves_scroll`: old stream has a continuation
line at index 1 and topline 2 (logical index 1); the new stream has no
continuation lines, and the replay lands on new line index 1, again logical
index 1. -/
theorem C9_resize_preserves_scroll_witness :
    (fun i => decide (i = 1)) 2 = false ∧
    (fun _ : Nat => false) (newTopline (fun _ : Nat => false) 3 (flowLines (fun i => decide (i = 1)) 2) false) = false ∧
    ncBelow (fun _ : Nat => false)
        (newTopline (fun _ : Nat => false) 3 (flowLines (fun i => decide (i = 1)) 2) false + 1)
      = ncBelow (fun i => decide (i = 1)) (2 + 1) := by
  refine ⟨by decide, ?_⟩
  exact C9_resize_preserves_scroll (fun i => decide (i = 1)) (fun _ : Nat => false) 2 3 false
    (by decide) ⟨1, by omega, by decide, by decide⟩

/-!
## Highlight pass lemmas (C4, C5)
-/

/-- The round loop preserves the underlying rule list (only the
`stop_matching` flags change). -/
theorem bodyRules_fst (offset : Nat) :
    ∀ (rs : List (ColorLine × Bool)) (st : RoundSt),
      (bodyRules offset rs st).1.map Prod.fst = rs.map Prod.fst := by
  intro rs
  induction rs with
  | nil => intro st; rfl
  | cons p rest ih =>
    intro st
    obtain ⟨cl, stopped⟩ := p
    by_cases hstop : stopped
    · simp [bodyRules, hstop, ih]
    · rcases hm : cl.matchAt offset with _ | ⟨so, eo⟩
      · simp [bodyRules, hstop, hm, ih]
      · by_cases hne : eo ≠ so
        · by_cases hf : st.found = false
          · by_cases hcap : st.chunks.length = SHRT_MAX
            · simp [bodyRules, hstop, hm, hne, hf, hcap]
            · simp [bodyRules, hstop, hm, hne, hf, hcap, ih]
          · simp [bodyRules, hstop, hm, hne, hf, ih]
        · simp [bodyRules, hstop, hm, hne, ih]

/-- A round entered with `found` already true only ever folds the remaining
candidates into the final chunk with the tie-break comparator: the chunk list
keeps its prefix and its last entry becomes the fold of the candidates over
the incumbent. -/
theorem bodyRules_found (offset : Nat) :
    ∀ (rs : List (ColorLine × Bool)) (st : RoundSt) (init : List SyntaxChunk)
      (b : SyntaxChunk),
      st.found = true → st.chunks = init ++ [b] →
      (bodyRules offset rs st).2.found = true ∧
      (bodyRules offset rs st).2.chunks
        = init ++ [(candidates offset rs).foldl betterOf b] := by
  intro rs
  induction rs with
  | nil =>
    intro st init b hf hc
    simp only [bodyRules, candidates, List.filterMap_nil, List.foldl_nil]
    exact ⟨hf, hc⟩
  | cons p rest ih =>
    intro st init b hf hc
    obtain ⟨cl, stopped⟩ := p
    by_cases hstop : stopped
    · have hcd : candidates offset ((cl, stopped) :: rest) = candidates offset rest := by
        simp [candidates, hstop]
      rw [hcd]
      simpa [bodyRules, hstop] using ih st init b hf hc
    · rcases hm : cl.matchAt offset with _ | ⟨so, eo⟩
      · have hcd : candidates offset ((cl, stopped) :: rest) = candidates offset rest := by
          simp [candidates, hstop, hm]
        rw [hcd]
        simpa [bodyRules, hstop, hm] using ih st init b hf hc
      · by_cases hne : eo = so
        · have hcd : candidates offset ((cl, stopped) :: rest) = candidates offset rest := by
            simp [candidates, hstop, hm, hne]
          rw [hcd]
          simpa [bodyRules, hstop, hm, hne] using
            ih { st with null_rx := true } init b hf (by simpa using hc)
        · have hcd : candidates offset ((cl, stopped) :: rest)
              = (⟨cl.pair, ((offset + so : Nat) : Int), ((offset + eo : Nat) : Int)⟩ : SyntaxChunk)
                :: candidates offset rest := by
            simp [candidates, hstop, hm, hne]
          rw [hcd]
          have hf' : ¬ (st.found = false) := by simp [hf]
          have hcur : st.chunks.getLast?.getD (⟨0, 0, 0⟩ : SyntaxChunk) = b := by
            rw [hc]; simp
          have hdl : st.chunks.dropLast = init := by
            rw [hc]; exact List.dropLast_concat
          rw [List.foldl_cons]
          by_cases hbet : ((offset : Int) + (so : Int) < b.first ∨
              ((offset : Int) + (so : Int) = b.first ∧ b.last < (offset : Int) + (eo : Int)))
          · have hbw : betterOf b
                ⟨cl.pair, ((offset + so : Nat) : Int), ((offset + eo : Nat) : Int)⟩
                = ⟨cl.pair, ((offset + so : Nat) : Int), ((offset + eo : Nat) : Int)⟩ := by
              unfold betterOf
              rw [if_pos]
              simpa using hbet
            rw [hbw]
            have hstep := ih
              { st with
                null_rx := false
                chunks := setLast st.chunks
                  ⟨cl.pair, ((offset + so : Nat) : Int), ((offset + eo : Nat) : Int)⟩ }
              init ⟨cl.pair, ((offset + so : Nat) : Int), ((offset + eo : Nat) : Int)⟩
              hf (by simp [setLast, hdl])
            simpa [bodyRules, hstop, hm, hne, hf', hcur, hbet] using hstep
          · have hbw : betterOf b
                ⟨cl.pair, ((offset + so : Nat) : Int), ((offset + eo : Nat) : Int)⟩ = b := by
              unfold betterOf
              rw [if_neg]
              intro hx
              apply hbet
              simpa using hx
            rw [hbw]
            have hstep := ih { st with null_rx := false } init b hf (by simpa using hc)
            simpa [bodyRules, hstop, hm, hne, hf', hcur, hbet] using hstep

/-- A round entered below the cap with `found` not yet set appends exactly the
best candidate (if any) to the chunk list, and reports `found` exactly when
some candidate exists. -/
theorem bodyRules_notfound (offset : Nat) :
    ∀ (rs : List (ColorLine × Bool)) (st : RoundSt),
      st.found = false → st.chunks.length ≠ SHRT_MAX →
      (bodyRules offset rs st).2.chunks
          = st.chunks ++ (bestChunk (candidates offset rs)).toList ∧
      ((bodyRules offset rs st).2.found = true ↔ candidates offset rs ≠ []) := by
  intro rs
  induction rs with
  | nil =>
    intro st hf hcap
    simp [bodyRules, candidates, bestChunk, hf]
  | cons p rest ih =>
    intro st hf hcap
    obtain ⟨cl, stopped⟩ := p
    by_cases hstop : stopped
    · have hcd : candidates offset ((cl, stopped) :: rest) = candidates offset rest := by
        simp [candidates, hstop]
      rw [hcd]
      simpa [bodyRules, hstop] using ih st hf hcap
    · rcases hm : cl.matchAt offset with _ | ⟨so, eo⟩
      · have hcd : candidates offset ((cl, stopped) :: rest) = candidates offset rest := by
          simp [candidates, hstop, hm]
        rw [hcd]
        simpa [bodyRules, hstop, hm] using ih st hf hcap
      · by_cases hne : eo = so
        · have hcd : candidates offset ((cl, stopped) :: rest) = candidates offset rest := by
            simp [candidates, hstop, hm, hne]
          rw [hcd]
          simpa [bodyRules, hstop, hm, hne] using
            ih { st with null_rx := true } hf hcap
        · have hcd : candidates offset ((cl, stopped) :: rest)
              = (⟨cl.pair, ((offset + so : Nat) : Int), ((offset + eo : Nat) : Int)⟩ : SyntaxChunk)
                :: candidates offset rest := by
            simp [candidates, hstop, hm, hne]
          rw [hcd]
          have hstep := bodyRules_found offset rest
            { st with
              found := true
              null_rx := false
              chunks := st.chunks ++
                [⟨cl.pair, ((offset + so : Nat) : Int), ((offset + eo : Nat) : Int)⟩] }
            st.chunks ⟨cl.pair, ((offset + so : Nat) : Int), ((offset + eo : Nat) : Int)⟩
            rfl rfl
          constructor
          · have := hstep.2
            simpa [bodyRules, hstop, hm, hne, hf, hcap, bestChunk] using this
          · constructor
            · intro _
              simp
            · intro _
              have := hstep.1
              simpa [bodyRules, hstop, hm, hne, hf, hcap] using this

/-- A round entered with the chunk count already at `SHRT_MAX` never changes
the chunk list and never sets `found`: the first non-empty match breaks out of
the rule loop instead of recording anything. -/
theorem bodyRules_cap (offset : Nat) :
    ∀ (rs : List (ColorLine × Bool)) (st : RoundSt),
      st.found = false → st.chunks.length = SHRT_MAX →
      (bodyRules offset rs st).2.chunks = st.chunks ∧
      (bodyRules offset rs st).2.found = false := by
  intro rs
  induction rs with
  | nil => intro st hf _; simp [bodyRules, hf]
  | cons p rest ih =>
    intro st hf hcap
    obtain ⟨cl, stopped⟩ := p
    by_cases hstop : stopped
    · simpa [bodyRules, hstop] using ih st hf hcap
    · rcases hm : cl.matchAt offset with _ | ⟨so, eo⟩
      · simpa [bodyRules, hstop, hm] using ih st hf hcap
      · by_cases hne : eo = so
        · simpa [bodyRules, hstop, hm, hne] using ih { st with null_rx := true } hf hcap
        · simp [bodyRules, hstop, hm, hne, hf, hcap]

/-- When every rule's match at this offset is non-empty, a round entered with
`null_rx` clear leaves it clear (the one-byte degenerate advance is never
taken). -/
theorem bodyRules_null (offset : Nat) :
    ∀ (rs : List (ColorLine × Bool)) (st : RoundSt),
      (∀ cl ∈ rs.map Prod.fst, ∀ s e, cl.matchAt offset = some (s, e) → s < e) →
      st.null_rx = false →
      (bodyRules offset rs st).2.null_rx = false := by
  intro rs
  induction rs with
  | nil => intro st _ hn; simpa [bodyRules] using hn
  | cons p rest ih =>
    intro st hwb hn
    obtain ⟨cl, stopped⟩ := p
    have hwb' : ∀ cl ∈ rest.map Prod.fst, ∀ s e, cl.matchAt offset = some (s, e) → s < e := by
      intro c hc
      exact hwb c (by simp [hc])
    by_cases hstop : stopped
    · simpa [bodyRules, hstop] using ih st hwb' hn
    · rcases hm : cl.matchAt offset with _ | ⟨so, eo⟩
      · simpa [bodyRules, hstop, hm] using ih st hwb' hn
      · have hlt : so < eo := hwb cl (by simp) so eo hm
        have hne : ¬ (eo = so) := by omega
        by_cases hf : st.found = false
        · by_cases hcap : st.chunks.length = SHRT_MAX
          · simp [bodyRules, hstop, hm, hne, hf, hcap]
          · simpa [bodyRules, hstop, hm, hne, hf, hcap] using
              ih
                { st with
                  found := true
                  null_rx := false
                  chunks := st.chunks ++
                    [⟨cl.pair, ((offset + so : Nat) : Int), ((offset + eo : Nat) : Int)⟩] }
                hwb' rfl
        · by_cases hbet : ((offset : Int) + (so : Int)
                < (st.chunks.getLast?.getD (⟨0, 0, 0⟩ : SyntaxChunk)).first ∨
              ((offset : Int) + (so : Int)
                  = (st.chunks.getLast?.getD (⟨0, 0, 0⟩ : SyntaxChunk)).first ∧
                (st.chunks.getLast?.getD (⟨0, 0, 0⟩ : SyntaxChunk)).last
                  < (offset : Int) + (eo : Int)))
          · simpa [bodyRules, hstop, hm, hne, hf, hbet] using
              ih
                { st with
                  null_rx := false
                  chunks := setLast st.chunks
                    ⟨cl.pair, ((offset + so : Nat) : Int), ((offset + eo : Nat) : Int)⟩ }
                hwb' rfl
          · simpa [bodyRules, hstop, hm, hne, hf, hbet] using
              ih { st with null_rx := false } hwb' rfl

/-- The tie-break relation is transitive. -/
theorem noWorse_trans {a b c : SyntaxChunk} (h1 : noWorse a b) (h2 : noWorse b c) :
    noWorse a c := by
  obtain ⟨h1a, h1b⟩ := h1
  obtain ⟨h2a, h2b⟩ := h2
  constructor
  · omega
  · intro he
    have ha : a.first = b.first := by omega
    have hb : b.first = c.first := by omega
    have := h1b ha
    have := h2b hb
    omega

/-- `betterOf b c` is at least as good as `b`. -/
theorem betterOf_noWorse_left (b c : SyntaxChunk) : noWorse (betterOf b c) b := by
  unfold betterOf noWorse
  by_cases h : c.first < b.first ∨ (c.first = b.first ∧ b.last < c.last)
  · rw [if_pos h]
    rcases h with h | ⟨h1, h2⟩
    · exact ⟨by omega, by omega⟩
    · exact ⟨by omega, fun _ => by omega⟩
  · rw [if_neg h]
    exact ⟨le_refl _, fun _ => le_refl _⟩

/-- `betterOf b c` is at least as good as `c`. -/
theorem betterOf_noWorse_right (b c : SyntaxChunk) : noWorse (betterOf b c) c := by
  unfold betterOf noWorse
  by_cases h : c.first < b.first ∨ (c.first = b.first ∧ b.last < c.last)
  · rw [if_pos h]
    exact ⟨le_refl _, fun _ => le_refl _⟩
  · rw [if_neg h]
    push_neg at h
    constructor
    · omega
    · intro he
      have := h.2 he.symm
      omega

/-- The fold of `betterOf` returns the incumbent or one of the candidates. -/
theorem foldl_betterOf_mem :
    ∀ (cs : List SyntaxChunk) (b : SyntaxChunk),
      cs.foldl betterOf b = b ∨ cs.foldl betterOf b ∈ cs := by
  intro cs
  induction cs with
  | nil => intro b; left; rfl
  | cons c cs ih =>
    intro b
    rw [List.foldl_cons]
    rcases ih (betterOf b c) with h | h
    · rw [h]
      unfold betterOf
      by_cases hb : c.first < b.first ∨ (c.first = b.first ∧ b.last < c.last)
      · rw [if_pos hb]; right; simp
      · rw [if_neg hb]; left; rfl
    · right; simp [h]

/-- The fold of `betterOf` is at least as good as the incumbent and as every
candidate. -/
theorem foldl_betterOf_best :
    ∀ (cs : List SyntaxChunk) (b : SyntaxChunk),
      noWorse (cs.foldl betterOf b) b ∧
      ∀ c ∈ cs, noWorse (cs.foldl betterOf b) c := by
  intro cs
  induction cs with
  | nil =>
    intro b
    exact ⟨⟨le_refl _, fun _ => le_refl _⟩, by simp⟩
  | cons c cs ih =>
    intro b
    rw [List.foldl_cons]
    obtain ⟨ih1, ih2⟩ := ih (betterOf b c)
    refine ⟨noWorse_trans ih1 (betterOf_noWorse_left b c), ?_⟩
    intro x hx
    rcases List.mem_cons.mp hx with hx | hx
    · have := noWorse_trans ih1 (betterOf_noWorse_right b c)
      rwa [hx]
    · exact ih2 x hx

/-- Shape of a round candidate: it comes from an unstopped rule with a
non-empty match, spans `[offset + rm_so, offset + rm_eo)` and carries the
rule's colour pair. -/
theorem candidates_mem (offset : Nat) (rs : List (ColorLine × Bool)) (c : SyntaxChunk)
    (h : c ∈ candidates offset rs) :
    ∃ cl s e, cl ∈ rs.map Prod.fst ∧ cl.matchAt offset = some (s, e) ∧ e ≠ s ∧
      c = ⟨cl.pair, ((offset + s : Nat) : Int), ((offset + e : Nat) : Int)⟩ := by
  unfold candidates at h
  obtain ⟨p, hp, hpe⟩ := List.mem_filterMap.mp h
  by_cases hst : p.2
  · simp [hst] at hpe
  · rcases hm : p.1.matchAt offset with _ | ⟨s, e⟩
    · simp [hst, hm] at hpe
    · by_cases hne : e = s
      · simp [hst, hm, hne] at hpe
      · simp only [hst, hm, hne, if_neg, Bool.false_eq_true, if_false, ne_eq,
          not_false_eq_true, if_true] at hpe
        refine ⟨p.1, s, e, List.mem_map_of_mem _ hp, hm, hne, ?_⟩
        rw [← Option.some_inj]
        rw [hpe]

/-- Unfolding equation for one step of the body/header scan loop. -/
theorem bodyLoop_succ (len fuel offset : Nat) (rs : List (ColorLine × Bool))
    (chunks : List SyntaxChunk) :
    bodyLoop len (fuel + 1) offset rs chunks =
      if len ≤ offset then chunks
      else
        if (bodyRules offset rs ⟨false, false, chunks, false⟩).2.null_rx then
          bodyLoop len fuel (offset + 1)
            (bodyRules offset rs ⟨false, false, chunks, false⟩).1
            (bodyRules offset rs ⟨false, false, chunks, false⟩).2.chunks
        else if (bodyRules offset rs ⟨false, false, chunks, false⟩).2.found then
          bodyLoop len fuel
            (((bodyRules offset rs ⟨false, false, chunks, false⟩).2.chunks.getLastD
              ⟨0, 0, 0⟩).last).toNat
            (bodyRules offset rs ⟨false, false, chunks, false⟩).1
            (bodyRules offset rs ⟨false, false, chunks, false⟩).2.chunks
        else (bodyRules offset rs ⟨false, false, chunks, false⟩).2.chunks := rfl

/-- With only non-empty-matching rules, the body/header scan produces a chunk
list in which every chunk ends no later than the next one starts (ordered and
non-overlapping), and every chunk is well-formed. -/
theorem bodyLoop_sorted (len : Nat) :
    ∀ (fuel offset : Nat) (rs : List (ColorLine × Bool)) (chunks : List SyntaxChunk),
      (∀ cl ∈ rs.map Prod.fst, ∀ off s e, cl.matchAt off = some (s, e) → s < e) →
      (∀ c ∈ chunks, c.last ≤ (offset : Int)) →
      List.Chain' (fun a b => a.last ≤ b.first) chunks →
      (∀ c ∈ chunks, c.first ≤ c.last) →
      List.Chain' (fun a b => a.last ≤ b.first) (bodyLoop len fuel offset rs chunks) ∧
      (∀ c ∈ bodyLoop len fuel offset rs chunks, c.first ≤ c.last) := by
  intro fuel
  induction fuel with
  | zero => intro offset rs chunks _ _ h2 h3; exact ⟨h2, h3⟩
  | succ fuel ih =>
    intro offset rs chunks hwb hbound hchain hwf
    rw [bodyLoop_succ]
    by_cases hoff : len ≤ offset
    · rw [if_pos hoff]; exact ⟨hchain, hwf⟩
    · rw [if_neg hoff]
      have hnull : (bodyRules offset rs ⟨false, false, chunks, false⟩).2.null_rx = false :=
        bodyRules_null offset rs _ (fun cl hcl s e hm => hwb cl hcl offset s e hm) rfl
      rw [hnull]
      simp only [Bool.false_eq_true, if_false]
      have hwb' : ∀ cl ∈ (bodyRules offset rs ⟨false, false, chunks, false⟩).1.map Prod.fst,
          ∀ off s e, cl.matchAt off = some (s, e) → s < e := by
        rw [bodyRules_fst]; exact hwb
      by_cases hcap : chunks.length = SHRT_MAX
      · have hc := bodyRules_cap offset rs ⟨false, false, chunks, false⟩ rfl hcap
        rw [hc.2]
        simp only [Bool.false_eq_true, if_false]
        rw [hc.1]
        exact ⟨hchain, hwf⟩
      · have h2 := bodyRules_notfound offset rs ⟨false, false, chunks, false⟩ rfl hcap
        rcases hcd : candidates offset rs with _ | ⟨c0, cs⟩
        · have hfound : (bodyRules offset rs ⟨false, false, chunks, false⟩).2.found = false := by
            rcases hb : (bodyRules offset rs ⟨false, false, chunks, false⟩).2.found
            · rfl
            · exact absurd hcd (h2.2.mp hb)
          rw [hfound]
          simp only [Bool.false_eq_true, if_false]
          have : (bodyRules offset rs ⟨false, false, chunks, false⟩).2.chunks = chunks := by
            rw [h2.1, hcd]
            simp [bestChunk]
          rw [this]
          exact ⟨hchain, hwf⟩
        · have hfound : (bodyRules offset rs ⟨false, false, chunks, false⟩).2.found = true :=
            h2.2.mpr (by simp [hcd])
          rw [hfound, if_pos rfl]
          have hch : (bodyRules offset rs ⟨false, false, chunks, false⟩).2.chunks
              = chunks ++ [cs.foldl betterOf c0] := by
            rw [h2.1, hcd]; rfl
          have hkmem : cs.foldl betterOf c0 ∈ candidates offset rs := by
            rw [hcd]
            rcases foldl_betterOf_mem cs c0 with h | h
            · rw [h]; simp
            · simp [h]
          obtain ⟨cl, sm, em, hclm, hmm, hnem, hkshape⟩ :=
            candidates_mem offset rs _ hkmem
          have hse : sm < em := hwb cl hclm offset sm em hmm
          have hlastD : ((bodyRules offset rs ⟨false, false, chunks, false⟩).2.chunks.getLastD
              (⟨0, 0, 0⟩ : SyntaxChunk)) = cs.foldl betterOf c0 := by
            rw [hch]
            exact List.getLastD_concat _ _ _
          rw [hlastD, hkshape, hch, hkshape]
          have htn : ((⟨cl.pair, ((offset + sm : Nat) : Int),
              ((offset + em : Nat) : Int)⟩ : SyntaxChunk).last).toNat = offset + em := by
            simp
            omega
          rw [htn]
          refine ih (offset + em)
            (bodyRules offset rs ⟨false, false, chunks, false⟩).1
            (chunks ++ [⟨cl.pair, ((offset + sm : Nat) : Int), ((offset + em : Nat) : Int)⟩])
            hwb' ?_ ?_ ?_
          · intro c hc
            rcases List.mem_append.mp hc with hc | hc
            · have := hbound c hc
              have : c.last ≤ (offset : Int) := this
              have hc2 : ((offset : Int)) ≤ ((offset + em : Nat) : Int) := by
                push_cast; omega
              omega
            · simp at hc
              rw [hc]
              show ((offset + em : Nat) : Int) ≤ ((offset + em : Nat) : Int)
              exact le_refl _
          · rw [List.chain'_append]
            refine ⟨hchain, List.chain'_singleton _, ?_⟩
            intro x hx y hy
            simp at hy
            rw [← hy]
            have hxmem : x ∈ chunks := List.mem_of_mem_getLast? hx
            have h1 := hbound x hxmem
            show x.last ≤ ((offset : Int) + (sm : Int))
            omega
          · intro c hc
            rcases List.mem_append.mp hc with hc | hc
            · exact hwf c hc
            · simp at hc
              rw [hc]
              show ((offset + sm : Nat) : Int) ≤ ((offset + em : Nat) : Int)
              push_cast
              omega

/-- With rules whose matches never end before they start, the fuel of the
body/header scan loop is irrelevant once it exceeds the line length: the loop
terminates. -/
theorem bodyLoop_fuel (len : Nat) :
    ∀ (fuel offset : Nat) (rs : List (ColorLine × Bool)) (chunks : List SyntaxChunk),
      (∀ cl ∈ rs.map Prod.fst, ∀ off s e, cl.matchAt off = some (s, e) → s ≤ e) →
      len - offset < fuel →
      bodyLoop len (fuel + 1) offset rs chunks = bodyLoop len fuel offset rs chunks := by
  intro fuel
  induction fuel with
  | zero => intro offset rs chunks _ h; omega
  | succ fuel ih =>
    intro offset rs chunks hwb hlt
    by_cases hoff : len ≤ offset
    · conv_lhs => rw [bodyLoop_succ]
      conv_rhs => rw [bodyLoop_succ]
      rw [if_pos hoff, if_pos hoff]
    · conv_lhs => rw [bodyLoop_succ]
      conv_rhs => rw [bodyLoop_succ]
      rw [if_neg hoff, if_neg hoff]
      have hwb' : ∀ cl ∈ (bodyRules offset rs ⟨false, false, chunks, false⟩).1.map Prod.fst,
          ∀ off s e, cl.matchAt off = some (s, e) → s ≤ e := by
        rw [bodyRules_fst]; exact hwb
      by_cases hnul : (bodyRules offset rs ⟨false, false, chunks, false⟩).2.null_rx
      · rw [if_pos hnul, if_pos hnul]
        exact ih (offset + 1) _ _ hwb' (by omega)
      · rw [if_neg hnul, if_neg hnul]
        by_cases hfound : (bodyRules offset rs ⟨false, false, chunks, false⟩).2.found
        · rw [if_pos hfound, if_pos hfound]
          by_cases hcap : chunks.length = SHRT_MAX
          · have hc := bodyRules_cap offset rs ⟨false, false, chunks, false⟩ rfl hcap
            rw [hc.2] at hfound
            exact absurd hfound (by simp)
          · have h2 := bodyRules_notfound offset rs ⟨false, false, chunks, false⟩ rfl hcap
            rcases hcd : candidates offset rs with _ | ⟨c0, cs⟩
            · exact absurd hcd (h2.2.mp hfound)
            · have hch : (bodyRules offset rs ⟨false, false, chunks, false⟩).2.chunks
                  = chunks ++ [cs.foldl betterOf c0] := by
                rw [h2.1, hcd]; rfl
              have hkmem : cs.foldl betterOf c0 ∈ candidates offset rs := by
                rw [hcd]
                rcases foldl_betterOf_mem cs c0 with h | h
                · rw [h]; simp
                · simp [h]
              obtain ⟨cl, sm, em, hclm, hmm, hnem, hkshape⟩ :=
                candidates_mem offset rs _ hkmem
              have hse : sm ≤ em := hwb cl hclm offset sm em hmm
              have hem : 1 ≤ em := by
                rcases Nat.eq_or_lt_of_le hse with h | h
                · exact absurd h.symm hnem
                · omega
              have hlastD : ((bodyRules offset rs ⟨false, false, chunks,
                  false⟩).2.chunks.getLastD (⟨0, 0, 0⟩ : SyntaxChunk))
                  = cs.foldl betterOf c0 := by
                rw [hch]
                exact List.getLastD_concat _ _ _
              rw [hlastD, hkshape]
              have htn : ((⟨cl.pair, ((offset + sm : Nat) : Int),
                  ((offset + em : Nat) : Int)⟩ : SyntaxChunk).last).toNat = offset + em := by
                simp
                omega
              rw [htn]
              exact ih (offset + em) _ _ hwb' (by omega)
        · rw [if_neg hfound, if_neg hfound]

/-- Unfolding equation for one step of the attachment scan loop. -/
theorem attachLoop_succ (len fuel offset : Nat) (rules : List ColorLine)
    (chunks : List SyntaxChunk) :
    attachLoop len (fuel + 1) offset rules chunks =
      if len ≤ offset then chunks
      else
        if (attachRules offset rules ⟨false, false, chunks, false⟩).null_rx then
          attachLoop len fuel (offset + 1) rules
            (attachRules offset rules ⟨false, false, chunks, false⟩).chunks
        else if (attachRules offset rules ⟨false, false, chunks, false⟩).found then
          attachLoop len fuel
            (((attachRules offset rules ⟨false, false, chunks, false⟩).chunks.getLastD
              ⟨0, 0, 0⟩).last).toNat
            rules (attachRules offset rules ⟨false, false, chunks, false⟩).chunks
        else (attachRules offset rules ⟨false, false, chunks, false⟩).chunks := rfl

/-- One attachment round with a single rule that always matches one byte
appends one chunk — with no cap check, regardless of how many chunks the line
already has. -/
theorem attachRules_always (offset : Nat) (chunks : List SyntaxChunk) :
    attachRules offset [⟨fun _ => some (0, 1), 7⟩] ⟨false, false, chunks, false⟩
      = ⟨true, false,
          chunks ++ [⟨7, ((offset + 0 : Nat) : Int), ((offset + 1 : Nat) : Int)⟩], false⟩ :=
  rfl

/-- Run of the attachment pass with the always-matching one-byte rule: every
scan position up to the end of the line records a chunk; the chunk count grows
without any bound other than the line length. -/
theorem attachLoop_always (len : Nat) :
    ∀ (fuel offset : Nat) (chunks : List SyntaxChunk), len - offset < fuel →
      (attachLoop len fuel offset [⟨fun _ => some (0, 1), 7⟩] chunks).length
        = chunks.length + (len - offset) := by
  intro fuel
  induction fuel with
  | zero => intro o c h; omega
  | succ fuel ih =>
    intro offset chunks hlt
    rw [attachLoop_succ]
    by_cases hoff : len ≤ offset
    · rw [if_pos hoff]
      omega
    · rw [if_neg hoff, attachRules_always]
      show (attachLoop len fuel
          (((chunks ++ [(⟨7, ((offset + 0 : Nat) : Int),
            ((offset + 1 : Nat) : Int)⟩ : SyntaxChunk)]).getLastD ⟨0, 0, 0⟩).last).toNat
          [⟨fun _ => some (0, 1), 7⟩]
          (chunks ++ [⟨7, ((offset + 0 : Nat) : Int), ((offset + 1 : Nat) : Int)⟩])).length
        = chunks.length + (len - offset)
      rw [List.getLastD_concat]
      show (attachLoop len fuel (offset + 1) [⟨fun _ => some (0, 1), 7⟩]
          (chunks ++ [⟨7, ((offset + 0 : Nat) : Int), ((offset + 1 : Nat) : Int)⟩])).length
        = chunks.length + (len - offset)
      rw [ih (offset + 1) _ (by omega)]
      simp
      omega

/-- C5 counterexample: on a 32768-byte line with a single attachment rule
whose regex matches one byte at every offset, the attachment highlight pass
records 32768 chunks — strictly more than `SHRT_MAX = 32767` — so the claimed
hard cap does not exist for the attachment pass (the C code increments the
`short` chunk counter past `SHRT_MAX`). -/
theorem C5_counterexample :
    SHRT_MAX < (attachPass (SHRT_MAX + 1) [⟨fun _ => some (0, 1), 7⟩]).length := by
  unfold attachPass
  rw [attachLoop_always (SHRT_MAX + 1) (SHRT_MAX + 1 + 1) 0 [] (by omega)]
  simp

/-- C5 (amended): only the body/header pass has the `SHRT_MAX` chunk cap — a
round that starts with the count at `SHRT_MAX` silently records nothing — but
the attachment pass has no cap at all: with an always-matching one-byte rule
it records one chunk per scan position, bounded only by the line length. -/
theorem C5_chunk_cap :
    (∀ (offset : Nat) (rs : List (ColorLine × Bool)) (st : RoundSt),
      st.found = false → st.chunks.length = SHRT_MAX →
      (bodyRules offset rs st).2.chunks = st.chunks) ∧
    (∀ (len fuel offset : Nat) (chunks : List SyntaxChunk), len - offset < fuel →
      (attachLoop len fuel offset [⟨fun _ => some (0, 1), 7⟩] chunks).length
        = chunks.length + (len - offset)) :=
  ⟨fun offset rs st hf hc => (bodyRules_cap offset rs st hf hc).1,
   fun len fuel offset chunks h => attachLoop_always len fuel offset chunks h⟩

/-- Witness for `C5_chunk_cap` at concrete inputs. -/
theorem C5_chunk_cap_witness :
    ((List.replicate SHRT_MAX (⟨0, 0, 0⟩ : SyntaxChunk)).length = SHRT_MAX ∧
      (bodyRules 3 [] ⟨false, false, List.replicate SHRT_MAX ⟨0, 0, 0⟩, false⟩).2.chunks
        = List.replicate SHRT_MAX ⟨0, 0, 0⟩) ∧
    ((2 : Nat) - 0 < 3 ∧
      (attachLoop 2 3 0 [⟨fun _ => some (0, 1), 7⟩] []).length = 0 + (2 - 0)) := by
  constructor
  · refine ⟨by simp, ?_⟩
    exact C5_chunk_cap.1 3 [] ⟨false, false, List.replicate SHRT_MAX ⟨0, 0, 0⟩, false⟩
      rfl (by simp)
  · exact ⟨by omega, C5_chunk_cap.2 2 3 0 [] (by omega)⟩

/-- C4 counterexample: with the body rules behaving like the POSIX regexes
`x+` (always matching to the end of the five-byte line `"xxxxx"`) and `y*`
(matching the empty string at every offset), listed in this order, the pass
records five chunks and the first two overlap: chunk 0 is `[0,5)` and chunk 1
is `[1,5)` — because the empty match of the second rule sets `null_rx` and the
offset advances by one byte instead of to the end of the kept match, the
resulting chunk list is not non-overlapping. -/
theorem C4_counterexample :
    (bodyPass 5 [⟨fun off => if off < 5 then some (0, 5 - off) else none, 1⟩,
        ⟨fun _ => some (0, 0), 2⟩]).length = 5 ∧
    ((bodyPass 5 [⟨fun off => if off < 5 then some (0, 5 - off) else none, 1⟩,
        ⟨fun _ => some (0, 0), 2⟩]).getD 0 ⟨0, 0, 0⟩).last = 5 ∧
    ((bodyPass 5 [⟨fun off => if off < 5 then some (0, 5 - off) else none, 1⟩,
        ⟨fun _ => some (0, 0), 2⟩]).getD 1 ⟨0, 0, 0⟩).first = 1 := by
  refine ⟨?_, ?_, ?_⟩ <;> decide

/-- C4 (amended): in the body/header pass, (i) a round below the cap records
exactly the best candidate under the tie-break, (ii) the best candidate is one
of the round's candidates and is no worse than each of them (earliest start
wins, longest match on a start tie), (iii) provided no rule ever produces a
zero-length match, the chunk list is ordered by start offset and
non-overlapping (each chunk ends no later than the next begins), and (iv) the
pass terminates: any fuel beyond the line length computes the same result.
When a rule can produce a zero-length match, the offset advances by a single
byte after such a round and chunks may overlap (see the counterexample). -/
theorem C4_highlight_pass (len : Nat) (rules : List ColorLine)
    (hne : ∀ cl ∈ rules, ∀ off s e, cl.matchAt off = some (s, e) → s < e) :
    (∀ (offset : Nat) (rs : List (ColorLine × Bool)) (chunks : List SyntaxChunk),
        chunks.length ≠ SHRT_MAX →
        (bodyRules offset rs ⟨false, false, chunks, false⟩).2.chunks
          = chunks ++ (bestChunk (candidates offset rs)).toList) ∧
    (∀ (offset : Nat) (rs : List (ColorLine × Bool)) (r : SyntaxChunk),
        bestChunk (candidates offset rs) = some r →
        r ∈ candidates offset rs ∧ ∀ c ∈ candidates offset rs, noWorse r c) ∧
    (List.Chain' (fun a b => a.last ≤ b.first) (bodyPass len rules) ∧
      ∀ c ∈ bodyPass len rules, c.first ≤ c.last) ∧
    (∀ fuel, len < fuel →
      bodyLoop len fuel 0 (rules.map (fun cl => (cl, false))) [] = bodyPass len rules) := by
  have hfst : (rules.map (fun cl => (cl, false))).map Prod.fst = rules := by
    rw [List.map_map]
    simp [Function.comp_def]
  refine ⟨?_, ?_, ?_, ?_⟩
  · intro offset rs chunks h
    exact (bodyRules_notfound offset rs ⟨false, false, chunks, false⟩ rfl h).1
  · intro offset rs r hb
    rcases hcd : candidates offset rs with _ | ⟨c0, cs⟩
    · rw [hcd] at hb
      simp [bestChunk] at hb
    · rw [hcd] at hb
      simp only [bestChunk, Option.some_inj] at hb
      subst hb
      constructor
      · rcases foldl_betterOf_mem cs c0 with h | h
        · rw [h]; simp
        · simp [h]
      · intro c hc
        obtain ⟨h1, h2⟩ := foldl_betterOf_best cs c0
        rcases List.mem_cons.mp hc with hc2 | hc2
        · rw [hc2]
          exact h1
        · exact h2 c hc2
  · unfold bodyPass
    refine bodyLoop_sorted len (len + 1) 0 (rules.map (fun cl => (cl, false))) []
      ?_ (by simp) (by simp) (by simp)
    rw [hfst]
    exact fun cl hcl off s e hm => hne cl hcl off s e hm
  · have haux : ∀ k, bodyLoop len (len + 1 + k) 0 (rules.map (fun cl => (cl, false))) []
        = bodyLoop len (len + 1) 0 (rules.map (fun cl => (cl, false))) [] := by
      intro k
      induction k with
      | zero => rfl
      | succ k ihk =>
        have hstep := bodyLoop_fuel len (len + 1 + k) 0 (rules.map (fun cl => (cl, false))) []
          (by
            rw [hfst]
            exact fun cl hcl off s e hm => le_of_lt (hne cl hcl off s e hm))
          (by omega)
        calc bodyLoop len (len + 1 + (k + 1)) 0 (rules.map (fun cl => (cl, false))) []
            = bodyLoop len (len + 1 + k) 0 (rules.map (fun cl => (cl, false))) [] := hstep
          _ = bodyLoop len (len + 1) 0 (rules.map (fun cl => (cl, false))) [] := ihk
    intro fuel hf
    have hk : len + 1 + (fuel - len - 1) = fuel := by omega
    rw [← hk]
    exact haux (fuel - len - 1)

/-- Witness for `C4_highlight_pass` with one rule matching span `(0,2)` at
offset `0` only, on a line of length `4`. -/
theorem C4_highlight_pass_witness :
    (∀ cl ∈ [(⟨fun off => if off = 0 then some ((0 : Nat), (2 : Nat)) else none, 9⟩ : ColorLine)],
        ∀ off s e, cl.matchAt off = some (s, e) → s < e) ∧
    (List.Chain' (fun a b => a.last ≤ b.first)
        (bodyPass 4 [⟨fun off => if off = 0 then some (0, 2) else none, 9⟩]) ∧
      ∀ c ∈ bodyPass 4 [⟨fun off => if off = 0 then some (0, 2) else none, 9⟩],
        c.first ≤ c.last) := by
  have hw : ∀ cl ∈ [(⟨fun off => if off = 0 then some ((0 : Nat), (2 : Nat)) else none, 9⟩ :
      ColorLine)], ∀ off s e, cl.matchAt off = some (s, e) → s < e := by
    intro cl hcl off s e h
    simp only [List.mem_singleton] at hcl
    subst hcl
    by_cases hoff : off = 0
    · simp only [hoff, if_pos] at h
      simp at h
      omega
    · simp [hoff] at h
  exact ⟨hw,
    (C4_highlight_pass 4 [⟨fun off => if off = 0 then some (0, 2) else none, 9⟩] hw).2.2.1⟩

/-!
## Escape normaliser and formatter lemmas (C6, C10)
-/

/-- When the head of the stream is not an ANSI sequence the ANSI loop is a
no-op. -/
theorem ansiSkipLoop_stop (fuel : Nat) (a : AnsiAttr) (l : List DChar)
    (h : ¬ ansiHeadD l) : ansiSkipLoop fuel a l = (a, l, 0) := by
  cases fuel with
  | zero => rfl
  | succ f =>
    cases l with
    | nil => rfl
    | cons d1 t =>
      cases t with
      | nil => rfl
      | cons d2 rest =>
        simp only [ansiSkipLoop]
        exact if_neg (fun hc => h hc)

/-- When the head of the stream is not a marker sequence the marker loop is a
no-op. -/
theorem markerSkipLoop_stop (attM protM : List Byte) (fuel : Nat) (l : List DChar)
    (h : ¬ markerHeadD attM protM l) : markerSkipLoop attM protM fuel l = (l, 0) := by
  cases fuel with
  | zero => rfl
  | succ f =>
    cases l with
    | nil => rfl
    | cons d1 t =>
      cases t with
      | nil => rfl
      | cons d2 rest =>
        simp only [markerSkipLoop]
        exact if_neg (fun hc => h hc)

/-- C6 counterexample: a non-printable character `U+0100` encoded in two
bytes, formatted alone into an 80-column viewport, emits one replacement
glyph but advances the column counter to `2` (its byte length), not to `1` as
the claim states; the byte cursor also advances by 2. -/
theorem C6_counterexample :
    (format_line ⟨fun _ => false, fun _ => 1, false, fun _ => false, 80, true⟩ [] []
        [.ok 256 2] 0).1.col = 2 ∧
    (format_line ⟨fun _ => false, fun _ => 1, false, fun _ => false, 80, true⟩ [] []
        [.ok 256 2] 0).1.ch = 2 ∧
    (format_line ⟨fun _ => false, fun _ => 1, false, fun _ => false, 80, true⟩ [] []
        [.ok 256 2] 0).1.events
      = [(0, 256, 0)] := by
  refine ⟨?_, ?_, ?_⟩ <;> decide

/-- C6 (amended): a decoded character of code point at least `0x100` that the
locale reports non-printable (and that is not filtered as zero-width or
display-corrupting) is emitted as a single replacement glyph only when one
more column fits in the wrap width — but the column counter then advances by
the character's byte length `k`, not by the glyph's display width 1, while
the byte cursor also advances by `k`; when the column does not fit the pass
stops without consuming the character. -/
theorem C6_replacement_glyph (env : FmtEnv) (attM protM : List Byte) (wc k : Nat)
    (rest : List DChar) (a : AnsiAttr) (st : FmtSt) (fuel : Nat)
    (hwc : 256 ≤ wc) (hk : k ≠ 0)
    (hpr : env.isWPrint wc = false)
    (hzw : ¬ (env.utf8 = true ∧ env.corrupting wc = true))
    (hnb : wc ≠ 0x200B ∧ wc ≠ 0xFEFF ∧ wc ≠ 0x202F) :
    (env.wrap_cols < st.col + 1 →
      formatLineF env attM protM (fuel + 1) (.ok wc k :: rest) a st
        = ({ st with
            special := 0
            last_special := if env.showFlags = true ∨ st.last_special ≠ 0 ∨ a.attr ≠ 0
              then 0 else st.last_special }, a)) ∧
    (st.col + 1 ≤ env.wrap_cols →
      formatLineF env attM protM (fuel + 1) (.ok wc k :: rest) a st
        = formatLineF env attM protM fuel rest a
            { st with
              ch := st.ch + k
              vch := st.vch + k
              col := st.col + (k : Int)
              special := 0
              last_special := if env.showFlags = true ∨ st.last_special ≠ 0 ∨ a.attr ≠ 0
                then 0 else st.last_special
              events := st.events ++ [(st.col, wc, 0)] }) := by
  have hA : ansiSkipLoop ((DChar.ok wc k :: rest).length + 1) a (.ok wc k :: rest)
      = (a, .ok wc k :: rest, 0) := by
    refine ansiSkipLoop_stop _ _ _ ?_
    cases rest with
    | nil => intro hx; exact hx
    | cons d2 r2 =>
      intro hx
      have : wcOf (.ok wc k) = 27 := hx.1
      simp [wcOf] at this
      omega
  have hM : markerSkipLoop attM protM ((DChar.ok wc k :: rest).length + 1)
      (.ok wc k :: rest) = (.ok wc k :: rest, 0) := by
    refine markerSkipLoop_stop _ _ _ _ ?_
    cases rest with
    | nil => intro hx; exact hx
    | cons d2 r2 =>
      intro hx
      have : wcOf (.ok wc k) = 27 := hx.1
      simp [wcOf] at this
      omega
  have h200b : ¬ (env.utf8 = true ∧ (wc = 0x200B ∨ wc = 0xFEFF)) := by
    rintro ⟨-, h | h⟩ <;> [exact hnb.1 h; exact hnb.2.1 h]
  have hemit : ¬ (env.utf8 = true ∧ (wc = 0xA0 ∨ wc = 0x202F)) := by
    rintro ⟨-, h | h⟩
    · omega
    · exact hnb.2.2 h
  simp only [formatLineF, hA, hM]
  rw [if_neg hk]
  rw [if_neg h200b, if_neg hzw]
  simp only [hpr, Bool.false_eq_true, if_false, false_or]
  rw [if_neg hemit]
  rw [if_neg (by omega : ¬ (wc = 10)), if_neg (by omega : ¬ (wc = 9)),
    if_neg (by omega : ¬ (wc < 32 ∨ wc = 127)), if_neg (by omega : ¬ (wc < 256))]
  constructor
  · intro hfit
    rw [if_pos (by omega : env.wrap_cols < st.col + 1)]
    simp
  · intro hfit
    rw [if_neg (by omega : ¬ (env.wrap_cols < st.col + 1))]
    simp

/-- Witness for `C6_replacement_glyph`: the character `U+0101` with byte
length 3 in a 40-column viewport at column 5. -/
theorem C6_replacement_glyph_witness :
    ((5 : Int) + 1 ≤ (40 : Int)) ∧
    formatLineF ⟨fun _ => false, fun _ => 1, false, fun _ => false, 40, true⟩ [] []
        (7 + 1) [.ok 257 3] ⟨0, 0, 0, -1⟩
        { ch := 0, vch := 0, col := 5, space := -1, special := 0,
          last_special := -1, events := [] }
      = formatLineF ⟨fun _ => false, fun _ => 1, false, fun _ => false, 40, true⟩ [] []
          7 [] ⟨0, 0, 0, -1⟩
          { ch := 0 + 3, vch := 0 + 3, col := 5 + (3 : Int), space := -1, special := 0,
            last_special := if (true : Bool) = true ∨ (-1 : Int) ≠ 0 ∨ (0 : Nat) ≠ 0
              then 0 else -1,
            events := [] ++ [(5, 257, 0)] } := by
  refine ⟨by omega, ?_⟩
  exact (C6_replacement_glyph ⟨fun _ => false, fun _ => 1, false, fun _ => false, 40, true⟩
    [] [] 257 3 [] ⟨0, 0, 0, -1⟩
    { ch := 0, vch := 0, col := 5, space := -1, special := 0, last_special := -1,
      events := [] } 7
    (by omega) (by omega) rfl (by simp) (by refine ⟨by omega, by omega, by omega⟩)).2
    (by decide)

/-- Copy behaviour of the strip loop: on input with no backspace bytes and no
position where the ANSI or marker tests fire, every byte is copied through
unchanged. -/
theorem stripLoopF_copy (attM protM : List Byte) :
    ∀ (input : List Byte) (fuel : Nat) (started : Bool) (acc : List Byte),
      input.length < fuel →
      8 ∉ input →
      (∀ t, t <:+ input → ansiTrigger t = false) →
      (∀ t, t <:+ input → markerTrigger attM protM t = false) →
      stripLoopF attM protM fuel input started acc = acc.reverse ++ input := by
  intro input
  induction input with
  | nil =>
    intro fuel started acc hf _ _ _
    cases fuel with
    | zero => omega
    | succ f => simp [stripLoopF]
  | cons p rest ih =>
    intro fuel started acc hf h8 hA hM
    cases fuel with
    | zero => simp at hf
    | succ f =>
      simp only [stripLoopF]
      have hp8 : ¬ (p = 8 ∧ started = true) := by
        rintro ⟨hp, -⟩
        exact h8 (by simp [hp])
      rw [if_neg hp8]
      have hAT : ansiTrigger (p :: rest) = false := hA _ (List.suffix_refl _)
      have hMT : markerTrigger attM protM (p :: rest) = false := hM _ (List.suffix_refl _)
      rw [hAT, hMT]
      simp only [Bool.false_eq_true, if_false]
      rw [ih f true (p :: acc) (by simpa using hf)
        (fun hx => h8 (List.mem_cons_of_mem p hx))
        (fun t ht => hA t (ht.trans (List.suffix_cons p rest)))
        (fun t ht => hM t (ht.trans (List.suffix_cons p rest)))]
      simp

/-- The backspace-merge loop on the tail of `"X\bX"`: merging the repeated
character sets the bold bit and consumes the backspace pair. -/
theorem mergeLoop_XbX (env : FmtEnv) (X : Nat) (hpr : env.isWPrint X = true) :
    mergeLoop env (([.ok 8 1, .ok X 1] : List DChar).length + 1) X 0 1
      [.ok 8 1, .ok X 1] = (X, A_BOLD, 1, 2, []) := by
  simp [mergeLoop, hpr, A_BOLD, A_UNDERLINE]

/-- C10 (confirmed): the escape-normaliser round trip.  (1) On raw input with
no backspace bytes and no ANSI or marker sequences, the clean text equals the
raw input byte for byte.  (2) On the raw input `X \b X` the clean text is the
single byte `X`.  (3) Formatting the decoded stream of `X \b X` for a
printable byte `X` emits exactly one glyph, at the starting column, with the
bold attribute (`A_BOLD`) active there, with the byte cursor past all three
bytes. -/
theorem C10_escape_normalizer :
    (∀ (attM protM input : List Byte),
        8 ∉ input →
        (∀ t, t <:+ input → ansiTrigger t = false) →
        (∀ t, t <:+ input → markerTrigger attM protM t = false) →
        fill_buffer_strip attM protM input = input) ∧
    (∀ (attM protM : List Byte) (X : Byte), X ≠ 0 →
        fill_buffer_strip attM protM [X, 8, X] = [X]) ∧
    (∀ (env : FmtEnv) (attM protM : List Byte) (X : Nat) (col0 : Int),
        env.isWPrint X = true → X < 256 →
        (env.utf8 = true → env.corrupting X = false) →
        col0 + env.wcwidthF X ≤ env.wrap_cols →
        (format_line env attM protM [.ok X 1, .ok 8 1, .ok X 1] col0).1.events
            = [(col0, X, A_BOLD)] ∧
          (format_line env attM protM [.ok X 1, .ok 8 1, .ok X 1] col0).1.special
            = A_BOLD ∧
          (format_line env attM protM [.ok X 1, .ok 8 1, .ok X 1] col0).1.ch = 3) := by
  refine ⟨?_, ?_, ?_⟩
  · intro attM protM input h8 hA hM
    unfold fill_buffer_strip
    rw [stripLoopF_copy attM protM input (input.length + 1) false [] (by omega) h8 hA hM]
    simp
  · intro attM protM X hX0
    by_cases h95 : X = 95
    · subst h95
      simp [fill_buffer_strip, stripLoopF, ansiTrigger, markerTrigger]
    · simp [fill_buffer_strip, stripLoopF, ansiTrigger, markerTrigger, hX0, h95]
  · intro env attM protM X col0 hpr hX hcor hfit
    have hA : ansiSkipLoop (([DChar.ok X 1, .ok 8 1, .ok X 1] : List DChar).length + 1)
        ⟨0, 0, 0, -1⟩ [.ok X 1, .ok 8 1, .ok X 1]
        = (⟨0, 0, 0, -1⟩, [.ok X 1, .ok 8 1, .ok X 1], 0) := by
      refine ansiSkipLoop_stop _ _ _ ?_
      intro hx
      have : wcOf (.ok 8 1) = 91 := hx.2.1
      simp [wcOf] at this
    have hM : markerSkipLoop attM protM
        (([DChar.ok X 1, .ok 8 1, .ok X 1] : List DChar).length + 1)
        [.ok X 1, .ok 8 1, .ok X 1] = ([.ok X 1, .ok 8 1, .ok X 1], 0) := by
      refine markerSkipLoop_stop _ _ _ _ ?_
      intro hx
      have : wcOf (.ok 8 1) = 93 := hx.2.1
      simp [wcOf] at this
    have h200b : ¬ (env.utf8 = true ∧ (X = 0x200B ∨ X = 0xFEFF)) := by
      rintro ⟨-, h | h⟩ <;> omega
    have hzw : ¬ (env.utf8 = true ∧ env.corrupting X = true) := by
      rintro ⟨h1, h2⟩
      rw [hcor h1] at h2
      exact Bool.false_ne_true h2
    have hAe : ansiSkipLoop (([] : List DChar).length + 1) ⟨0, 0, 0, -1⟩ []
        = (⟨0, 0, 0, -1⟩, [], 0) := rfl
    have hMe : markerSkipLoop attM protM (([] : List DChar).length + 1) []
        = ([], 0) := rfl
    unfold format_line
    rw [formatLineF]
    rw [hA]
    simp only []
    rw [hM]
    simp only []
    rw [if_neg (by omega : ¬ (1 : Nat) = 0)]
    rw [if_neg h200b, if_neg hzw, if_pos hpr]
    rw [mergeLoop_XbX env X hpr]
    simp only []
    rw [if_pos (show env.isWPrint X = true ∨
      (env.utf8 = true ∧ (X = 0xA0 ∨ X = 0x202F)) from Or.inl hpr)]
    by_cases h32 : X = 32
    · rw [if_pos h32]
      rw [if_neg (by omega : ¬ (col0 + env.wcwidthF X > env.wrap_cols))]
      simp only [List.length_cons, List.length_nil]
      rw [formatLineF]
      rw [hAe]
      simp only []
      rw [hMe]
      simp [A_BOLD]
    · rw [if_neg h32]
      rw [if_neg (by omega : ¬ (col0 + env.wcwidthF X > env.wrap_cols))]
      simp only [List.length_cons, List.length_nil]
      rw [formatLineF]
      rw [hAe]
      simp only []
      rw [hMe]
      simp [A_BOLD]

/-- Witness for C10: part 1 on the raw bytes `"hi"`, part 2 and part 3 at
`X = 65` with a concrete single-width ASCII environment. -/
theorem C10_escape_normalizer_witness :
    fill_buffer_strip [] [] [104, 105] = [104, 105] ∧
    fill_buffer_strip [] [] [65, 8, 65] = [65] ∧
    (format_line ⟨fun w => decide (32 ≤ w ∧ w < 127), fun _ => 1, false,
        fun _ => false, 80, false⟩ [] [] [.ok 65 1, .ok 8 1, .ok 65 1] 0).1.events
      = [(0, 65, A_BOLD)] := by
  refine ⟨?_, ?_, ?_⟩
  · exact C10_escape_normalizer.1 [] [] [104, 105] (by decide)
      (fun t ht => by
        have := List.suffix_cons_iff.mp ht
        rcases this with h | h
        · subst h; decide
        · have := List.suffix_cons_iff.mp h
          rcases this with h2 | h2
          · subst h2; decide
          · have : t = [] := List.eq_nil_of_suffix_nil h2
            subst this; decide)
      (fun t ht => by
        have := List.suffix_cons_iff.mp ht
        rcases this with h | h
        · subst h; decide
        · have := List.suffix_cons_iff.mp h
          rcases this with h2 | h2
          · subst h2; decide
          · have : t = [] := List.eq_nil_of_suffix_nil h2
            subst this; decide)
  · exact C10_escape_normalizer.2.1 [] [] 65 (by decide)
  · exact (C10_escape_normalizer.2.2 ⟨fun w => decide (32 ≤ w ∧ w < 127),
      fun _ => 1, false, fun _ => false, 80, false⟩ [] [] 65 0 (by decide)
      (by decide) (by simp) (by decide)).1

/-!
# The quote-classifier development: structural lemmas, scan soundness,
# shift_class_colors semantics, and the C2/C3 claim theorems
-/

/-!  Structural helpers -/

theorem forest_ind {motive : List QTree → Prop} (h0 : motive [])
    (h1 : ∀ n p i c kids rest, motive kids → motive rest →
      motive (QTree.mk n p i c kids :: rest)) : ∀ l, motive l := by
  have key : ∀ s l, sizeOf l ≤ s → motive l := by
    intro s
    induction s with
    | zero =>
      intro l hl
      cases l with
      | nil => exact h0
      | cons t rest => cases t with | mk n p i c kids => simp at hl
    | succ s ih =>
      intro l hl
      cases l with
      | nil => exact h0
      | cons t rest =>
        cases t with
        | mk n p i c kids =>
          refine h1 n p i c kids rest (ih kids ?_) (ih rest ?_) <;>
            (simp at hl ⊢; omega)
  intro l; exact key (sizeOf l) l le_rfl

theorem flatA_append (anc : List (List Byte)) (l1 l2 : List QTree) :
    flatA anc (l1 ++ l2) = flatA anc l1 ++ flatA anc l2 := by
  induction l1 with
  | nil => simp [flatA]
  | cons t ts ih => cases t with
    | mk n p i c kids => simp [flatA, ih]

theorem flatA_suffix (l : List QTree) :
    ∀ anc e, e ∈ flatA anc l → anc <:+ e.1 := by
  induction l using forest_ind with
  | h0 => intro anc e he; simp [flatA] at he
  | h1 n p i c kids rest ihk ihr =>
    intro anc e he
    simp only [flatA, List.mem_cons, List.mem_append] at he
    rcases he with h | h | h
    · subst h; exact List.suffix_refl _
    · exact (List.suffix_cons p anc).trans (ihk _ _ h)
    · exact ihr _ _ h

theorem flatA_snd_anc (l : List QTree) :
    ∀ anc1 anc2, (flatA anc1 l).map Prod.snd = (flatA anc2 l).map Prod.snd := by
  induction l using forest_ind with
  | h0 => intro anc1 anc2; simp [flatA]
  | h1 n p i c kids rest ihk ihr =>
    intro anc1 anc2
    simp [flatA, ihk (p :: anc1) (p :: anc2), ihr anc1 anc2]

theorem flatA_info_anc (l : List QTree) (anc1 anc2 : List (List Byte)) :
    (flatA anc1 l).map entryInfo = (flatA anc2 l).map entryInfo := by
  have h : ∀ anc : List (List Byte),
      (flatA anc l).map entryInfo
        = ((flatA anc l).map Prod.snd).map
            (fun t => (t.nid, t.pfx, t.idx, t.color)) := by
    intro anc; simp [List.map_map, entryInfo, Function.comp_def]
  rw [h anc1, h anc2, flatA_snd_anc l anc1 anc2]

theorem flatA_retarget (l : List QTree) :
    ∀ anc2 e, e ∈ flatA anc2 l →
      ∃ inner, e.1 = inner ++ anc2 ∧
        ∀ anc1, (inner ++ anc1, e.2) ∈ flatA anc1 l := by
  induction l using forest_ind with
  | h0 => intro anc2 e he; simp [flatA] at he
  | h1 n p i c kids rest ihk ihr =>
    intro anc2 e he
    simp only [flatA, List.mem_cons, List.mem_append] at he
    rcases he with h | h | h
    · refine ⟨[], ?_, ?_⟩
      · rw [h]; rfl
      · intro anc1
        have : e.2 = QTree.mk n p i c kids := by rw [h]
        rw [this]
        simp [flatA]
    · obtain ⟨inner, h1', h2'⟩ := ihk (p :: anc2) e h
      refine ⟨inner ++ [p], by simpa using h1', ?_⟩
      intro anc1
      have := h2' (p :: anc1)
      simp only [flatA, List.mem_cons, List.mem_append]
      right; left
      simpa using this
    · obtain ⟨inner, h1', h2'⟩ := ihr anc2 e h
      refine ⟨inner, h1', ?_⟩
      intro anc1
      simp only [flatA, List.mem_cons, List.mem_append]
      right; right
      exact h2' anc1

theorem flatA_mem_kid (l : List QTree) :
    ∀ anc ach t k, (ach, t) ∈ flatA anc l → k ∈ t.kids →
      (t.pfx :: ach, k) ∈ flatA anc l := by
  induction l using forest_ind with
  | h0 => intro anc ach t k ht _; simp [flatA] at ht
  | h1 n p i c kids rest ihk ihr =>
    intro anc ach t k ht hk
    simp only [flatA, List.mem_cons, List.mem_append] at ht ⊢
    rcases ht with h | h | h
    · have h1' : ach = anc := congrArg Prod.fst h
      have h2' : t = QTree.mk n p i c kids := congrArg Prod.snd h
      subst h1'
      right; left
      rw [h2'] at hk ⊢
      simp only [QTree.pfx, QTree.kids] at hk ⊢
      -- k ∈ kids, want (p :: anc, k) ∈ flatA (p :: anc) kids
      obtain ⟨l1, l2, rfl⟩ := List.mem_iff_append.mp hk
      rw [flatA_append]
      cases k with
      | mk kn kp ki kc kk => simp [flatA]
    · right; left; exact ihk _ _ _ _ h hk
    · right; right; exact ihr _ _ _ _ h hk

theorem flatA_mem_top (l : List QTree) (anc : List (List Byte)) (t : QTree)
    (ht : t ∈ l) : (anc, t) ∈ flatA anc l := by
  obtain ⟨l1, l2, rfl⟩ := List.mem_iff_append.mp ht
  rw [flatA_append]
  cases t with
  | mk n p i c kids => simp [flatA]

/-!  Prefix-comparison helpers -/

theorem off_le_of_take_eq {off : Nat} {p q : List Byte}
    (hq : off ≤ q.length) (h : p.take off = q.take off) : off ≤ p.length := by
  by_contra hlt
  push_neg at hlt
  have h1 : (p.take off).length = p.length := by
    rw [List.length_take]; omega
  have h2 : (q.take off).length = off := by
    rw [List.length_take]; omega
  rw [h] at h1
  omega

theorem take_split_at {off n : Nat} (p : List Byte) (h : off ≤ n) :
    p.take n = p.take off ++ (p.drop off).take (n - off) := by
  have he : n = off + (n - off) := by omega
  conv_lhs => rw [he, List.take_add]

theorem cmpA_iff {off : Nat} {p q : List Byte}
    (hq : off ≤ q.length) (h : p.take off = q.take off) :
    (q.drop off = (p.drop off).take (q.length - off)) ↔ q <+: p := by
  have hsplit := take_split_at p hq
  have hqd : q = q.take off ++ q.drop off := (List.take_append_drop off q).symm
  constructor
  · intro he
    rw [List.prefix_iff_eq_take, hsplit, h, ← he, ← hqd]
  · intro hp
    have h2 : q = p.take off ++ (p.drop off).take (q.length - off) := by
      rw [← hsplit, ← List.prefix_iff_eq_take.mp hp]
    rw [h] at h2
    conv_lhs at h2 => rw [hqd]
    exact List.append_cancel_left h2

theorem cmpD_iff {off : Nat} {p q : List Byte}
    (hq : off ≤ q.length) (h : p.take off = q.take off) :
    ((q.drop off).take (p.length - off) = p.drop off) ↔ p <+: q := by
  have hop : off ≤ p.length := off_le_of_take_eq hq h
  have hsplit := take_split_at q hop
  have hpd : p = p.take off ++ p.drop off := (List.take_append_drop off p).symm
  constructor
  · intro he
    rw [List.prefix_iff_eq_take, hsplit, ← h, he, ← hpd]
  · intro hp
    have h2 : p = q.take off ++ (q.drop off).take (p.length - off) := by
      rw [← hsplit, ← List.prefix_iff_eq_take.mp hp]
    rw [← h] at h2
    conv_lhs at h2 => rw [hpd]
    exact (List.append_cancel_left h2).symm

theorem pfx_comparable {a b q : List Byte} (ha : a <+: q) (hb : b <+: q) :
    a <+: b ∨ b <+: a :=
  List.prefix_or_prefix_of_prefix ha hb

/-!  Range-bump permutation -/

theorem perm_range_bump (n cap : Nat) (hc : cap < n) :
    (cap :: (List.range n).map (fun i => if cap ≤ i then i + 1 else i)).Perm
      (List.range (n + 1)) := by
  obtain ⟨k, rfl⟩ : ∃ k, n = cap + (k + 1) := ⟨n - cap - 1, by omega⟩
  have hlow : (List.range cap).map (fun i => if cap ≤ i then i + 1 else i)
      = List.range cap := by
    conv_rhs => rw [← List.map_id (List.range cap)]
    apply List.map_congr_left
    intro i hi
    rw [List.mem_range] at hi
    simp [Nat.not_le.mpr hi]
  have hhigh : ((List.range (k + 1)).map (fun j => cap + j)).map
      (fun i => if cap ≤ i then i + 1 else i)
      = (List.range (k + 1)).map (fun j => cap + 1 + j) := by
    rw [List.map_map]
    apply List.map_congr_left
    intro j _
    simp only [Function.comp_def]
    rw [if_pos (by omega)]
    omega
  rw [List.range_add, List.map_append, hlow, hhigh]
  have hrhs : List.range (cap + (k + 1) + 1)
      = List.range cap ++ (cap :: (List.range (k + 1)).map (fun j => cap + 1 + j)) := by
    have h1 : cap + (k + 1) + 1 = cap + (k + 2) := by omega
    rw [h1, List.range_add]
    congr 1
    have h2 : (k + 2) = k + 1 + 1 := by omega
    rw [h2, List.range_succ_eq_map, List.map_cons]
    simp only [Nat.add_zero, List.map_map, Function.comp_def]
    congr 1
    apply List.map_congr_left
    intro j _
    omega
  rw [hrhs]
  exact List.perm_middle.symm

/-!  Invariant predicates over flattened forests -/

theorem QTree.addKid_nid (t k : QTree) : (t.addKid k).nid = t.nid := by
  cases t; rfl

theorem QTree.addKid_pfx (t k : QTree) : (t.addKid k).pfx = t.pfx := by
  cases t; rfl

theorem QTree.addKid_idx (t k : QTree) : (t.addKid k).idx = t.idx := by
  cases t; rfl

theorem QTree.addKid_color (t k : QTree) : (t.addKid k).color = t.color := by
  cases t; rfl

theorem QTree.addKid_kids (t k : QTree) : (t.addKid k).kids = t.kids ++ [k] := by
  cases t; rfl

theorem QTree.withKids_pfx (t : QTree) (ks : List QTree) :
    (t.withKids ks).pfx = t.pfx := by cases t; rfl

theorem QTree.withKids_nid (t : QTree) (ks : List QTree) :
    (t.withKids ks).nid = t.nid := by cases t; rfl

theorem QTree.withKids_idx (t : QTree) (ks : List QTree) :
    (t.withKids ks).idx = t.idx := by cases t; rfl

theorem QTree.withKids_color (t : QTree) (ks : List QTree) :
    (t.withKids ks).color = t.color := by cases t; rfl

theorem QTree.withKids_kids (t : QTree) (ks : List QTree) :
    (t.withKids ks).kids = ks := by cases t; rfl

theorem QTree.nid_mk (n : Nat) (p : List Byte) (i c : Nat) (kids : List QTree) :
    (QTree.mk n p i c kids).nid = n := rfl

theorem QTree.pfx_mk (n : Nat) (p : List Byte) (i c : Nat) (kids : List QTree) :
    (QTree.mk n p i c kids).pfx = p := rfl

theorem QTree.idx_mk (n : Nat) (p : List Byte) (i c : Nat) (kids : List QTree) :
    (QTree.mk n p i c kids).idx = i := rfl

theorem QTree.color_mk (n : Nat) (p : List Byte) (i c : Nat) (kids : List QTree) :
    (QTree.mk n p i c kids).color = c := rfl

theorem QTree.kids_mk (n : Nat) (p : List Byte) (i c : Nat) (kids : List QTree) :
    (QTree.mk n p i c kids).kids = kids := rfl

theorem flatA_cons (anc : List (List Byte)) (t : QTree) (rest : List QTree) :
    flatA anc (t :: rest)
      = (anc, t) :: (flatA (t.pfx :: anc) t.kids ++ flatA anc rest) := by
  cases t; simp [flatA, QTree.pfx, QTree.kids]

theorem snd_mem_of_mem_anc (anc1 : List (List Byte)) {anc2 : List (List Byte)}
    {l : List QTree} {e : List (List Byte) × QTree} (he : e ∈ flatA anc2 l) :
    ∃ e1 ∈ flatA anc1 l, e1.2 = e.2 := by
  have h2 : e.2 ∈ (flatA anc2 l).map Prod.snd := List.mem_map_of_mem _ he
  rw [← flatA_snd_anc l anc1 anc2] at h2
  obtain ⟨e1, he1, h⟩ := List.mem_map.mp h2
  exact ⟨e1, he1, h⟩

theorem kidsPW_anc {anc1 anc2 : List (List Byte)} {l : List QTree}
    (h : kidsPW anc1 l) : kidsPW anc2 l := by
  intro e he
  obtain ⟨e1, he1, hs⟩ := snd_mem_of_mem_anc anc1 he
  rw [← hs]
  exact h e1 he1

theorem noQ_anc {q : List Byte} {anc1 anc2 : List (List Byte)} {l : List QTree}
    (h : noQ q anc1 l) : noQ q anc2 l := by
  intro e he
  obtain ⟨e1, he1, hs⟩ := snd_mem_of_mem_anc anc1 he
  rw [← hs]
  exact h e1 he1

theorem infoMS_anc (anc1 anc2 : List (List Byte)) (l : List QTree) :
    infoMS anc1 l = infoMS anc2 l := by
  simp only [infoMS, flatA_info_anc l anc1 anc2]

theorem infoMS_cons (anc : List (List Byte)) (t : QTree) (rest : List QTree) :
    infoMS anc (t :: rest)
      = (t.nid, t.pfx, t.idx, t.color) ::ₘ
          (infoMS (t.pfx :: anc) t.kids + infoMS anc rest) := by
  simp [infoMS, flatA_cons, entryInfo]

theorem infoMS_append (anc : List (List Byte)) (l1 l2 : List QTree) :
    infoMS anc (l1 ++ l2) = infoMS anc l1 + infoMS anc l2 := by
  simp [infoMS, flatA_append]

theorem infoMS_nil (anc : List (List Byte)) : infoMS anc [] = 0 := by
  simp [infoMS, flatA]

theorem suffix_append_cancel {α : Type} {l1 l2 l : List α}
    (h : (l1 ++ l) <:+ (l2 ++ l)) : l1 <:+ l2 := by
  obtain ⟨t, ht⟩ := h
  rw [← List.append_assoc] at ht
  exact ⟨t, List.append_cancel_right ht⟩

theorem chain_head_mem {anc : List (List Byte)} {p : List Byte} {l : List QTree}
    {e : List (List Byte) × QTree} (he : e ∈ flatA (p :: anc) l) : p ∈ e.1 :=
  (flatA_suffix l (p :: anc) e he).subset (List.mem_cons_self p anc)

/-- Re-rooting a subtree below a new node with prefix `q`: chains gain `q`,
which is a strict prefix of everything in the subtree. -/
theorem reroot_clause {q : List Byte} {anc : List (List Byte)} {c : QTree}
    (Hext : q <+: c.pfx ∧ q.length < c.pfx.length)
    (Hold : chainOK anc [c]) : chainOK (q :: anc) [c] := by
  have hctop : (anc, c) ∈ flatA anc [c] := by
    rw [flatA_cons]; exact List.mem_cons_self _ _
  intro e he a ha
  rw [flatA_cons] at he
  rcases List.mem_cons.mp he with rfl | he2
  · -- the node c itself, chain q :: anc
    rcases List.mem_cons.mp ha with rfl | hanc
    · exact Hext
    · exact Hold _ hctop a hanc
  · -- deeper entries
    simp only [flatA, List.append_nil] at he2
    obtain ⟨inner, hchain, hmem⟩ :=
      flatA_retarget c.kids (c.pfx :: q :: anc) e he2
    have hold_mem : (inner ++ (c.pfx :: anc), e.2) ∈ flatA anc [c] := by
      rw [flatA_cons]
      exact List.mem_cons_of_mem _ (List.mem_append.mpr (Or.inl (hmem (c.pfx :: anc))))
    have hold_cl := Hold _ hold_mem
    have hcpfx : c.pfx <+: e.2.pfx ∧ c.pfx.length < e.2.pfx.length := by
      refine hold_cl c.pfx ?_
      exact List.mem_append.mpr (Or.inr (List.mem_cons_self _ _))
    rw [hchain] at ha
    rcases List.mem_append.mp ha with hin | htl
    · exact hold_cl a (List.mem_append.mpr (Or.inl hin))
    · rcases List.mem_cons.mp htl with rfl | htl2
      · exact hcpfx
      · rcases List.mem_cons.mp htl2 with rfl | hanc
        · exact ⟨Hext.1.trans hcpfx.1, by omega⟩
        · exact hold_cl a (List.mem_append.mpr
            (Or.inr (List.mem_cons_of_mem _ hanc)))

theorem flatA_cons_split (anc : List (List Byte)) (x : QTree) (l : List QTree) :
    flatA anc (x :: l) = flatA anc [x] ++ flatA anc l := by
  cases x with
  | mk n p i c kids => simp [flatA]

theorem chainOK_append {anc : List (List Byte)} {l1 l2 : List QTree} :
    chainOK anc (l1 ++ l2) ↔ chainOK anc l1 ∧ chainOK anc l2 := by
  unfold chainOK
  rw [flatA_append]
  constructor
  · intro h
    exact ⟨fun e he => h e (List.mem_append.mpr (Or.inl he)),
           fun e he => h e (List.mem_append.mpr (Or.inr he))⟩
  · rintro ⟨h1, h2⟩ e he
    rcases List.mem_append.mp he with he | he
    · exact h1 e he
    · exact h2 e he

theorem chainOK_cons {anc : List (List Byte)} {x : QTree} {l : List QTree} :
    chainOK anc (x :: l) ↔ chainOK anc [x] ∧ chainOK anc l := by
  rw [show (x :: l) = [x] ++ l from rfl]
  exact chainOK_append

theorem kidsPW_append {anc : List (List Byte)} {l1 l2 : List QTree} :
    kidsPW anc (l1 ++ l2) ↔ kidsPW anc l1 ∧ kidsPW anc l2 := by
  unfold kidsPW
  rw [flatA_append]
  constructor
  · intro h
    exact ⟨fun e he => h e (List.mem_append.mpr (Or.inl he)),
           fun e he => h e (List.mem_append.mpr (Or.inr he))⟩
  · rintro ⟨h1, h2⟩ e he
    rcases List.mem_append.mp he with he | he
    · exact h1 e he
    · exact h2 e he

theorem kidsPW_cons {anc : List (List Byte)} {x : QTree} {l : List QTree} :
    kidsPW anc (x :: l) ↔ kidsPW anc [x] ∧ kidsPW anc l := by
  rw [show (x :: l) = [x] ++ l from rfl]
  exact kidsPW_append

theorem noQ_append {q : List Byte} {anc : List (List Byte)} {l1 l2 : List QTree} :
    noQ q anc (l1 ++ l2) ↔ noQ q anc l1 ∧ noQ q anc l2 := by
  unfold noQ
  rw [flatA_append]
  constructor
  · intro h
    exact ⟨fun e he => h e (List.mem_append.mpr (Or.inl he)),
           fun e he => h e (List.mem_append.mpr (Or.inr he))⟩
  · rintro ⟨h1, h2⟩ e he
    rcases List.mem_append.mp he with he | he
    · exact h1 e he
    · exact h2 e he

theorem noQ_cons {q : List Byte} {anc : List (List Byte)} {x : QTree} {l : List QTree} :
    noQ q anc (x :: l) ↔ noQ q anc [x] ∧ noQ q anc l := by
  rw [show (x :: l) = [x] ++ l from rfl]
  exact noQ_append

theorem infoMS_cons2 (anc : List (List Byte)) (x : QTree) (l : List QTree) :
    infoMS anc (x :: l) = infoMS anc [x] + infoMS anc l := by
  rw [infoMS]
  rw [flatA_cons_split]
  simp [infoMS]

theorem chainOK_single_iff {anc : List (List Byte)} {t : QTree} :
    chainOK anc [t] ↔
      ((∀ a ∈ anc, a <+: t.pfx ∧ a.length < t.pfx.length) ∧
        chainOK (t.pfx :: anc) t.kids) := by
  unfold chainOK
  rw [flatA_cons]
  simp only [flatA, List.append_nil, List.mem_cons]
  constructor
  · intro h
    refine ⟨h (anc, t) (Or.inl rfl), fun e he => h e (Or.inr he)⟩
  · rintro ⟨h1, h2⟩ e he
    rcases he with rfl | he
    · exact h1
    · exact h2 e he

theorem kidsPW_single_iff {anc : List (List Byte)} {t : QTree} :
    kidsPW anc [t] ↔
      ((t.kids.map QTree.pfx).Pairwise pfxIncomp ∧ kidsPW (t.pfx :: anc) t.kids) := by
  unfold kidsPW
  rw [flatA_cons]
  simp only [flatA, List.append_nil, List.mem_cons]
  constructor
  · intro h
    refine ⟨h (anc, t) (Or.inl rfl), fun e he => h e (Or.inr he)⟩
  · rintro ⟨h1, h2⟩ e he
    rcases he with rfl | he
    · exact h1
    · exact h2 e he

theorem noQ_single_iff {q : List Byte} {anc : List (List Byte)} {t : QTree} :
    noQ q anc [t] ↔ (t.pfx ≠ q ∧ noQ q (t.pfx :: anc) t.kids) := by
  unfold noQ
  rw [flatA_cons]
  simp only [flatA, List.append_nil, List.mem_cons]
  constructor
  · intro h
    refine ⟨h (anc, t) (Or.inl rfl), fun e he => h e (Or.inr he)⟩
  · rintro ⟨h1, h2⟩ e he
    rcases he with rfl | he
    · exact h1
    · exact h2 e he

/-- Below a node whose prefix is not extended by `q`, no prefix equals `q`. -/
theorem noQ_single_of {q : List Byte} {anc : List (List Byte)} {c : QTree}
    (h : chainOK anc [c]) (hq1 : c.pfx ≠ q) (hq2 : ¬ c.pfx <+: q) :
    noQ q anc [c] := by
  rw [noQ_single_iff]
  refine ⟨hq1, ?_⟩
  intro e he
  have hcl := (chainOK_single_iff.mp h).2 e he c.pfx (chain_head_mem he)
  intro heq
  rw [heq] at hcl
  exact hq2 hcl.1

theorem pfxIncomp_symm {a b : List Byte} (h : pfxIncomp a b) : pfxIncomp b a :=
  ⟨h.2, h.1⟩

theorem infoMS_addKid (anc : List (List Byte)) (tmp c : QTree) (rest : List QTree) :
    infoMS anc (tmp.addKid c :: rest) = infoMS anc (tmp :: c :: rest) := by
  cases tmp with
  | mk n p i col kids =>
    show infoMS anc (QTree.mk n p i col (kids ++ [c]) :: rest) = _
    rw [infoMS_cons, infoMS_cons]
    simp only [QTree.nid, QTree.pfx, QTree.idx, QTree.color, QTree.kids]
    rw [infoMS_append, infoMS_cons2 anc c rest, infoMS_anc (p :: anc) anc [c]]
    congr 1
    abel

theorem scanB_ok (q : List Byte) (off : Nat) (anc : List (List Byte))
    (Hq : off ≤ q.length)
    (Hanc : ∀ a ∈ anc, a <+: q ∧ a.length < q.length) :
    ∀ rest tmp cap,
    (∀ s ∈ rest, s.pfx.take off = q.take off) →
    tmp.pfx = q →
    tmp.kids ≠ [] →
    (∀ k ∈ tmp.kids, q <+: k.pfx ∧ q.length < k.pfx.length) →
    ((tmp.kids.map QTree.pfx).Pairwise pfxIncomp) →
    chainOK (q :: anc) tmp.kids →
    kidsPW (q :: anc) tmp.kids →
    chainOK anc rest →
    kidsPW anc rest →
    ((rest.map QTree.pfx).Pairwise pfxIncomp) →
    (∀ k ∈ tmp.kids, ∀ r ∈ rest, pfxIncomp k.pfx r.pfx) →
    BOK q anc tmp cap rest (scanB q off tmp cap rest) := by
  intro rest
  induction rest with
  | nil =>
    intro tmp cap _ Htpfx _ _ Hkpw HkC HkP _ _ _ _
    show BOK q anc tmp cap [] (.cont [] tmp cap)
    refine ⟨rfl, rfl, rfl, rfl, rfl, List.mem_cons_self _ _, ?_, ?_, ?_, ?_, ?_⟩
    · rw [chainOK_cons]
      refine ⟨chainOK_single_iff.mpr ⟨?_, ?_⟩, ?_⟩
      · intro a ha
        rw [Htpfx]
        exact Hanc a ha
      · rw [Htpfx]; exact HkC
      · intro e he; simp [flatA] at he
    · rw [kidsPW_cons]
      refine ⟨kidsPW_single_iff.mpr ⟨Hkpw, ?_⟩, ?_⟩
      · rw [Htpfx]; exact HkP
      · intro e he; simp [flatA] at he
    · simp
    · intro e he; simp [flatA] at he
    · simp
  | cons c rest' ih =>
    intro tmp cap Htake Htpfx Hne Hext Hkpw HkC HkP HrC HrP Hrpw Hcross
    have Htc : c.pfx.take off = q.take off := Htake c (List.mem_cons_self _ _)
    have HrC1 : chainOK anc [c] := (chainOK_cons.mp HrC).1
    have HrC2 : chainOK anc rest' := (chainOK_cons.mp HrC).2
    have HrP1 : kidsPW anc [c] := (kidsPW_cons.mp HrP).1
    have HrP2 : kidsPW anc rest' := (kidsPW_cons.mp HrP).2
    have Hrpw2 : (rest'.map QTree.pfx).Pairwise pfxIncomp := by
      simpa using Hrpw.sublist (List.sublist_cons_self c.pfx (rest'.map QTree.pfx))
    have Hrpwc : ∀ r ∈ rest', pfxIncomp c.pfx r.pfx := by
      intro r hr
      have := List.rel_of_pairwise_cons (by simpa using Hrpw)
        (List.mem_map_of_mem QTree.pfx hr)
      exact this
    show BOK q anc tmp cap (c :: rest') (scanB q off tmp cap (c :: rest'))
    rw [scanB]
    by_cases hcond : q.length ≤ c.pfx.length ∧
        q.drop off = (c.pfx.drop off).take (q.length - off)
    · rw [if_pos hcond]
      have hqc : q <+: c.pfx := (cmpA_iff Hq Htc).mp hcond.2
      by_cases heq : q.length = c.pfx.length
      · rw [if_pos heq]
        show False
        have hqeq : q = c.pfx := hqc.eq_of_length heq
        obtain ⟨k, hk⟩ := List.exists_mem_of_ne_nil _ Hne
        exact (Hcross k hk c (List.mem_cons_self _ _)).2 (hqeq ▸ (Hext k hk).1)
      · rw [if_neg heq]
        have hstrict : q.length < c.pfx.length := lt_of_le_of_ne hcond.1 heq
        have hres := ih (tmp.addKid c) c.idx
          (fun s hs => Htake s (List.mem_cons_of_mem _ hs))
          (by rw [QTree.addKid_pfx]; exact Htpfx)
          (by rw [QTree.addKid_kids]; simp)
          (by
            rw [QTree.addKid_kids]
            intro k hk
            rcases List.mem_append.mp hk with hk | hk
            · exact Hext k hk
            · rw [List.mem_singleton] at hk
              subst hk
              exact ⟨hqc, hstrict⟩)
          (by
            rw [QTree.addKid_kids, List.map_append]
            rw [List.pairwise_append]
            refine ⟨Hkpw, by simp [List.pairwise_singleton], ?_⟩
            intro a ha b hb
            rw [List.map_singleton, List.mem_singleton] at hb
            subst hb
            obtain ⟨k, hk, rfl⟩ := List.mem_map.mp ha
            exact Hcross k hk c (List.mem_cons_self _ _))
          (by
            rw [QTree.addKid_kids, chainOK_append]
            exact ⟨HkC, reroot_clause ⟨hqc, hstrict⟩ HrC1⟩)
          (by
            rw [QTree.addKid_kids, kidsPW_append]
            exact ⟨HkP, kidsPW_anc HrP1⟩)
          HrC2 HrP2 Hrpw2
          (by
            rw [QTree.addKid_kids]
            intro k hk r hr
            rcases List.mem_append.mp hk with hk | hk
            · exact Hcross k hk r (List.mem_cons_of_mem _ hr)
            · rw [List.mem_singleton] at hk
              subst hk
              exact Hrpwc r hr)
        cases hsb : scanB q off (tmp.addKid c) c.idx rest' with
        | exact pr tmp' t =>
          rw [hsb] at hres
          exact hres.elim
        | cont pr tmp' cap' =>
          rw [hsb] at hres
          obtain ⟨f1, f2, f3, f4, hms, hcap, hC, hP, hpw, hnq, hsub⟩ := hres
          refine ⟨?_, ?_, ?_, ?_, ?_, ?_, hC, hP, hpw, ?_, ?_⟩
          · rw [f1, QTree.addKid_nid]
          · rw [f2, QTree.addKid_pfx]
          · rw [f3, QTree.addKid_idx]
          · rw [f4, QTree.addKid_color]
          · rw [hms, infoMS_addKid]
          · rcases List.mem_cons.mp hcap with rfl | hcap
            · right
              rw [flatA_cons]
              exact List.mem_map.mpr ⟨(anc, c), List.mem_cons_self _ _, rfl⟩
            · right
              obtain ⟨e', he', rfl⟩ := List.mem_map.mp hcap
              rw [flatA_cons]
              exact List.mem_map.mpr ⟨e',
                List.mem_cons_of_mem _ (List.mem_append.mpr (Or.inr he')), rfl⟩
          · rw [noQ_cons]
            exact ⟨noQ_single_of HrC1
              (fun h => by rw [h] at hstrict; omega)
              (fun h => by have := h.length_le; omega), hnq⟩
          · exact hsub.trans (List.sublist_cons_self c.pfx (rest'.map QTree.pfx))
    · rw [if_neg hcond]
      have hinc : pfxIncomp c.pfx q := by
        by_cases hle : q.length ≤ c.pfx.length
        · have hnt : ¬ q.drop off = (c.pfx.drop off).take (q.length - off) :=
            fun ht => hcond ⟨hle, ht⟩
          refine ⟨?_, ?_⟩
          · intro h
            have hceq : c.pfx = q := h.eq_of_length (by have := h.length_le; omega)
            exact hnt ((cmpA_iff Hq Htc).mpr (hceq ▸ List.prefix_refl _))
          · exact fun h => hnt ((cmpA_iff Hq Htc).mpr h)
        · push_neg at hle
          refine ⟨?_, ?_⟩
          · intro h
            obtain ⟨k, hk⟩ := List.exists_mem_of_ne_nil _ Hne
            exact (Hcross k hk c (List.mem_cons_self _ _)).2 (h.trans (Hext k hk).1)
          · intro h
            have := h.length_le
            omega
      have hres := ih tmp cap
        (fun s hs => Htake s (List.mem_cons_of_mem _ hs))
        Htpfx Hne Hext Hkpw HkC HkP HrC2 HrP2 Hrpw2
        (fun k hk r hr => Hcross k hk r (List.mem_cons_of_mem _ hr))
      cases hsb : scanB q off tmp cap rest' with
      | exact pr tmp' t =>
        rw [hsb] at hres
        exact hres.elim
      | cont pr tmp' cap' =>
        rw [hsb] at hres
        obtain ⟨f1, f2, f3, f4, hms, hcap, hC, hP, hpw, hnq, hsub⟩ := hres
        show BOK q anc tmp cap (c :: rest') (.cont (c :: pr) tmp' cap')
        refine ⟨f1, f2, f3, f4, ?_, ?_, ?_, ?_, ?_, ?_, ?_⟩
        · rw [infoMS_cons2 anc tmp', infoMS_cons2 anc c pr,
              infoMS_cons2 anc tmp, infoMS_cons2 anc c rest']
          rw [infoMS_cons2 anc tmp', infoMS_cons2 anc tmp] at hms
          calc infoMS anc [tmp'] + (infoMS anc [c] + infoMS anc pr)
              = (infoMS anc [tmp'] + infoMS anc pr) + infoMS anc [c] := by abel
            _ = (infoMS anc [tmp] + infoMS anc rest') + infoMS anc [c] := by rw [hms]
            _ = infoMS anc [tmp] + (infoMS anc [c] + infoMS anc rest') := by abel
        · rcases List.mem_cons.mp hcap with rfl | hcap
          · exact List.mem_cons_self _ _
          · right
            obtain ⟨e', he', rfl⟩ := List.mem_map.mp hcap
            rw [flatA_cons]
            exact List.mem_map.mpr ⟨e',
              List.mem_cons_of_mem _ (List.mem_append.mpr (Or.inr he')), rfl⟩
        · rw [chainOK_cons] at hC
          exact chainOK_cons.mpr ⟨hC.1, chainOK_cons.mpr ⟨HrC1, hC.2⟩⟩
        · rw [kidsPW_cons] at hP
          exact kidsPW_cons.mpr ⟨hP.1, kidsPW_cons.mpr ⟨HrP1, hP.2⟩⟩
        · rw [List.map_cons, List.map_cons]
          rw [List.map_cons] at hpw
          rw [List.pairwise_cons] at hpw
          rw [List.pairwise_cons]
          refine ⟨?_, ?_⟩
          · intro b hb
            rcases List.mem_cons.mp hb with rfl | hb
            · rw [f2, Htpfx]
              exact pfxIncomp_symm hinc
            · exact hpw.1 b hb
          · rw [List.pairwise_cons]
            refine ⟨?_, hpw.2⟩
            intro b hb
            obtain ⟨r, hr, rfl⟩ := List.mem_map.mp
              (hsub.subset hb)
            exact Hrpwc r hr
        · rw [noQ_cons]
          exact ⟨noQ_single_of HrC1
            (fun h => hinc.1 (h ▸ List.prefix_refl _)) hinc.1, hnq⟩
        · exact hsub.cons₂ c.pfx

/-- Below a node whose prefix is a prefix of `q`, but which is
prefix-incomparable with some other prefix of `q`, nothing equals `q`. -/
theorem noQ_single_of2 {q : List Byte} {anc : List (List Byte)} {cp : List Byte}
    {r : QTree} (hpcq : cp <+: q) (hinc : pfxIncomp cp r.pfx)
    (HCr : chainOK anc [r]) : noQ q anc [r] := by
  rw [noQ_single_iff]
  constructor
  · intro h
    exact hinc.1 (by rw [h]; exact hpcq)
  · intro e he heq
    have hcl := (chainOK_single_iff.mp HCr).2 e he r.pfx (chain_head_mem he)
    rw [heq] at hcl
    rcases pfx_comparable hpcq hcl.1 with hh | hh
    · exact hinc.1 hh
    · exact hinc.2 hh

theorem noQ_of_forall {q : List Byte} {anc : List (List Byte)} :
    ∀ {l : List QTree}, (∀ r ∈ l, noQ q anc [r]) → noQ q anc l := by
  intro l
  induction l with
  | nil => intro _ e he; simp [flatA] at he
  | cons r rest ih =>
    intro h
    rw [noQ_cons]
    exact ⟨h r (List.mem_cons_self _ _),
           ih (fun r' hr' => h r' (List.mem_cons_of_mem _ hr'))⟩

/-- Lifting the scan result over a skipped sibling. -/
theorem consSkip_ok {pal : List Nat} {used : Nat} {q : List Byte} {qL nid : Nat}
    {anc : List (List Byte)} {c : QTree} {rest : List QTree} {r : AOut}
    (hinc : pfxIncomp c.pfx q)
    (HCc : chainOK anc [c]) (HPc : kidsPW anc [c])
    (hcr : ∀ x ∈ rest.map QTree.pfx, pfxIncomp c.pfx x)
    (hres : AOK pal used q qL nid anc rest r) :
    AOK pal used q qL nid anc (c :: rest) (r.consSkip c) := by
  have hne : c.pfx ≠ q := fun h => hinc.1 (h ▸ List.prefix_refl _)
  have hnoc : noQ q anc [c] := noQ_single_of HCc hne hinc.1
  cases r with
  | out => trivial
  | found t =>
    obtain ⟨⟨ach, hmem⟩, hpfx⟩ := hres
    refine ⟨⟨ach, ?_⟩, hpfx⟩
    rw [flatA_cons_split]
    exact List.mem_append.mpr (Or.inr hmem)
  | nofind =>
    obtain ⟨hnq, hsk⟩ := hres
    refine ⟨noQ_cons.mpr ⟨hnoc, hnq⟩, ?_⟩
    intro s hs
    rcases List.mem_cons.mp hs with rfl | hs
    · exact hinc
    · exact hsk s hs
  | fresh l t =>
    obtain ⟨hval, hmem, hms, hnq, hC, hP, hmap⟩ := hres
    refine ⟨hval, ?_, ?_, noQ_cons.mpr ⟨hnoc, hnq⟩,
      chainOK_cons.mpr ⟨HCc, hC⟩, kidsPW_cons.mpr ⟨HPc, hP⟩, ?_⟩
    · rw [flatA_cons_split, List.map_append]
      exact List.mem_append.mpr (Or.inr hmem)
    · rw [infoMS_cons2 anc c l, infoMS_cons2 anc c rest, hms]
      rw [← Multiset.singleton_add, ← Multiset.singleton_add]
      abel
    · rw [List.map_cons, List.map_cons, hmap]
  | spliced l tmp cap =>
    obtain ⟨f1, f2, f3, f4, hmem, hms, hcap, hnq, hC, hP, hpw, hcov⟩ := hres
    refine ⟨f1, f2, f3, f4, ?_, ?_, ?_, noQ_cons.mpr ⟨hnoc, hnq⟩,
      chainOK_cons.mpr ⟨HCc, hC⟩, kidsPW_cons.mpr ⟨HPc, hP⟩, ?_, ?_⟩
    · rw [flatA_cons_split, List.map_append]
      exact List.mem_append.mpr (Or.inr hmem)
    · rw [infoMS_cons2 anc c l, infoMS_cons2 anc c rest, hms]
      rw [← Multiset.singleton_add, ← Multiset.singleton_add]
      abel
    · rw [flatA_cons_split, List.map_append]
      exact List.mem_append.mpr (Or.inr hcap)
    · rw [List.map_cons, List.pairwise_cons]
      refine ⟨?_, hpw⟩
      intro x hx
      rcases hcov x hx with rfl | hx2
      · exact hinc
      · exact hcr x hx2
    · intro p hp
      rcases List.mem_cons.mp hp with rfl | hp
      · right; exact List.mem_cons_self _ _
      · rcases hcov p hp with rfl | hp2
        · left; rfl
        · right; exact List.mem_cons_of_mem _ hp2
  | exactB l t => exact hres.elim

theorem infoMS_leaf (A : List (List Byte)) (n : Nat) (p : List Byte) (i col : Nat) :
    infoMS A [QTree.mk n p i col []] = {(n, p, i, col)} := by
  simp [infoMS, flatA, entryInfo, QTree.nid, QTree.pfx, QTree.idx, QTree.color]

theorem chainOK_mem {anc : List (List Byte)} {l : List QTree} {r : QTree}
    (h : chainOK anc l) (hr : r ∈ l) : chainOK anc [r] := by
  obtain ⟨l1, l2, rfl⟩ := List.mem_iff_append.mp hr
  rw [chainOK_append] at h
  exact (chainOK_cons.mp h.2).1

theorem kidsPW_mem {anc : List (List Byte)} {l : List QTree} {r : QTree}
    (h : kidsPW anc l) (hr : r ∈ l) : kidsPW anc [r] := by
  obtain ⟨l1, l2, rfl⟩ := List.mem_iff_append.mp hr
  rw [kidsPW_append] at h
  exact (kidsPW_cons.mp h.2).1

theorem scanA_ok (pal : List Nat) (used : Nat) (q : List Byte) (qL nid : Nat) :
    ∀ fuel off (sibs : List QTree) (anc : List (List Byte)),
    off ≤ q.length →
    (∀ s ∈ sibs, s.pfx.take off = q.take off) →
    (∀ a ∈ anc, a <+: q ∧ a.length < q.length) →
    chainOK anc sibs →
    kidsPW anc sibs →
    ((sibs.map QTree.pfx).Pairwise pfxIncomp) →
    AOK pal used q qL nid anc sibs (scanA pal used q qL nid fuel off sibs) := by
  intro fuel
  induction fuel with
  | zero =>
    intro off sibs anc _ _ _ _ _ _
    exact trivial
  | succ fuel ih =>
    intro off sibs anc Hq Htake Hanc HC HP HT
    cases sibs with
    | nil =>
      exact ⟨fun e he => by simp [flatA] at he, fun s hs => by simp at hs⟩
    | cons c rest =>
      have Htc : c.pfx.take off = q.take off := Htake c (List.mem_cons_self _ _)
      have HCc : chainOK anc [c] := (chainOK_cons.mp HC).1
      have HCrest : chainOK anc rest := (chainOK_cons.mp HC).2
      have HPc : kidsPW anc [c] := (kidsPW_cons.mp HP).1
      have HPrest : kidsPW anc rest := (kidsPW_cons.mp HP).2
      have HTrest : (rest.map QTree.pfx).Pairwise pfxIncomp := by
        simpa using HT.sublist (List.sublist_cons_self c.pfx (rest.map QTree.pfx))
      have hcr : ∀ x ∈ rest.map QTree.pfx, pfxIncomp c.pfx x := by
        intro x hx
        exact List.rel_of_pairwise_cons (by simpa using HT) hx
      rw [scanA]
      by_cases h1 : q.length ≤ c.pfx.length
      · rw [if_pos h1]
        by_cases h2 : q.drop off = (c.pfx.drop off).take (q.length - off)
        · rw [if_pos h2]
          have hqc : q <+: c.pfx := (cmpA_iff Hq Htc).mp h2
          by_cases h3 : q.length = c.pfx.length
          · rw [if_pos h3]
            exact ⟨⟨anc, by rw [flatA_cons]; exact List.mem_cons_self _ _⟩,
                   (hqc.eq_of_length h3).symm⟩
          · rw [if_neg h3]
            have hstrict : q.length < c.pfx.length := lt_of_le_of_ne h1 h3
            have hB := scanB_ok q off anc Hq Hanc rest (QTree.mk nid q 0 0 [c]) c.idx
              (fun s hs => Htake s (List.mem_cons_of_mem _ hs))
              rfl
              (by simp [QTree.kids])
              (by
                intro k hk
                simp only [QTree.kids, List.mem_singleton] at hk
                subst hk
                exact ⟨hqc, hstrict⟩)
              (by simp [QTree.kids])
              (by
                show chainOK (q :: anc) [c]
                exact reroot_clause ⟨hqc, hstrict⟩ HCc)
              (by
                show kidsPW (q :: anc) [c]
                exact kidsPW_anc HPc)
              HCrest HPrest HTrest
              (by
                intro k hk r hr
                simp only [QTree.kids, List.mem_singleton] at hk
                subst hk
                exact hcr r.pfx (List.mem_map_of_mem _ hr))
            cases hsb : scanB q off (QTree.mk nid q 0 0 [c]) c.idx rest with
            | exact pr tmp1 t =>
              rw [hsb] at hB
              exact hB.elim
            | cont pr tmp1 cap =>
              rw [hsb] at hB
              obtain ⟨f1, f2, f3, f4, hms, hcap, hCo, hPo, hpw, hnq, hsub⟩ := hB
              refine ⟨?_, ?_, ?_, ?_, ?_, ?_, ?_, ?_, hCo, hPo, hpw, ?_⟩
              · rw [f1]; rfl
              · rw [f2]; rfl
              · rw [f3]; rfl
              · rw [f4]; rfl
              · rw [flatA_cons]
                exact List.mem_map.mpr ⟨(anc, tmp1), List.mem_cons_self _ _, rfl⟩
              · rw [hms, infoMS_cons]
                simp only [QTree.nid, QTree.pfx, QTree.idx, QTree.color, QTree.kids]
                rw [infoMS_cons2 anc c rest, infoMS_anc (q :: anc) anc [c]]
              · rcases List.mem_cons.mp hcap with rfl | hcap2
                · rw [flatA_cons]
                  exact List.mem_map.mpr ⟨(anc, c), List.mem_cons_self _ _, rfl⟩
                · obtain ⟨e', he', rfl⟩ := List.mem_map.mp hcap2
                  rw [flatA_cons]
                  exact List.mem_map.mpr ⟨e',
                    List.mem_cons_of_mem _ (List.mem_append.mpr (Or.inr he')), rfl⟩
              · exact noQ_cons.mpr ⟨noQ_single_of HCc
                  (fun h => by rw [h] at hstrict; omega)
                  (fun h => by have := h.length_le; omega), hnq⟩
              · intro p hp
                rw [List.map_cons] at hp
                rcases List.mem_cons.mp hp with rfl | hp2
                · left; rw [f2]; rfl
                · right
                  rw [List.map_cons]
                  exact List.mem_cons_of_mem _ (hsub.subset hp2)
        · rw [if_neg h2]
          have hinc : pfxIncomp c.pfx q := by
            refine ⟨?_, fun h => h2 ((cmpA_iff Hq Htc).mpr h)⟩
            intro h
            have hceq : c.pfx = q := h.eq_of_length (by have := h.length_le; omega)
            exact h2 ((cmpA_iff Hq Htc).mpr (hceq ▸ List.prefix_refl _))
          exact consSkip_ok hinc HCc HPc hcr
            (ih off rest anc Hq (fun s hs => Htake s (List.mem_cons_of_mem _ hs))
              Hanc HCrest HPrest HTrest)
      · rw [if_neg h1]
        push_neg at h1
        by_cases h2 : (q.drop off).take (c.pfx.length - off) = c.pfx.drop off
        · rw [if_pos h2]
          have hpc : c.pfx <+: q := (cmpD_iff Hq Htc).mp h2
          have hlt : c.pfx.length < q.length := h1
          have hcne : c.pfx ≠ q := fun h => by rw [h] at hlt; omega
          have HCkids : chainOK (c.pfx :: anc) c.kids := (chainOK_single_iff.mp HCc).2
          have HPkids : kidsPW (c.pfx :: anc) c.kids := (kidsPW_single_iff.mp HPc).2
          have HTkids : (c.kids.map QTree.pfx).Pairwise pfxIncomp :=
            (kidsPW_single_iff.mp HPc).1
          have Hanck : ∀ a ∈ c.pfx :: anc, a <+: q ∧ a.length < q.length := by
            intro a ha
            rcases List.mem_cons.mp ha with rfl | ha
            · exact ⟨hpc, hlt⟩
            · exact Hanc a ha
          have hkidtake : ∀ k ∈ c.kids, k.pfx.take c.pfx.length = q.take c.pfx.length := by
            intro k hk
            have hmemk : (c.pfx :: anc, k) ∈ flatA anc (c :: rest) := by
              rw [flatA_cons]
              exact List.mem_cons_of_mem _ (List.mem_append.mpr
                (Or.inl (flatA_mem_top c.kids (c.pfx :: anc) k hk)))
            have hck := HC _ hmemk c.pfx (List.mem_cons_self _ _)
            rw [← List.prefix_iff_eq_take.mp hck.1, ← List.prefix_iff_eq_take.mp hpc]
          have hnoRest : noQ q anc rest := by
            refine noQ_of_forall ?_
            intro r hr
            exact noQ_single_of2 hpc (hcr r.pfx (List.mem_map_of_mem _ hr))
              (chainOK_mem HCrest hr)
          have hancl : ∀ a ∈ anc, a <+: c.pfx ∧ a.length < c.pfx.length :=
            (chainOK_single_iff.mp HCc).1
          have hres := ih c.pfx.length c.kids (c.pfx :: anc) (le_of_lt hlt)
            hkidtake Hanck HCkids HPkids HTkids
          cases hra : scanA pal used q qL nid fuel c.pfx.length c.kids with
          | out => exact trivial
          | found t =>
            rw [hra] at hres
            obtain ⟨⟨ach, hmem⟩, hpfx⟩ := hres
            refine ⟨⟨ach, ?_⟩, hpfx⟩
            rw [flatA_cons]
            exact List.mem_cons_of_mem _ (List.mem_append.mpr (Or.inl hmem))
          | nofind =>
            rw [hra] at hres
            obtain ⟨hnqk, hskk⟩ := hres
            refine ⟨rfl, ?_, ?_, ?_, ?_, ?_, ?_⟩
            · rw [flatA_cons]
              refine List.mem_map.mpr ⟨(c.pfx :: anc,
                QTree.mk nid q qL (colorOf pal used qL) []), ?_, rfl⟩
              refine List.mem_cons_of_mem _ (List.mem_append.mpr (Or.inl ?_))
              rw [QTree.withKids_pfx, QTree.withKids_kids, flatA_cons]
              exact List.mem_cons_self _ _
            · rw [infoMS_cons, QTree.withKids_nid, QTree.withKids_pfx,
                  QTree.withKids_idx, QTree.withKids_color, QTree.withKids_kids,
                  infoMS_cons2 (c.pfx :: anc) _ c.kids, infoMS_leaf,
                  infoMS_cons anc c rest]
              simp only [← Multiset.singleton_add]
              abel
            · exact noQ_cons.mpr ⟨noQ_single_iff.mpr ⟨hcne, hnqk⟩, hnoRest⟩
            · refine chainOK_cons.mpr ⟨chainOK_single_iff.mpr ⟨?_, ?_⟩, HCrest⟩
              · rw [QTree.withKids_pfx]; exact hancl
              · rw [QTree.withKids_pfx, QTree.withKids_kids]
                refine chainOK_cons.mpr ⟨chainOK_single_iff.mpr ⟨?_, ?_⟩, HCkids⟩
                · intro a ha
                  simp only [QTree.pfx]
                  exact Hanck a ha
                · simp only [QTree.kids]
                  intro e he
                  simp [flatA] at he
            · refine kidsPW_cons.mpr ⟨kidsPW_single_iff.mpr ⟨?_, ?_⟩, HPrest⟩
              · rw [QTree.withKids_kids, List.map_cons]
                simp only [QTree.pfx]
                rw [List.pairwise_cons]
                refine ⟨?_, HTkids⟩
                intro x hx
                obtain ⟨k, hk, rfl⟩ := List.mem_map.mp hx
                exact pfxIncomp_symm (hskk k hk)
              · rw [QTree.withKids_pfx, QTree.withKids_kids]
                refine kidsPW_cons.mpr ⟨kidsPW_single_iff.mpr ⟨?_, ?_⟩, HPkids⟩
                · simp [QTree.kids]
                · simp only [QTree.kids]
                  intro e he
                  simp [flatA] at he
            · rw [List.map_cons, List.map_cons, QTree.withKids_pfx]
          | fresh l t =>
            rw [hra] at hres
            obtain ⟨hval, hmem, hms, hnqk, hCl, hPl, hmapl⟩ := hres
            refine ⟨hval, ?_, ?_, ?_, ?_, ?_, ?_⟩
            · rw [flatA_cons, QTree.withKids_pfx, QTree.withKids_kids]
              rw [List.map_cons, List.map_append]
              exact List.mem_cons_of_mem _ (List.mem_append.mpr (Or.inl hmem))
            · rw [infoMS_cons, QTree.withKids_nid, QTree.withKids_pfx,
                  QTree.withKids_idx, QTree.withKids_color, QTree.withKids_kids,
                  hms, infoMS_cons anc c rest]
              simp only [← Multiset.singleton_add]
              abel
            · exact noQ_cons.mpr ⟨noQ_single_iff.mpr ⟨hcne, hnqk⟩, hnoRest⟩
            · refine chainOK_cons.mpr ⟨chainOK_single_iff.mpr ⟨?_, ?_⟩, HCrest⟩
              · rw [QTree.withKids_pfx]; exact hancl
              · rw [QTree.withKids_pfx, QTree.withKids_kids]; exact hCl
            · refine kidsPW_cons.mpr ⟨kidsPW_single_iff.mpr ⟨?_, ?_⟩, HPrest⟩
              · rw [QTree.withKids_kids, hmapl]; exact HTkids
              · rw [QTree.withKids_pfx, QTree.withKids_kids]; exact hPl
            · rw [List.map_cons, List.map_cons, QTree.withKids_pfx]
          | spliced l tmp cap =>
            rw [hra] at hres
            obtain ⟨f1, f2, f3, f4, hmem, hms, hcap, hnqk, hCl, hPl, hpwl, hcov⟩ := hres
            refine ⟨f1, f2, f3, f4, ?_, ?_, ?_, ?_, ?_, ?_, ?_, ?_⟩
            · rw [flatA_cons, QTree.withKids_pfx, QTree.withKids_kids]
              rw [List.map_cons, List.map_append]
              exact List.mem_cons_of_mem _ (List.mem_append.mpr (Or.inl hmem))
            · rw [infoMS_cons, QTree.withKids_nid, QTree.withKids_pfx,
                  QTree.withKids_idx, QTree.withKids_color, QTree.withKids_kids,
                  hms, infoMS_cons anc c rest]
              simp only [← Multiset.singleton_add]
              abel
            · obtain ⟨e', he', rfl⟩ := List.mem_map.mp hcap
              rw [flatA_cons]
              exact List.mem_map.mpr ⟨e', List.mem_cons_of_mem _
                (List.mem_append.mpr (Or.inl he')), rfl⟩
            · exact noQ_cons.mpr ⟨noQ_single_iff.mpr ⟨hcne, hnqk⟩, hnoRest⟩
            · refine chainOK_cons.mpr ⟨chainOK_single_iff.mpr ⟨?_, ?_⟩, HCrest⟩
              · rw [QTree.withKids_pfx]; exact hancl
              · rw [QTree.withKids_pfx, QTree.withKids_kids]; exact hCl
            · refine kidsPW_cons.mpr ⟨kidsPW_single_iff.mpr ⟨?_, ?_⟩, HPrest⟩
              · rw [QTree.withKids_kids]; exact hpwl
              · rw [QTree.withKids_pfx, QTree.withKids_kids]; exact hPl
            · rw [List.map_cons, QTree.withKids_pfx]
              exact HT
            · intro p hp
              rw [List.map_cons, QTree.withKids_pfx] at hp
              rcases List.mem_cons.mp hp with rfl | hp2
              · right; rw [List.map_cons]; exact List.mem_cons_self _ _
              · right
                rw [List.map_cons]
                exact List.mem_cons_of_mem _ hp2
          | exactB l t =>
            rw [hra] at hres
            exact hres.elim
        · rw [if_neg h2]
          have hinc : pfxIncomp c.pfx q :=
            ⟨fun h => h2 ((cmpD_iff Hq Htc).mpr h),
             fun h => by have := h.length_le; omega⟩
          exact consSkip_ok hinc HCc HPc hcr
            (ih off rest anc Hq (fun s hs => Htake s (List.mem_cons_of_mem _ hs))
              Hanc HCrest HPrest HTrest)

theorem flat_top_of {anc : List (List Byte)} :
    ∀ {l : List QTree} {e}, e ∈ flatA anc l → ∃ r ∈ l, e ∈ flatA anc [r] := by
  intro l
  induction l with
  | nil => intro e he; simp [flatA] at he
  | cons c rest ih =>
    intro e he
    rw [flatA_cons_split] at he
    rcases List.mem_append.mp he with he | he
    · exact ⟨c, List.mem_cons_self _ _, he⟩
    · obtain ⟨r, hr, hmem⟩ := ih he
      exact ⟨r, List.mem_cons_of_mem _ hr, hmem⟩

theorem flat_single_pfx {anc : List (List Byte)} {r : QTree}
    {e : List (List Byte) × QTree} (hC : chainOK anc [r])
    (he : e ∈ flatA anc [r]) : r.pfx <+: e.2.pfx := by
  rw [flatA_cons] at he
  rcases List.mem_cons.mp he with rfl | he
  · exact List.prefix_refl _
  · simp only [flatA, List.append_nil] at he
    exact ((chainOK_single_iff.mp hC).2 e he r.pfx (chain_head_mem he)).1

theorem scanA_found (pal : List Nat) (used : Nat) (q : List Byte) (qL nid : Nat) :
    ∀ fuel off (sibs : List QTree) (anc : List (List Byte)),
    off ≤ q.length →
    (∀ s ∈ sibs, s.pfx.take off = q.take off) →
    (∀ a ∈ anc, a <+: q ∧ a.length < q.length) →
    chainOK anc sibs →
    kidsPW anc sibs →
    ((sibs.map QTree.pfx).Pairwise pfxIncomp) →
    ∀ ach0 t0, (ach0, t0) ∈ flatA anc sibs → t0.pfx = q →
    scanA pal used q qL nid fuel off sibs = .found t0 ∨
      scanA pal used q qL nid fuel off sibs = .out := by
  intro fuel
  induction fuel with
  | zero =>
    intro off sibs anc _ _ _ _ _ _ _ _ _ _
    right
    rfl
  | succ fuel ih =>
    intro off sibs anc Hq Htake Hanc HC HP HT ach0 t0 hmem0 hpfx0
    cases sibs with
    | nil => simp [flatA] at hmem0
    | cons c rest =>
      have Htc : c.pfx.take off = q.take off := Htake c (List.mem_cons_self _ _)
      have HCc : chainOK anc [c] := (chainOK_cons.mp HC).1
      have HCrest : chainOK anc rest := (chainOK_cons.mp HC).2
      have HPc : kidsPW anc [c] := (kidsPW_cons.mp HP).1
      have HPrest : kidsPW anc rest := (kidsPW_cons.mp HP).2
      have HTrest : (rest.map QTree.pfx).Pairwise pfxIncomp := by
        simpa using HT.sublist (List.sublist_cons_self c.pfx (rest.map QTree.pfx))
      have hcr : ∀ x ∈ rest.map QTree.pfx, pfxIncomp c.pfx x := by
        intro x hx
        exact List.rel_of_pairwise_cons (by simpa using HT) hx
      rw [scanA]
      rw [flatA_cons] at hmem0
      rcases List.mem_cons.mp hmem0 with heq0 | hmem1
      · -- t0 is c itself
        have ht0c : t0 = c := congrArg Prod.snd heq0
        have hcq : c.pfx = q := by rw [← ht0c, hpfx0]
        rw [if_pos (by rw [hcq]),
            if_pos ((cmpA_iff Hq Htc).mpr (by rw [hcq])),
            if_pos (by rw [hcq])]
        left
        rw [ht0c]
      · rcases List.mem_append.mp hmem1 with hkid | hrest
        · -- t0 below c
          have hclause := HC (ach0, t0) (by
            rw [flatA_cons]
            exact List.mem_cons_of_mem _ (List.mem_append.mpr (Or.inl hkid)))
            c.pfx (chain_head_mem hkid)
          have hclause2 : c.pfx <+: t0.pfx ∧ c.pfx.length < t0.pfx.length := hclause
          have hpcq : c.pfx <+: q := hpfx0 ▸ hclause2.1
          have hlt : c.pfx.length < q.length := by
            have h5 := hclause2.2
            rw [hpfx0] at h5
            exact h5
          rw [if_neg (by omega)]
          rw [if_pos ((cmpD_iff Hq Htc).mpr hpcq)]
          have HCkids : chainOK (c.pfx :: anc) c.kids := (chainOK_single_iff.mp HCc).2
          have HPkids : kidsPW (c.pfx :: anc) c.kids := (kidsPW_single_iff.mp HPc).2
          have HTkids : (c.kids.map QTree.pfx).Pairwise pfxIncomp :=
            (kidsPW_single_iff.mp HPc).1
          have Hanck : ∀ a ∈ c.pfx :: anc, a <+: q ∧ a.length < q.length := by
            intro a ha
            rcases List.mem_cons.mp ha with rfl | ha
            · exact ⟨hpcq, hlt⟩
            · exact Hanc a ha
          have hkidtake : ∀ k ∈ c.kids,
              k.pfx.take c.pfx.length = q.take c.pfx.length := by
            intro k hk
            have hmemk : (c.pfx :: anc, k) ∈ flatA anc (c :: rest) := by
              rw [flatA_cons]
              exact List.mem_cons_of_mem _ (List.mem_append.mpr
                (Or.inl (flatA_mem_top c.kids (c.pfx :: anc) k hk)))
            have hck := HC _ hmemk c.pfx (List.mem_cons_self _ _)
            rw [← List.prefix_iff_eq_take.mp hck.1, ← List.prefix_iff_eq_take.mp hpcq]
          rcases ih c.pfx.length c.kids (c.pfx :: anc) (le_of_lt hlt) hkidtake
            Hanck HCkids HPkids HTkids ach0 t0 hkid hpfx0 with hra | hra
          · rw [hra]; left; rfl
          · rw [hra]; right; rfl
        · -- t0 in rest: c must be skipped
          obtain ⟨r, hr, hmemr⟩ := flat_top_of hrest
          have hrq : r.pfx <+: q := hpfx0 ▸ flat_single_pfx (chainOK_mem HCrest hr) hmemr
          have hincr : pfxIncomp c.pfx r.pfx := hcr r.pfx (List.mem_map_of_mem _ hr)
          have hnotc : ¬ c.pfx <+: q := by
            intro hcq
            rcases pfx_comparable hcq hrq with hh | hh
            · exact hincr.1 hh
            · exact hincr.2 hh
          have hskip : ∀ result : AOut,
              (scanA pal used q qL nid fuel off rest) = result →
              (result = .found t0 ∨ result = .out) →
              (result.consSkip c = .found t0 ∨ result.consSkip c = .out) := by
            intro result _ hor
            rcases hor with rfl | rfl
            · left; rfl
            · right; rfl
          have hIH := ih off rest anc Hq
            (fun s hs => Htake s (List.mem_cons_of_mem _ hs))
            Hanc HCrest HPrest HTrest ach0 t0 hrest hpfx0
          by_cases h1 : q.length ≤ c.pfx.length
          · rw [if_pos h1]
            by_cases h2 : q.drop off = (c.pfx.drop off).take (q.length - off)
            · exfalso
              have hqc : q <+: c.pfx := (cmpA_iff Hq Htc).mp h2
              exact hincr.2 (hrq.trans hqc)
            · rw [if_neg h2]
              exact hskip _ rfl hIH
          · rw [if_neg h1]
            by_cases h2 : (q.drop off).take (c.pfx.length - off) = c.pfx.drop off
            · exfalso
              exact hnotc ((cmpD_iff Hq Htc).mp h2)
            · rw [if_neg h2]
              exact hskip _ rfl hIH

theorem shift_mono (pal : List Nat) (used tn cap : Nat) :
    ∀ fuel (l l' : List QTree),
      shift_class_colors pal used tn cap fuel l = some l' →
      shift_class_colors pal used tn cap (fuel + 1) l = some l' := by
  intro fuel
  induction fuel with
  | zero => intro l l' h; simp [shift_class_colors] at h
  | succ fuel ih =>
    intro l l' h
    cases l with
    | nil => simpa [shift_class_colors] using h
    | cons t rest =>
      cases t with
      | mk n p i c kids =>
        rw [shift_class_colors] at h ⊢
        cases hk : shift_class_colors pal used tn cap fuel kids with
        | none => rw [hk] at h; simp at h
        | some kids' =>
          rw [hk] at h
          cases hr : shift_class_colors pal used tn cap fuel rest with
          | none => rw [hr] at h; simp at h
          | some rest' =>
            rw [hr] at h
            rw [ih kids kids' hk, ih rest rest' hr]
            exact h

theorem shift_skeleton (pal : List Nat) (used tn cap : Nat) :
    ∀ fuel (l l' : List QTree), ∀ anc,
      shift_class_colors pal used tn cap fuel l = some l' →
      (flatA anc l').map (fun e => (e.1, e.2.pfx, e.2.kids.map QTree.pfx))
        = (flatA anc l).map (fun e => (e.1, e.2.pfx, e.2.kids.map QTree.pfx))
      ∧ l'.map QTree.pfx = l.map QTree.pfx := by
  intro fuel
  induction fuel with
  | zero => intro l l' anc h; simp [shift_class_colors] at h
  | succ fuel ih =>
    intro l l' anc h
    cases l with
    | nil =>
      simp only [shift_class_colors, Option.some_inj] at h
      subst h
      exact ⟨rfl, rfl⟩
    | cons t rest =>
      cases t with
      | mk n p i c kids =>
        rw [shift_class_colors] at h
        cases hk : shift_class_colors pal used tn cap fuel kids with
        | none => rw [hk] at h; simp at h
        | some kids' =>
          rw [hk] at h
          cases hr : shift_class_colors pal used tn cap fuel rest with
          | none => rw [hr] at h; simp at h
          | some rest' =>
            rw [hr] at h
            simp only [Option.pure_def, Option.bind_eq_bind, Option.some_bind] at h
            obtain ⟨ihk1, ihk2⟩ := ih kids kids' (p :: anc) hk
            obtain ⟨ihr1, ihr2⟩ := ih rest rest' anc hr
            have hshape : ∃ i2 c2,
                l' = QTree.mk n p i2 c2 kids' :: rest' := by
              by_cases h1 : n = tn
              · rw [if_pos h1] at h
                simp only [Option.some_inj] at h
                exact ⟨_, _, h.symm⟩
              · rw [if_neg h1] at h
                by_cases h2 : cap ≤ i
                · rw [if_pos h2] at h
                  simp only [Option.some_inj] at h
                  exact ⟨_, _, h.symm⟩
                · rw [if_neg h2] at h
                  simp only [Option.some_inj] at h
                  exact ⟨_, _, h.symm⟩
            obtain ⟨i2, c2, rfl⟩ := hshape
            constructor
            · rw [flatA_cons, flatA_cons, QTree.pfx_mk, QTree.pfx_mk,
                  QTree.kids_mk, QTree.kids_mk, List.map_cons, List.map_cons,
                  List.map_append, List.map_append, ihk1, ihr1]
              refine congrArg₂ _ ?_ rfl
              simp only [QTree.pfx_mk, QTree.kids_mk, ihk2]
            · simp only [List.map_cons, QTree.pfx_mk]
              rw [ihr2]

theorem shift_info (pal : List Nat) (used tn cap : Nat) :
    ∀ fuel (l l' : List QTree), ∀ anc,
      shift_class_colors pal used tn cap fuel l = some l' →
      (flatA anc l').map entryInfo
        = ((flatA anc l).map entryInfo).map (shiftInfo pal used tn cap) := by
  intro fuel
  induction fuel with
  | zero => intro l l' anc h; simp [shift_class_colors] at h
  | succ fuel ih =>
    intro l l' anc h
    cases l with
    | nil =>
      simp only [shift_class_colors, Option.some_inj] at h
      subst h
      simp [flatA]
    | cons t rest =>
      cases t with
      | mk n p i c kids =>
        rw [shift_class_colors] at h
        cases hk : shift_class_colors pal used tn cap fuel kids with
        | none => rw [hk] at h; simp at h
        | some kids' =>
          rw [hk] at h
          cases hr : shift_class_colors pal used tn cap fuel rest with
          | none => rw [hr] at h; simp at h
          | some rest' =>
            rw [hr] at h
            simp only [Option.pure_def, Option.bind_eq_bind, Option.some_bind] at h
            have ihk := ih kids kids' (p :: anc) hk
            have ihr := ih rest rest' anc hr
            by_cases h1 : n = tn
            · rw [if_pos h1] at h
              simp only [Option.some_inj] at h
              subst h
              rw [flatA_cons, flatA_cons, QTree.pfx_mk, QTree.pfx_mk,
                  QTree.kids_mk, QTree.kids_mk, List.map_cons, List.map_cons,
                  List.map_append, List.map_append, ihk, ihr, List.map_cons,
                  List.map_append]
              refine congrArg₂ _ ?_ rfl
              simp only [entryInfo, shiftInfo, QTree.nid_mk, QTree.pfx_mk,
                QTree.idx_mk, QTree.color_mk]
              simp [h1]
            · rw [if_neg h1] at h
              by_cases h2 : cap ≤ i
              · rw [if_pos h2] at h
                simp only [Option.some_inj] at h
                subst h
                rw [flatA_cons, flatA_cons, QTree.pfx_mk, QTree.pfx_mk,
                    QTree.kids_mk, QTree.kids_mk, List.map_cons, List.map_cons,
                    List.map_append, List.map_append, ihk, ihr, List.map_cons,
                    List.map_append]
                refine congrArg₂ _ ?_ rfl
                simp only [entryInfo, shiftInfo, QTree.nid_mk, QTree.pfx_mk,
                  QTree.idx_mk, QTree.color_mk]
                simp [h1, h2]
              · rw [if_neg h2] at h
                simp only [Option.some_inj] at h
                subst h
                rw [flatA_cons, flatA_cons, QTree.pfx_mk, QTree.pfx_mk,
                    QTree.kids_mk, QTree.kids_mk, List.map_cons, List.map_cons,
                    List.map_append, List.map_append, ihk, ihr, List.map_cons,
                    List.map_append]
                refine congrArg₂ _ ?_ rfl
                simp only [entryInfo, shiftInfo, QTree.nid_mk, QTree.pfx_mk,
                  QTree.idx_mk, QTree.color_mk]
                simp [h1, h2]

theorem shift_mem (pal : List Nat) (used tn cap : Nat) :
    ∀ fuel (l l' : List QTree), ∀ anc ach t,
      shift_class_colors pal used tn cap fuel l = some l' →
      (ach, t) ∈ flatA anc l →
      ∃ t', shift_class_colors pal used tn cap fuel [t] = some [t'] ∧
        (ach, t') ∈ flatA anc l' := by
  intro fuel
  induction fuel with
  | zero => intro l l' anc ach t h; simp [shift_class_colors] at h
  | succ fuel ih =>
    intro l l' anc ach t h hmem
    cases l with
    | nil => simp [flatA] at hmem
    | cons u rest =>
      cases u with
      | mk n p i c kids =>
        rw [shift_class_colors] at h
        cases hk : shift_class_colors pal used tn cap fuel kids with
        | none => rw [hk] at h; simp at h
        | some kids' =>
          rw [hk] at h
          cases hr : shift_class_colors pal used tn cap fuel rest with
          | none => rw [hr] at h; simp at h
          | some rest' =>
            rw [hr] at h
            simp only [Option.pure_def, Option.bind_eq_bind, Option.some_bind] at h
            have hf1 : 1 ≤ fuel := by
              by_contra hc
              push_neg at hc
              interval_cases fuel
              simp [shift_class_colors] at hk
            have hnilfuel : shift_class_colors pal used tn cap fuel ([] : List QTree)
                = some [] := by
              obtain ⟨fuel2, rfl⟩ : ∃ f2, fuel = f2 + 1 := ⟨fuel - 1, by omega⟩
              rfl
            have hshape : ∃ i2 c2,
                l' = QTree.mk n p i2 c2 kids' :: rest' ∧
                shift_class_colors pal used tn cap (fuel + 1)
                    [QTree.mk n p i c kids]
                  = some [QTree.mk n p i2 c2 kids'] := by
              by_cases h1 : n = tn
              · rw [if_pos h1] at h
                simp only [Option.some_inj] at h
                refine ⟨_, _, h.symm, ?_⟩
                rw [shift_class_colors, hk, hnilfuel]
                simp only [Option.pure_def, Option.bind_eq_bind, Option.some_bind]
                rw [if_pos h1]
              · rw [if_neg h1] at h
                by_cases h2 : cap ≤ i
                · rw [if_pos h2] at h
                  simp only [Option.some_inj] at h
                  refine ⟨_, _, h.symm, ?_⟩
                  rw [shift_class_colors, hk, hnilfuel]
                  simp only [Option.pure_def, Option.bind_eq_bind, Option.some_bind]
                  rw [if_neg h1, if_pos h2]
                · rw [if_neg h2] at h
                  simp only [Option.some_inj] at h
                  refine ⟨_, _, h.symm, ?_⟩
                  rw [shift_class_colors, hk, hnilfuel]
                  simp only [Option.pure_def, Option.bind_eq_bind, Option.some_bind]
                  rw [if_neg h1, if_neg h2]
            obtain ⟨i2, c2, rfl, hsingle⟩ := hshape
            rw [flatA_cons] at hmem
            rcases List.mem_cons.mp hmem with heq | hmem2
            · have h1' : ach = anc := congrArg Prod.fst heq
              have h2' : t = QTree.mk n p i c kids := congrArg Prod.snd heq
              subst h1'
              subst h2'
              refine ⟨QTree.mk n p i2 c2 kids', hsingle, ?_⟩
              rw [flatA_cons]
              exact List.mem_cons_self _ _
            · rcases List.mem_append.mp hmem2 with hkid | hrest2
              · obtain ⟨t', ht'1, ht'2⟩ := ih kids kids' (p :: anc) ach t hk hkid
                refine ⟨t', shift_mono pal used tn cap fuel [t] [t'] ht'1, ?_⟩
                rw [flatA_cons, QTree.pfx_mk, QTree.kids_mk]
                exact List.mem_cons_of_mem _ (List.mem_append.mpr (Or.inl ht'2))
              · obtain ⟨t', ht'1, ht'2⟩ := ih rest rest' anc ach t hr hrest2
                refine ⟨t', shift_mono pal used tn cap fuel [t] [t'] ht'1, ?_⟩
                rw [flatA_cons]
                exact List.mem_cons_of_mem _ (List.mem_append.mpr (Or.inr ht'2))

theorem chainOK_of_skeleton {anc : List (List Byte)} {l l' : List QTree}
    (hsk : (flatA anc l').map (fun e => (e.1, e.2.pfx, e.2.kids.map QTree.pfx))
        = (flatA anc l).map (fun e => (e.1, e.2.pfx, e.2.kids.map QTree.pfx)))
    (h : chainOK anc l) : chainOK anc l' := by
  intro e' he' a ha
  have hmm : (e'.1, e'.2.pfx, e'.2.kids.map QTree.pfx)
      ∈ (flatA anc l).map (fun e => (e.1, e.2.pfx, e.2.kids.map QTree.pfx)) := by
    rw [← hsk]
    exact List.mem_map_of_mem _ he'
  obtain ⟨e, he, heq⟩ := List.mem_map.mp hmm
  have h1 : e.1 = e'.1 := congrArg (fun x => x.1) heq
  have h2 : e.2.pfx = e'.2.pfx := congrArg (fun x => x.2.1) heq
  rw [← h2]
  refine h e he a ?_
  rw [h1]
  exact ha

theorem kidsPW_of_skeleton {anc : List (List Byte)} {l l' : List QTree}
    (hsk : (flatA anc l').map (fun e => (e.1, e.2.pfx, e.2.kids.map QTree.pfx))
        = (flatA anc l).map (fun e => (e.1, e.2.pfx, e.2.kids.map QTree.pfx)))
    (h : kidsPW anc l) : kidsPW anc l' := by
  intro e' he'
  have hmm : (e'.1, e'.2.pfx, e'.2.kids.map QTree.pfx)
      ∈ (flatA anc l).map (fun e => (e.1, e.2.pfx, e.2.kids.map QTree.pfx)) := by
    rw [← hsk]
    exact List.mem_map_of_mem _ he'
  obtain ⟨e, he, heq⟩ := List.mem_map.mp hmm
  have h3 : e.2.kids.map QTree.pfx = e'.2.kids.map QTree.pfx :=
    congrArg (fun x => x.2.2) heq
  rw [← h3]
  exact h e he

theorem pfxMS_eq (anc : List (List Byte)) (l : List QTree) :
    Multiset.map (fun x => x.2.1) (infoMS anc l)
      = ((flatA anc l).map (fun e => e.2.pfx) : List (List Byte)) := by
  simp only [infoMS, Multiset.map_coe, List.map_map]
  rfl

theorem idxMS_eq (anc : List (List Byte)) (l : List QTree) :
    Multiset.map (fun x => x.2.2.1) (infoMS anc l)
      = ((flatA anc l).map (fun e => e.2.idx) : List Nat) := by
  simp only [infoMS, Multiset.map_coe, List.map_map]
  rfl

theorem mem_infoMS {x} {anc : List (List Byte)} {l : List QTree} :
    x ∈ infoMS anc l ↔ ∃ e ∈ flatA anc l, entryInfo e = x := by
  simp only [infoMS, Multiset.mem_coe, List.mem_map]

theorem emptyQ_wf (pal : List Nat) (used : Nat) : QWF pal used emptyQ := by
  refine ⟨?_, ?_, ?_, ?_, ?_, ?_, ?_⟩
  · intro e he; simp [emptyQ, flatA] at he
  · intro e he; simp [emptyQ, flatA] at he
  · simp [emptyQ]
  · simp [emptyQ, flatA]
  · simp [emptyQ, flatA]
  · intro e he; simp [emptyQ, flatA] at he
  · intro e he; simp [emptyQ, flatA] at he

theorem classify_sound (pal : List Nat) (used fuel : Nat) (st : QState)
    (q : List Byte) (t : QTree) (st1 : QState) (r : Bool)
    (h2 : 2 ≤ used) (hwf : QWF pal used st)
    (hc : classify_quote pal used fuel st q = some (t, st1, r)) :
    QWF pal used st1 ∧ t.pfx = q ∧ (∃ ach, (ach, t) ∈ flatA [] st1.forest) ∧
      st.nextNid ≤ st1.nextNid := by
  unfold classify_quote at hc
  rw [if_neg (by omega : ¬ used ≤ 1)] at hc
  have hmain := scanA_ok pal used q st.qLevel st.nextNid fuel 0 st.forest []
    (by omega) (by intro s _; simp) (by intro a ha; simp at ha)
    hwf.anc_ok hwf.kids_pw hwf.top_pw
  cases hra : scanA pal used q st.qLevel st.nextNid fuel 0 st.forest with
  | out =>
    rw [hra] at hc
    exact absurd hc (by simp)
  | found t0 =>
    rw [hra] at hmain hc
    simp only [Option.some_inj, Prod.mk.injEq] at hc
    obtain ⟨rfl, rfl, rfl⟩ := hc
    obtain ⟨⟨ach, hmem⟩, hpfx⟩ := hmain
    exact ⟨hwf, hpfx, ⟨ach, hmem⟩, le_refl _⟩
  | nofind =>
    rw [hra] at hmain hc
    simp only [Option.some_inj, Prod.mk.injEq] at hc
    obtain ⟨rfl, rfl, rfl⟩ := hc
    obtain ⟨hnq, hsk⟩ := hmain
    set t0 : QTree := QTree.mk st.nextNid q st.qLevel (colorOf pal used st.qLevel) []
      with ht0
    have hflat : flatA [] (t0 :: st.forest)
        = ([], t0) :: flatA [] st.forest := by
      rw [flatA_cons]
      simp [ht0, flatA, QTree.pfx_mk, QTree.kids_mk]
    refine ⟨⟨?_, ?_, ?_, ?_, ?_, ?_, ?_⟩, rfl, ⟨[], by rw [hflat]; exact List.mem_cons_self _ _⟩, by simp⟩
    · intro e he
      rw [hflat] at he
      rcases List.mem_cons.mp he with rfl | he
      · intro a ha; simp at ha
      · exact hwf.anc_ok e he
    · intro e he
      rw [hflat] at he
      rcases List.mem_cons.mp he with rfl | he
      · simp [ht0, QTree.kids_mk]
      · exact hwf.kids_pw e he
    · simp only [List.map_cons]
      rw [List.pairwise_cons]
      refine ⟨?_, hwf.top_pw⟩
      intro x hx
      obtain ⟨s, hs, rfl⟩ := List.mem_map.mp hx
      rw [show t0.pfx = q from rfl]
      exact pfxIncomp_symm (hsk s hs)
    · rw [hflat, List.map_cons]
      rw [List.nodup_cons]
      refine ⟨?_, hwf.pfx_nd⟩
      intro hq
      obtain ⟨e, he, heq⟩ := List.mem_map.mp hq
      exact hnq e he heq
    · rw [hflat, List.map_cons]
      show (t0.idx :: (flatA [] st.forest).map (fun e => e.2.idx)).Perm
        (List.range (st.qLevel + 1))
      rw [show t0.idx = st.qLevel from rfl, List.range_succ]
      refine (hwf.idx_perm.cons _).trans ?_
      exact (List.perm_append_singleton _ _).symm
    · intro e he
      rw [hflat] at he
      rcases List.mem_cons.mp he with rfl | he
      · rfl
      · exact hwf.color_ok e he
    · intro e he
      rw [hflat] at he
      rcases List.mem_cons.mp he with rfl | he
      · show st.nextNid < st.nextNid + 1
        omega
      · have := hwf.nid_lt e he
        show e.2.nid < st.nextNid + 1
        omega
  | fresh l t0 =>
    rw [hra] at hmain hc
    simp only [Option.some_inj, Prod.mk.injEq] at hc
    obtain ⟨rfl, rfl, rfl⟩ := hc
    obtain ⟨hval, hmemt, hms, hnq, hC, hP, hmap⟩ := hmain
    refine ⟨⟨hC, hP, ?_, ?_, ?_, ?_, ?_⟩, ?_, ?_, by simp⟩
    · show (l.map QTree.pfx).Pairwise pfxIncomp
      rw [hmap]
      exact hwf.top_pw
    · show ((flatA [] l).map (fun e => e.2.pfx)).Nodup
      rw [← Multiset.coe_nodup, ← pfxMS_eq, hms, Multiset.map_cons,
          Multiset.nodup_cons]
      constructor
      · intro hqmem
        rw [pfxMS_eq, Multiset.mem_coe] at hqmem
        obtain ⟨e, he, heq⟩ := List.mem_map.mp hqmem
        exact hnq e he heq
      · rw [pfxMS_eq, Multiset.coe_nodup]
        exact hwf.pfx_nd
    · show ((flatA [] l).map (fun e => e.2.idx)).Perm (List.range (st.qLevel + 1))
      rw [← Multiset.coe_eq_coe, ← idxMS_eq, hms, Multiset.map_cons, idxMS_eq]
      show (st.qLevel ::ₘ _) = _
      rw [Multiset.cons_coe, Multiset.coe_eq_coe, List.range_succ]
      exact (hwf.idx_perm.cons _).trans (List.perm_append_singleton _ _).symm
    · intro e he
      have hx : entryInfo e ∈ infoMS [] l := mem_infoMS.mpr ⟨e, he, rfl⟩
      rw [hms, Multiset.mem_cons] at hx
      rcases hx with hx | hx
      · simp only [entryInfo, Prod.mk.injEq] at hx
        rw [hx.2.2.2, hx.2.2.1]
      · obtain ⟨e', he', heq⟩ := mem_infoMS.mp hx
        simp only [entryInfo, Prod.mk.injEq] at heq
        rw [← heq.2.2.2, ← heq.2.2.1]
        exact hwf.color_ok e' he'
    · intro e he
      have hx : entryInfo e ∈ infoMS [] l := mem_infoMS.mpr ⟨e, he, rfl⟩
      rw [hms, Multiset.mem_cons] at hx
      show e.2.nid < st.nextNid + 1
      rcases hx with hx | hx
      · simp only [entryInfo, Prod.mk.injEq] at hx
        omega
      · obtain ⟨e', he', heq⟩ := mem_infoMS.mp hx
        simp only [entryInfo, Prod.mk.injEq] at heq
        have := hwf.nid_lt e' he'
        omega
    · rw [hval, QTree.pfx_mk]
    · obtain ⟨e, he, hsnd⟩ := List.mem_map.mp hmemt
      refine ⟨e.1, ?_⟩
      have : e = (e.1, t0) := by
        rw [← hsnd]
      rw [← this]
      exact he
  | spliced l tmp cap =>
    rw [hra] at hmain hc
    obtain ⟨f1, f2, f3, f4, hmemt, hms, hcap, hnq, hC, hP, hpw, hcov⟩ := hmain
    replace hc : (match shift_class_colors pal used tmp.nid cap fuel [tmp],
          shift_class_colors pal used tmp.nid cap fuel l with
        | some [tmp'], some l' =>
            some (tmp', (⟨l', st.qLevel + 1, st.nextNid + 1⟩ : QState), true)
        | _, _ => none) = some (t, st1, r) := hc
    cases hs1 : shift_class_colors pal used tmp.nid cap fuel [tmp] with
    | none => rw [hs1] at hc; simp at hc
    | some tl =>
      rw [hs1] at hc
      cases hs2 : shift_class_colors pal used tmp.nid cap fuel l with
      | none =>
        rw [hs2] at hc
        match tl, hc with
        | [tmp'], hc => simp at hc
        | [], hc => simp at hc
        | t1 :: t2 :: ts, hc => simp at hc
      | some l' =>
        rw [hs2] at hc
        match tl, hc with
        | [], hc => simp at hc
        | t1 :: t2 :: ts, hc => simp at hc
        | [tmp'], hc =>
        simp only [Option.some_inj, Prod.mk.injEq] at hc
        obtain ⟨rfl, rfl, rfl⟩ := hc
        have hsk := shift_skeleton pal used tmp.nid cap fuel l l' [] hs2
        have hsk1 := shift_skeleton pal used tmp.nid cap fuel [tmp] [tmp'] [] hs1
        have hinfo := shift_info pal used tmp.nid cap fuel l l' [] hs2
        have hmsl' : infoMS [] l'
            = Multiset.map (shiftInfo pal used tmp.nid cap) (infoMS [] l) := by
          rw [infoMS, infoMS, hinfo, Multiset.map_coe]
        have hcaplt : cap < st.qLevel := by
          obtain ⟨e, he, heq⟩ := List.mem_map.mp hcap
          have : cap ∈ List.range st.qLevel := hwf.idx_perm.subset
            (by rw [← heq]; exact List.mem_map_of_mem _ he)
          simpa using this
        have hnidmap : ∀ x ∈ infoMS [] st.forest,
            shiftInfo pal used tmp.nid cap x
              = (if cap ≤ x.2.2.1 then (x.1, x.2.1, x.2.2.1 + 1,
                  colorOf pal used (x.2.2.1 + 1)) else x) := by
          intro x hx
          obtain ⟨e, he, heq⟩ := mem_infoMS.mp hx
          have hlt : x.1 < st.nextNid := by
            have := hwf.nid_lt e he
            rw [← heq]
            exact this
          rw [shiftInfo, if_neg (by rw [f1]; omega)]
        refine ⟨⟨?_, ?_, ?_, ?_, ?_, ?_, ?_⟩, ?_, ?_, by simp⟩
        · exact chainOK_of_skeleton hsk.1 hC
        · exact kidsPW_of_skeleton hsk.1 hP
        · show (l'.map QTree.pfx).Pairwise pfxIncomp
          rw [hsk.2]
          exact hpw
        · show ((flatA [] l').map (fun e => e.2.pfx)).Nodup
          have hpfxeq : (flatA [] l').map (fun e => e.2.pfx)
              = (flatA [] l).map (fun e => e.2.pfx) := by
            have := congrArg (List.map (fun x => x.2.1)) hsk.1
            simpa [List.map_map] using this
          rw [hpfxeq]
          rw [← Multiset.coe_nodup, ← pfxMS_eq, hms, Multiset.map_cons,
              Multiset.nodup_cons]
          constructor
          · intro hqmem
            rw [pfxMS_eq, Multiset.mem_coe] at hqmem
            obtain ⟨e, he, heq⟩ := List.mem_map.mp hqmem
            exact hnq e he heq
          · rw [pfxMS_eq, Multiset.coe_nodup]
            exact hwf.pfx_nd
        · show ((flatA [] l').map (fun e => e.2.idx)).Perm (List.range (st.qLevel + 1))
          rw [← Multiset.coe_eq_coe, ← idxMS_eq, hmsl', hms, Multiset.map_cons,
              Multiset.map_cons]
          have hhead : (shiftInfo pal used tmp.nid cap
              (st.nextNid, q, 0, 0)).2.2.1 = cap := by
            rw [shiftInfo, if_pos (by rw [f1])]
          rw [hhead]
          have htail : Multiset.map (fun x => x.2.2.1)
              (Multiset.map (shiftInfo pal used tmp.nid cap) (infoMS [] st.forest))
              = Multiset.map (fun i => if cap ≤ i then i + 1 else i)
                  (Multiset.map (fun x => x.2.2.1) (infoMS [] st.forest)) := by
            rw [Multiset.map_map, Multiset.map_map]
            apply Multiset.map_congr rfl
            intro x hx
            rw [Function.comp_apply, Function.comp_apply, hnidmap x hx]
            split <;> rfl
          rw [htail, idxMS_eq]
          have hperm := hwf.idx_perm
          rw [← Multiset.coe_eq_coe] at hperm
          rw [hperm]
          rw [Multiset.map_coe, Multiset.cons_coe, Multiset.coe_eq_coe]
          exact perm_range_bump st.qLevel cap hcaplt
        · intro e he
          have hx : entryInfo e ∈ infoMS [] l' := mem_infoMS.mpr ⟨e, he, rfl⟩
          rw [hmsl', hms, Multiset.map_cons, Multiset.mem_cons] at hx
          rcases hx with hx | hx
          · rw [shiftInfo, if_pos (by rw [f1])] at hx
            simp only [entryInfo, Prod.mk.injEq] at hx
            rw [hx.2.2.2, hx.2.2.1]
          · obtain ⟨y, hy, heq⟩ := Multiset.mem_map.mp hx
            rw [hnidmap y hy] at heq
            obtain ⟨e', he', heq'⟩ := mem_infoMS.mp hy
            by_cases hcy : cap ≤ y.2.2.1
            · rw [if_pos hcy] at heq
              simp only [entryInfo, Prod.mk.injEq] at heq
              rw [← heq.2.2.2, ← heq.2.2.1]
            · rw [if_neg hcy] at heq
              rw [← heq'] at heq
              simp only [entryInfo, Prod.mk.injEq] at heq
              rw [← heq.2.2.2, ← heq.2.2.1]
              exact hwf.color_ok e' he'
        · intro e he
          have hx : entryInfo e ∈ infoMS [] l' := mem_infoMS.mpr ⟨e, he, rfl⟩
          rw [hmsl', hms, Multiset.map_cons, Multiset.mem_cons] at hx
          show e.2.nid < st.nextNid + 1
          rcases hx with hx | hx
          · rw [shiftInfo, if_pos (by rw [f1])] at hx
            simp only [entryInfo, Prod.mk.injEq] at hx
            omega
          · obtain ⟨y, hy, heq⟩ := Multiset.mem_map.mp hx
            obtain ⟨e', he', heq'⟩ := mem_infoMS.mp hy
            have hlt : y.1 < st.nextNid := by
              have := hwf.nid_lt e' he'
              rw [← heq']
              exact this
            rw [hnidmap y hy] at heq
            have hn1 : (entryInfo e).1 = y.1 := by
              rw [← heq]
              split <;> rfl
            simp only [entryInfo] at hn1
            omega
        · have : tmp'.pfx = tmp.pfx := by
            have := hsk1.2
            simpa using this
          rw [this, f2]
        · obtain ⟨e, he, hsnd⟩ := List.mem_map.mp hmemt
          have hmem2 : (e.1, tmp) ∈ flatA [] l := by
            have : e = (e.1, tmp) := by rw [← hsnd]
            rw [← this]
            exact he
          obtain ⟨t', ht'1, ht'2⟩ := shift_mem pal used tmp.nid cap fuel l l' []
            e.1 tmp hs2 hmem2
          rw [hs1] at ht'1
          have heqt : tmp' = t' := by
            simpa using ht'1
          subst heqt
          exact ⟨e.1, ht'2⟩
  | exactB l t0 =>
    rw [hra] at hmain
    exact hmain.elim

theorem classify_found (pal : List Nat) (used fuel : Nat) (st : QState)
    (q : List Byte) (t : QTree) (ach : List (List Byte))
    (res : QTree × QState × Bool)
    (h2 : 2 ≤ used) (hwf : QWF pal used st)
    (hmem : (ach, t) ∈ flatA [] st.forest) (hpfx : t.pfx = q)
    (hc : classify_quote pal used fuel st q = some res) :
    res = (t, st, false) := by
  unfold classify_quote at hc
  rw [if_neg (by omega : ¬ used ≤ 1)] at hc
  rcases scanA_found pal used q st.qLevel st.nextNid fuel 0 st.forest []
    (by omega) (by intro s _; simp) (by intro a ha; simp at ha)
    hwf.anc_ok hwf.kids_pw hwf.top_pw ach t hmem hpfx with hra | hra
  · rw [hra] at hc
    simp only [Option.some_inj] at hc
    exact hc.symm
  · rw [hra] at hc
    simp at hc

theorem insertAll_wf (pal : List Nat) (used fuel : Nat) :
    ∀ (qs : List (List Byte)) (st st' : QState), 2 ≤ used →
    QWF pal used st →
    insertAll pal used fuel st qs = some st' → QWF pal used st' := by
  intro qs
  induction qs with
  | nil =>
    intro st st' _ hwf h
    simp only [insertAll, Option.some_inj] at h
    subst h
    exact hwf
  | cons q qs ih =>
    intro st st' h2 hwf h
    rw [insertAll] at h
    cases hcq : classify_quote pal used fuel st q with
    | none => rw [hcq] at h; simp at h
    | some trip =>
      rw [hcq] at h
      obtain ⟨t1, st1, r1⟩ := trip
      have hs := classify_sound pal used fuel st q t1 st1 r1 h2 hwf hcq
      exact ih st1 st' h2 hs.1 h

/-- C2 (confirmed): for every sequence of quote-prefix insertions from the
empty classifier state (with at least two palette colours), (a) a second
`classify_quote` invocation with a byte-identical prefix returns the very
same node (same allocation id, prefix, index and colour), leaves the state
unchanged and assigns no new colour; (b) distinct nodes — in particular
distinct prefix strings where neither is a prefix of the other — carry
pairwise distinct `depth_index` values; (c) every node's colour is
`ColorQuote[index % ColorQuoteUsed]`, and that formula cycles exactly every
`ColorQuoteUsed` indices. -/
theorem C2_quote_classifier :
    ∀ (pal : List Nat) (used fuel : Nat) (qs : List (List Byte)) (st : QState),
    2 ≤ used →
    insertAll pal used fuel emptyQ qs = some st →
    (∀ q t st1 r fuel2 res,
        classify_quote pal used fuel st q = some (t, st1, r) →
        classify_quote pal used fuel2 st1 q = some res →
        res = (t, st1, false)) ∧
    ((flatA [] st.forest).map (fun e => e.2.idx)).Nodup ∧
    (∀ e ∈ flatA [] st.forest, e.2.color = pal.getD (e.2.idx % used) 0) ∧
    (∀ i, colorOf pal used (i + used) = colorOf pal used i) := by
  intro pal used fuel qs st h2 hins
  have hwf := insertAll_wf pal used fuel qs emptyQ st h2 (emptyQ_wf pal used) hins
  refine ⟨?_, ?_, ?_, ?_⟩
  · intro q t st1 r fuel2 res hc1 hc2
    obtain ⟨hwf1, hpfx, ⟨ach, hmem⟩, _⟩ :=
      classify_sound pal used fuel st q t st1 r h2 hwf hc1
    exact classify_found pal used fuel2 st1 q t ach res h2 hwf1 hmem hpfx hc2
  · exact hwf.idx_perm.nodup_iff.mpr (List.nodup_range _)
  · intro e he
    exact hwf.color_ok e he
  · intro i
    unfold colorOf
    rw [Nat.add_mod_right]

/-- C3 (confirmed): after any sequence of `classify_quote` insertions from
the empty state (with at least two palette colours), (i) for every
parent/child pair in the quote forest the parent's prefix is a strict
byte-for-byte prefix of the child's, so the child's length strictly
exceeds the parent's; (ii) the `depth_index` values across the whole
forest are exactly `0 .. q_level - 1`; (iii) `shift_class_colors`
renumbers precisely the nodes whose index is at least the insertion
index (incrementing the index and recomputing the colour) and gives the
new class the insertion index and its palette colour, as stated by the
`shiftInfo` map. -/
theorem C3_quote_forest :
    ∀ (pal : List Nat) (used fuel : Nat) (qs : List (List Byte)) (st : QState),
    2 ≤ used →
    insertAll pal used fuel emptyQ qs = some st →
    (∀ e ∈ flatA [] st.forest, ∀ k ∈ e.2.kids,
        e.2.pfx <+: k.pfx ∧ e.2.pfx.length < k.pfx.length) ∧
    ((flatA [] st.forest).map (fun e => e.2.idx)).Perm (List.range st.qLevel) ∧
    (∀ tn cap fuel2 (l l' : List QTree),
        shift_class_colors pal used tn cap fuel2 l = some l' →
        (flatA [] l').map entryInfo
          = ((flatA [] l).map entryInfo).map (shiftInfo pal used tn cap)) := by
  intro pal used fuel qs st h2 hins
  have hwf := insertAll_wf pal used fuel qs emptyQ st h2 (emptyQ_wf pal used) hins
  refine ⟨?_, hwf.idx_perm, ?_⟩
  · intro e he k hk
    obtain ⟨ach, t⟩ := e
    have hkid := flatA_mem_kid st.forest [] ach t k he hk
    exact hwf.anc_ok _ hkid t.pfx (List.mem_cons_self _ _)
  · intro tn cap fuel2 l l' hsh
    exact shift_info pal used tn cap fuel2 l l' [] hsh

/-- Witness for C2 at a concrete run: inserting `">"` then `">>"` with
palette `[11, 12, 13]`. -/
theorem C2_quote_classifier_witness :
    (2 ≤ 3 ∧ insertAll [11, 12, 13] 3 20 emptyQ [[62], [62, 62]]
        = some ⟨[QTree.mk 0 [62] 0 11 [QTree.mk 1 [62, 62] 1 12 []]], 2, 2⟩) ∧
    ((flatA [] [QTree.mk 0 [62] 0 11 [QTree.mk 1 [62, 62] 1 12 []]]).map
        (fun e => e.2.idx)).Nodup :=
  ⟨⟨by omega, by rfl⟩,
    (C2_quote_classifier [11, 12, 13] 3 20 [[62], [62, 62]]
      ⟨[QTree.mk 0 [62] 0 11 [QTree.mk 1 [62, 62] 1 12 []]], 2, 2⟩
      (by omega) (by rfl)).2.1⟩

/-- Witness for C3 at the same concrete run. -/
theorem C3_quote_forest_witness :
    (2 ≤ 3 ∧ insertAll [11, 12, 13] 3 20 emptyQ [[62], [62, 62]]
        = some ⟨[QTree.mk 0 [62] 0 11 [QTree.mk 1 [62, 62] 1 12 []]], 2, 2⟩) ∧
    ((flatA [] [QTree.mk 0 [62] 0 11 [QTree.mk 1 [62, 62] 1 12 []]]).map
        (fun e => e.2.idx)).Perm (List.range 2) :=
  ⟨⟨by omega, by rfl⟩,
    (C3_quote_forest [11, 12, 13] 3 20 [[62], [62, 62]]
      ⟨[QTree.mk 0 [62] 0 11 [QTree.mk 1 [62, 62] 1 12 []]], 2, 2⟩
      (by omega) (by rfl)).2.1⟩

end Pager
